import Mathlib

/-!
Verification of the `lsm-engine` storage engine (Go) against its
natural-language specification.

The Go sources are shallowly embedded: byte strings become `List Nat`,
`uint32`/`uint64` arithmetic becomes `Nat` arithmetic with explicit
`% 2^32` / `% 2^64` where the Go code can wrap, fallible operations
return `Option`, and a Go runtime panic (out-of-range slice) is
modelled as `Option.none` at the outermost layer.  Every definition is
translated from the corresponding Go function; the file then proves or
refutes the frozen claims about the engine.
-/

namespace LSM

/-! ### Byte-level primitives

Byte strings (`[]byte` in Go) are `List Nat`.  Encoding functions only
ever emit values `< 256`; content bytes copied from inputs are kept
as-is (the model is a superset of real byte strings, which is harmless
because every theorem quantifies over all lists). -/

/-- A Go `[]byte` value. -/
abbrev Bytes := List Nat

/-- Read one byte of a buffer, 0 out of range (in-range at every use site
that matters; bounds are checked separately, mirroring Go's checks). -/
def byteAt (l : Bytes) (i : Nat) : Nat := l.getD i 0

/-- `binary.LittleEndian.PutUint32`: the four little-endian bytes of `n`
truncated to 32 bits. -/
def le32 (n : Nat) : Bytes :=
  [n % 256, n / 256 % 256, n / 65536 % 256, n / 16777216 % 256]

/-- `binary.LittleEndian.PutUint64`: the eight little-endian bytes of `n`
truncated to 64 bits. -/
def le64 (n : Nat) : Bytes :=
  [n % 256, n / 256 % 256, n / 65536 % 256, n / 16777216 % 256,
   n / 4294967296 % 256, n / 1099511627776 % 256,
   n / 281474976710656 % 256, n / 72057594037927936 % 256]

/-- `binary.LittleEndian.Uint32` at offset `off`. -/
def readU32 (l : Bytes) (off : Nat) : Nat :=
  byteAt l off + 256 * byteAt l (off + 1) + 65536 * byteAt l (off + 2) +
    16777216 * byteAt l (off + 3)

/-- `binary.LittleEndian.Uint64` at offset `off`. -/
def readU64 (l : Bytes) (off : Nat) : Nat :=
  byteAt l off + 256 * byteAt l (off + 1) + 65536 * byteAt l (off + 2) +
    16777216 * byteAt l (off + 3) + 4294967296 * byteAt l (off + 4) +
    1099511627776 * byteAt l (off + 5) + 281474976710656 * byteAt l (off + 6) +
    72057594037927936 * byteAt l (off + 7)

/-- Go slice expression `l[lo:hi]`; `none` models the runtime panic
`slice bounds out of range`. -/
def goSlice (l : Bytes) (lo hi : Nat) : Option Bytes :=
  if lo ≤ hi ∧ hi ≤ l.length then some ((l.take hi).drop lo) else none

/-- `File.ReadAt` with an `n`-byte buffer at offset `off`: returns the
bytes, or `none` when fewer than `n` bytes are available (Go returns an
error in that case). -/
def readAt (l : Bytes) (off n : Nat) : Option Bytes :=
  if off + n ≤ l.length then some ((l.drop off).take n) else none

@[simp] theorem length_le32 (n : Nat) : (le32 n).length = 4 := rfl

@[simp] theorem length_le64 (n : Nat) : (le64 n).length = 8 := rfl

/-! ### Keys and Go string comparison

Go compares strings lexicographically on their bytes; keys are modelled
as `List Nat` with the same order. -/

/-- Go `a < b` on strings (byte-wise lexicographic). -/
def keyLt : List Nat → List Nat → Bool
  | [], [] => false
  | [], _ :: _ => true
  | _ :: _, [] => false
  | a :: as, b :: bs => if a < b then true else if b < a then false else keyLt as bs

/-! ### Go `sort.Search`

`sort.Search(n, f)` binary-searches for the least `i < n` with `f i`
(returning `n` when there is none), assuming `f` is monotone. -/

/-- The loop of Go `sort.Search`: invariant `i ≤ j`; narrows `[i, j)`. -/
def sortSearchAux (f : Nat → Bool) (i j : Nat) : Nat :=
  if h : i < j then
    let m := (i + j) / 2
    if f m then sortSearchAux f i m else sortSearchAux f (m + 1) j
  else i
termination_by j - i
decreasing_by
  · omega
  · omega

/-- Go `sort.Search n f`. -/
def sortSearch (n : Nat) (f : Nat → Bool) : Nat := sortSearchAux f 0 n

/-! ### Checksums and hashes

`hash/crc32.ChecksumIEEE` (reflected polynomial `0xEDB88320`) and the
64-bit FNV-1a hash from `hash/fnv`, over 32- and 64-bit naturals. -/

/-- One bit step of the reflected CRC-32 computation. -/
def crc32Round (c : Nat) : Nat :=
  if c % 2 = 1 then (c / 2) ^^^ 0xEDB88320 else c / 2

/-- Absorb one input byte into the CRC state. -/
def crc32Byte (crc b : Nat) : Nat := crc32Round^[8] (crc ^^^ b % 256)

/-- `crc32.ChecksumIEEE`. -/
def crc32 (data : Bytes) : Nat := (data.foldl crc32Byte 0xFFFFFFFF) ^^^ 0xFFFFFFFF

/-- One byte step of 64-bit FNV-1a: xor the byte, multiply by the FNV
prime, modulo `2^64`. -/
def fnv64Step (h b : Nat) : Nat := ((h ^^^ b % 256) * 0x100000001b3) % 18446744073709551616

/-- The 64-bit FNV-1a hash (`fnv.New64a` / `Sum64`). -/
def fnv64 (data : Bytes) : Nat := data.foldl fnv64Step 0xcbf29ce484222325

/-! ### Write-ahead log (`wal.go`)

Record framing: `[payload_len u32][crc32 u32][payload]` with
`payload = [op u8][key_len u32][key][value_len u32][value]`.
`Replay` is modelled on the full byte content of the WAL file; `none`
models a Go runtime panic escaping `Replay`, `some entries` its normal
silent-stop behaviour. -/

/-- `OpPut = 1`, `OpDelete = 2`; the field is a raw byte because
`decodePayload` accepts any value (`Open` ignores unknown ops). -/
structure WALEntry where
  op : Nat
  key : Bytes
  value : Bytes
deriving DecidableEq, Repr

/-- The payload bytes built by `WAL.Append`. -/
def walPayload (e : WALEntry) : Bytes :=
  e.op % 256 :: (le32 e.key.length ++ e.key ++ le32 e.value.length ++ e.value)

/-- The full record written by `WAL.Append`
(`[4 bytes length][4 bytes crc][payload]`). -/
def encodeWALRecord (e : WALEntry) : Bytes :=
  le32 (walPayload e).length ++ le32 (crc32 (walPayload e)) ++ walPayload e

/-- The byte content of a WAL file holding the given records in order. -/
def walEncodeAll (es : List WALEntry) : Bytes :=
  (es.map encodeWALRecord).flatten

/-- `decodePayload`.  Outer `none` models a Go panic (slice bounds out of
range, reachable through the wrapping `uint32` length arithmetic); inner
`none` models the Go error return.  All length comparisons and the slice
bounds are `uint32` arithmetic exactly as in the source. -/
def decodePayload (payload : Bytes) : Option (Option WALEntry) :=
  if payload.length < 9 then some none
  else
    let op := byteAt payload 0
    let keyLen := readU32 payload 1
    if payload.length % 4294967296 < (5 + keyLen + 4) % 4294967296 then some none
    else
      match goSlice payload 5 ((5 + keyLen) % 4294967296) with
      | none => none
      | some key =>
        let valOff := (5 + keyLen) % 4294967296
        match goSlice payload valOff ((valOff + 4) % 4294967296) with
        | none => none
        | some _ =>
          let valLen := readU32 payload valOff
          if payload.length % 4294967296 < (valOff + 4 + valLen) % 4294967296 then
            some none
          else
            match goSlice payload ((valOff + 4) % 4294967296)
                ((valOff + 4 + valLen) % 4294967296) with
            | none => none
            | some value => some (some ⟨op, key, value⟩)

/-- The loop of `Replay`: read an 8-byte header, bound the length by
64 MiB, read the payload, verify the CRC, decode; any failure stops
silently, a decode panic propagates. -/
def wReplay (bytes : Bytes) : Option (List WALEntry) :=
  if _hlen : bytes.length < 8 then some []
  else
    let len := readU32 bytes 0
    let storedCRC := readU32 bytes 4
    if 67108864 < len then some []
    else if bytes.length < 8 + len then some []
    else
      let payload := (bytes.drop 8).take len
      if crc32 payload ≠ storedCRC then some []
      else
        match decodePayload payload with
        | none => none
        | some none => some []
        | some (some e) => (wReplay (bytes.drop (8 + len))).map (e :: ·)
termination_by bytes.length
decreasing_by
  simp only [List.length_drop]
  omega

/-- `Replay` on the byte content of the WAL file (a missing file is the
empty byte string, yielding no entries). -/
def Replay (bytes : Bytes) : Option (List WALEntry) := wReplay bytes

/-! ### Bloom filter (`bloom.go`)

The float64 sizing `m = -n·ln(p)/(ln 2)²`, `k = (m/n)·ln 2` is evaluated
at the only false-positive rate the repository ever passes, `p = 0.01`,
in exact rational arithmetic: `-ln(0.01)/(ln 2)² = 9.585058377367439…`
(that decimal is the exact float64 value Go computes) and
`k = log₂ 100 = 6.6438…`, so `numHash` is always `⌈6.6438…⌉ = 7`.
No theorem below depends on the concrete value of `numBits` beyond the
clamps `numBits ≥ 8`, `numHash ≥ 1` that the Go code enforces. -/

structure BloomFilter where
  bits : Bytes
  numBits : Nat
  numHash : Nat
deriving DecidableEq, Repr

/-- A fresh all-zero filter with the given parameters (the allocation
`make([]byte, (numBits+7)/8)` at the end of `NewBloomFilter`). -/
def newBloomFilterSized (numBits numHash : Nat) : BloomFilter :=
  ⟨List.replicate ((numBits + 7) / 8) 0, numBits, numHash⟩

/-- `uint32(math.Ceil(-n·ln(0.01)/(ln 2)²))` clamped to at least 8, with
the float expression evaluated as the rational
`n · 9585058377367439 / 10^15` (and the `expectedItems < 1` guard). -/
def bloomNumBits (expectedItems : Nat) : Nat :=
  max 8 ((max expectedItems 1 * 9585058377367439 + 999999999999999) / 1000000000000000)

/-- `uint32(math.Ceil((m/n)·ln 2))` clamped to at least 1: for
`p = 0.01` this is `⌈log₂ 100⌉ = 7` independently of `n`. -/
def bloomNumHash (_expectedItems : Nat) : Nat := 7

/-- `NewBloomFilter(expectedItems, 0.01)` (every call site in the
repository passes `fpRate = 0.01`, and the guard replaces out-of-range
rates by 0.01 anyway). -/
def NewBloomFilter (expectedItems : Nat) : BloomFilter :=
  newBloomFilterSized (bloomNumBits expectedItems) (bloomNumHash expectedItems)

/-- `BloomFilter.hash`: the 64-bit FNV-1a hash split into low/high
32-bit halves, the high half forced nonzero. -/
def bloomHash (key : Bytes) : Nat × Nat :=
  let sum := fnv64 key
  (sum % 4294967296,
   if sum / 4294967296 = 0 then 1 else sum / 4294967296)

/-- The `i`-th probed bit position `(h1 + i*h2) % numBits`, with the
wrapping `uint32` addition/multiplication made explicit.  (For
`numBits = 0` Go would panic with a division by zero; every filter the
code builds has `numBits ≥ 8`.) -/
def bitPos (h1 h2 i numBits : Nat) : Nat :=
  (h1 + i * h2) % 4294967296 % numBits

/-- `bits[pos/8] |= 1 << (pos%8)`. -/
def bitSet (bits : Bytes) (pos : Nat) : Bytes :=
  bits.set (pos / 8) (byteAt bits (pos / 8) ||| (1 <<< (pos % 8)))

/-- `bits[pos/8] & (1 << (pos%8)) != 0`. -/
def bitGet (bits : Bytes) (pos : Nat) : Bool :=
  byteAt bits (pos / 8) &&& (1 <<< (pos % 8)) != 0

/-- `BloomFilter.Add`. -/
def BloomFilter.Add (bf : BloomFilter) (key : Bytes) : BloomFilter :=
  let h := bloomHash key
  { bf with
    bits := (List.range bf.numHash).foldl
      (fun bits i => bitSet bits (bitPos h.1 h.2 i bf.numBits)) bf.bits }

/-- `BloomFilter.MayContain`. -/
def BloomFilter.MayContain (bf : BloomFilter) (key : Bytes) : Bool :=
  let h := bloomHash key
  (List.range bf.numHash).all (fun i => bitGet bf.bits (bitPos h.1 h.2 i bf.numBits))

/-- `BloomFilter.Serialize`: `[numBits u32][numHash u32][bits]`. -/
def BloomFilter.Serialize (bf : BloomFilter) : Bytes :=
  le32 bf.numBits ++ le32 bf.numHash ++ bf.bits

/-- `DeserializeBloom`: too-short input falls back to
`NewBloomFilter(1, 0.01)`. -/
def DeserializeBloom (data : Bytes) : BloomFilter :=
  if data.length < 8 then NewBloomFilter 1
  else ⟨data.drop 8, readU32 data 0, readU32 data 4⟩

/-! ### Memtable (`memtable.go`)

A sorted slice with binary-search insertion.  A Go `nil` value slice
(the tombstone representation) is `Option.none`; a caller-supplied
value is always `some`. -/

def DefaultMemtableSize : Nat := 4 * 1024 * 1024

structure MemEntry where
  key : Bytes
  value : Option Bytes
  tombstone : Bool
deriving DecidableEq, Repr, Inhabited

structure Memtable where
  entries : List MemEntry
  size : Nat
  threshold : Nat
deriving DecidableEq, Repr

def NewMemtable (threshold : Nat) : Memtable := ⟨[], 0, threshold⟩

/-- `Memtable.search`: `sort.Search` for the first index whose key is
`≥ key`. -/
def Memtable.search (m : Memtable) (key : Bytes) : Nat :=
  sortSearch m.entries.length (fun i => !keyLt (m.entries.getD i default).key key)

/-- Go `len` of a possibly-nil byte slice. -/
def valBytesLen (v : Option Bytes) : Nat := (v.getD []).length

/-- `Memtable.Put`. -/
def Memtable.Put (m : Memtable) (key value : Bytes) : Memtable :=
  let idx := m.search key
  if idx < m.entries.length ∧ (m.entries.getD idx default).key = key then
    { m with
      entries := m.entries.set idx ⟨key, some value, false⟩,
      size := m.size - valBytesLen (m.entries.getD idx default).value + value.length }
  else
    { m with
      entries := m.entries.insertIdx idx ⟨key, some value, false⟩,
      size := m.size + key.length + value.length + 1 }

/-- `Memtable.Delete`. -/
def Memtable.Delete (m : Memtable) (key : Bytes) : Memtable :=
  let idx := m.search key
  if idx < m.entries.length ∧ (m.entries.getD idx default).key = key then
    { m with
      entries := m.entries.set idx ⟨key, none, true⟩,
      size := m.size - valBytesLen (m.entries.getD idx default).value }
  else
    { m with
      entries := m.entries.insertIdx idx ⟨key, none, true⟩,
      size := m.size + key.length + 1 }

/-- `Memtable.Get`: `(some v, true)` found live, `(none, true)` found
tombstone (Go `(nil, true)`), `(none, false)` absent. -/
def Memtable.Get (m : Memtable) (key : Bytes) : Option Bytes × Bool :=
  let idx := m.search key
  if idx < m.entries.length ∧ (m.entries.getD idx default).key = key then
    if (m.entries.getD idx default).tombstone then (none, true)
    else ((m.entries.getD idx default).value, true)
  else (none, false)

def Memtable.IsFull (m : Memtable) : Bool := decide (m.threshold ≤ m.size)

def Memtable.Len (m : Memtable) : Nat := m.entries.length

def Memtable.Entries (m : Memtable) : List MemEntry := m.entries

/-! ### SSTable writer and reader (`sstable.go`, `sstable_reader.go`)

`WriteSSTable` produces the byte content of the file; `OpenSSTable`
parses it back.  `none` models both returned errors and parse panics
(the claims never need to distinguish them on `Open`); in `readEntry`
the outer `none` is specifically the Go panic. -/

def sstMagic : Nat := 0x4C534D54

def footerSize : Nat := 28

structure SSTableEntry where
  key : Bytes
  value : Bytes
  tombstone : Bool
deriving DecidableEq, Repr, Inhabited

/-- One data entry:
`[key_len u32][key][value_len u32][value][tombstone u8]`. -/
def encDataEntry (e : SSTableEntry) : Bytes :=
  le32 e.key.length ++ e.key ++ le32 e.value.length ++ e.value ++
    [if e.tombstone then 1 else 0]

def sstDataBytes (entries : List SSTableEntry) : Bytes :=
  (entries.map encDataEntry).flatten

/-- The in-memory index built while writing: each key with the byte
offset of its data entry. -/
def sstIndexFrom (off : Nat) : List SSTableEntry → List (Bytes × Nat)
  | [] => []
  | e :: rest => (e.key, off) :: sstIndexFrom (off + (encDataEntry e).length) rest

/-- One index entry: `[key_len u32][key][offset u64]`. -/
def encIndexEntry (p : Bytes × Nat) : Bytes := le32 p.1.length ++ p.1 ++ le64 p.2

def sstIndexBytes (entries : List SSTableEntry) : Bytes :=
  ((sstIndexFrom 0 entries).map encIndexEntry).flatten

/-- The bloom filter `WriteSSTable` builds over the keys. -/
def buildBloom (entries : List SSTableEntry) : BloomFilter :=
  entries.foldl (fun bf e => bf.Add e.key) (NewBloomFilter entries.length)

/-- The 28-byte footer
`[index_offset u64][index_count u32][bloom_offset u64][bloom_size u32][magic u32]`. -/
def sstFooter (indexOffset count bloomOffset bloomSize : Nat) : Bytes :=
  le64 indexOffset ++ le32 count ++ le64 bloomOffset ++ le32 bloomSize ++ le32 sstMagic

/-- `WriteSSTable` as a function from the entry list to the bytes of
the produced file. -/
def WriteSSTable (entries : List SSTableEntry) : Bytes :=
  let data := sstDataBytes entries
  let indexBytes := sstIndexBytes entries
  let bloomBytes := (buildBloom entries).Serialize
  data ++ indexBytes ++ bloomBytes ++
    sstFooter data.length entries.length (data.length + indexBytes.length)
      bloomBytes.length

structure SSTableReader where
  file : Bytes
  index : List (Bytes × Nat)
  bloom : BloomFilter
deriving DecidableEq, Repr

/-- The index-decoding loop of `OpenSSTable` (unchecked slicing in Go;
`none` models the panic on corrupt input). -/
def parseIndex : Bytes → Nat → Option (List (Bytes × Nat))
  | _, 0 => some []
  | bytes, c + 1 =>
    match goSlice bytes 0 4 with
    | none => none
    | some _ =>
      let keyLen := readU32 bytes 0
      match goSlice bytes 4 (4 + keyLen) with
      | none => none
      | some key =>
        match goSlice bytes (4 + keyLen) (4 + keyLen + 8) with
        | none => none
        | some _ =>
          let off := readU64 bytes (4 + keyLen)
          (parseIndex (bytes.drop (12 + keyLen)) c).map ((key, off) :: ·)

/-- `OpenSSTable` on the byte content of a file.  (When
`bloomOffset < indexOffset` Go would panic on a negative `make`; the
model's truncated subtraction reads 0 bytes instead — unreachable for
files the writer produced, which are the only ones the claims open.) -/
def OpenSSTable (file : Bytes) : Option SSTableReader :=
  if file.length < footerSize then none
  else
    let footer := (file.drop (file.length - footerSize)).take footerSize
    if readU32 footer 24 ≠ sstMagic then none
    else
      let indexOffset := readU64 footer 0
      let indexCount := readU32 footer 8
      let bloomOffset := readU64 footer 12
      let bloomSize := readU32 footer 20
      match readAt file bloomOffset bloomSize with
      | none => none
      | some bloomData =>
        match readAt file indexOffset (bloomOffset - indexOffset) with
        | none => none
        | some indexData =>
          (parseIndex indexData indexCount).map
            (fun idx => ⟨file, idx, DeserializeBloom bloomData⟩)

/-- `SSTableReader.readEntry`.  Outer `none` is the Go panic from
`value := data[:valLen]` after `make([]byte, valLen+1)` wrapped; inner
`none` is the `(nil, false, false)` error return. -/
def readEntry (file : Bytes) (offset : Nat) : Option (Option (Bytes × Bool)) :=
  match readAt file offset 4 with
  | none => some none
  | some _ =>
    let keyLen := readU32 file offset
    match readAt file (offset + 4 + keyLen) 4 with
    | none => some none
    | some _ =>
      let valLen := readU32 file (offset + 4 + keyLen)
      match readAt file (offset + 4 + keyLen + 4) ((valLen + 1) % 4294967296) with
      | none => some none
      | some data =>
        match goSlice data 0 valLen with
        | none => none
        | some value => some (some (value, byteAt data valLen == 1))

/-- `SSTableReader.Get`: bloom check, binary search of the index,
then a data read.  `some none` is Go's `found = false`. -/
def SSTableReader.Get (r : SSTableReader) (key : Bytes) : Option (Option (Bytes × Bool)) :=
  if !r.bloom.MayContain key then some none
  else
    let idx := sortSearch r.index.length (fun i => !keyLt (r.index.getD i default).1 key)
    if idx < r.index.length ∧ (r.index.getD idx default).1 = key then
      readEntry r.file (r.index.getD idx default).2
    else some none

/-- The loop of `SSTableReader.ReadAll`: entries that fail to read are
skipped (`continue`), a read panic propagates. -/
def readAllAux (file : Bytes) : List (Bytes × Nat) → Option (List SSTableEntry)
  | [] => some []
  | (k, off) :: rest =>
    match readEntry file off with
    | none => none
    | some none => readAllAux file rest
    | some (some (v, tb)) => (readAllAux file rest).map (⟨k, v, tb⟩ :: ·)

/-- `SSTableReader.ReadAll`. -/
def SSTableReader.ReadAll (r : SSTableReader) : Option (List SSTableEntry) :=
  readAllAux r.file r.index

/-! ### Compaction (`compaction.go`) -/

def CompactionThreshold : Nat := 4

/-- One iteration of the min-key scan of `kWayMerge`: skip an exhausted
set, otherwise keep the smaller of the accumulator and the head key
(`minSet == -1` is the `none` accumulator). -/
def hmStep (acc : Option Bytes) (s : List SSTableEntry) : Option Bytes :=
  match s.head? with
  | none => acc
  | some e =>
    match acc with
    | none => some e.key
    | some mk => if keyLt e.key mk then some e.key else acc

/-- The first scan of the `kWayMerge` loop: the smallest key currently
at any cursor (`none` when all sets are exhausted). -/
def headsMinKey (sets : List (List SSTableEntry)) : Option Bytes :=
  sets.foldl hmStep none

/-- The second scan: the entry of the lowest-indexed (newest) set whose
cursor sits on `mk`. -/
def pickWinner (sets : List (List SSTableEntry)) (mk : Bytes) : Option SSTableEntry :=
  sets.findSome? (fun s => s.head?.bind (fun e => if e.key = mk then some e else none))

/-- Advance every cursor whose current entry has key `mk`. -/
def advance (sets : List (List SSTableEntry)) (mk : Bytes) : List (List SSTableEntry) :=
  sets.map (fun s =>
    match s with
    | [] => []
    | e :: t => if e.key = mk then t else e :: t)

def sumLen (sets : List (List SSTableEntry)) : Nat := (sets.map List.length).sum

/-- `kWayMerge` (cursors are modelled by the remaining suffix of each
set rather than by a position array). -/
def kWayMerge (sets : List (List SSTableEntry)) : List SSTableEntry :=
  match headsMinKey sets with
  | none => []
  | some mk =>
    match hw : pickWinner sets mk with
    | none => []
    | some w => w :: kWayMerge (advance sets mk)
termination_by sumLen sets
decreasing_by
  obtain ⟨s, hsmem, hf⟩ := List.exists_of_findSome?_eq_some hw
  have hexists : ∃ e t, (e :: t) ∈ sets ∧ e.key = mk := by
    cases s with
    | nil => simp at hf
    | cons e t =>
      refine ⟨e, t, hsmem, ?_⟩
      simp only [List.head?_cons, Option.some_bind] at hf
      by_cases he : e.key = mk
      · exact he
      · simp [he] at hf
  obtain ⟨e, t, hmem, hkey⟩ := hexists
  clear hw hf hsmem
  simp only [advance, sumLen, List.map_map]
  apply List.sum_lt_sum
  · intro s2 _
    cases s2 with
    | nil => simp
    | cons e2 t2 =>
      by_cases he2 : e2.key = mk <;> simp [he2, Function.comp]
  · refine ⟨e :: t, hmem, ?_⟩
    simp [hkey, Function.comp]

/-- The tombstone-dropping pass of `Compact`, applied to the merge of
the given entry sets (newest first). -/
def compactEntries (sets : List (List SSTableEntry)) : List SSTableEntry :=
  (kWayMerge sets).filter (fun e => !e.tombstone)

/-- `Compact`: read all inputs, merge, drop tombstones, write the
output SSTable (also when empty).  Returns the bytes of the output
file. -/
def Compact (readers : List SSTableReader) : Option Bytes :=
  match readers.mapM SSTableReader.ReadAll with
  | none => none
  | some sets => some (WriteSSTable (compactEntries sets))

/-! ### Engine glue (`db.go`, `db_internal.go`)

The filesystem is a list of SSTable files (level, sequence number, byte
content) plus the byte content of the WAL file; `os.Remove`/`os.Create`
become list operations on it. `none` threaded through an operation is a
Go error or panic escaping it. -/

inductive DBOp where
  | put (key value : Bytes)
  | del (key : Bytes)
deriving DecidableEq, Repr

/-- One `{level}-{sequence:06d}.sst` file and its content. -/
structure DBFile where
  level : Nat
  seq : Nat
  content : Bytes
deriving DecidableEq, Repr

structure DBState where
  mem : Memtable
  sstables : List SSTableReader
  files : List DBFile
  walBytes : Bytes
  nextSeq : Nat
deriving DecidableEq, Repr

/-- Insertion step for sorting files newest-first by sequence number. -/
def insertDescBySeq (f : DBFile) : List DBFile → List DBFile
  | [] => [f]
  | g :: t => if g.seq < f.seq then f :: g :: t else g :: insertDescBySeq f t

/-- The `sort.Slice(..., seq_i > seq_j)` of `allSSTables`/`loadSSTables`
(sequence numbers of distinct files are distinct in every reachable
state, so the sort is deterministic). -/
def sortBySeqDesc (files : List DBFile) : List DBFile :=
  files.foldr insertDescBySeq []

/-- The `nextSeq` bumping of `loadSSTables`: one greater than the
largest sequence seen, at least `start`. -/
def nextSeqAfterLoad (files : List DBFile) (start : Nat) : Nat :=
  files.foldl (fun ns f => if ns ≤ f.seq then f.seq + 1 else ns) start

/-- `loadSSTables`: open every `.sst` file, newest first. -/
def openAll (files : List DBFile) : Option (List SSTableReader) :=
  (sortBySeqDesc files).mapM (fun f => OpenSSTable f.content)

/-- The WAL replay loop of `Open`: `OpPut` → `Put`, `OpDelete` →
`Delete`, anything else ignored. -/
def applyWALToMem (m : Memtable) (e : WALEntry) : Memtable :=
  if e.op = 1 then m.Put e.key e.value
  else if e.op = 2 then m.Delete e.key
  else m

/-- `Open` on a directory holding the given SSTable files and WAL
content. -/
def Open (files : List DBFile) (walBytes : Bytes) : Option DBState :=
  match openAll files with
  | none => none
  | some readers =>
    match Replay walBytes with
    | none => none
    | some entries =>
      some {
        mem := entries.foldl applyWALToMem (NewMemtable DefaultMemtableSize),
        sstables := readers,
        files := files,
        walBytes := walBytes,
        nextSeq := nextSeqAfterLoad files 1 }

/-- `level0SSTables().length`: how many level-0 files the directory
holds. -/
def level0Count (files : List DBFile) : Nat :=
  (files.filter (fun f => f.level == 0)).length

/-- The memtable-to-SSTable entry conversion at the top of `flush`
(a `nil` value serializes as the empty value). -/
def memToSSTEntries (m : Memtable) : List SSTableEntry :=
  m.entries.map (fun e => ⟨e.key, e.value.getD [], e.tombstone⟩)

/-- `maybeCompact`: when at least `CompactionThreshold` level-0 files
exist, merge ALL files (newest first) into one level-1 file, delete the
inputs and reload from disk. -/
def maybeCompact (st : DBState) : Option DBState :=
  if level0Count st.files < CompactionThreshold then some st
  else
    let allFiles := sortBySeqDesc st.files
    match allFiles.mapM (fun f => OpenSSTable f.content) with
    | none => none
    | some readers =>
      match Compact readers with
      | none => none
      | some outBytes =>
        let files2 := [⟨1, st.nextSeq, outBytes⟩]
        match openAll files2 with
        | none => none
        | some readers2 =>
          some { st with
            files := files2,
            sstables := readers2,
            nextSeq := nextSeqAfterLoad files2 (st.nextSeq + 1) }

/-- `flush`: write the memtable to a new level-0 SSTable, open it,
prepend its reader, reset memtable and WAL, then `maybeCompact`. -/
def flush (st : DBState) : Option DBState :=
  let bytes := WriteSSTable (memToSSTEntries st.mem)
  match OpenSSTable bytes with
  | none => none
  | some reader =>
    maybeCompact { st with
      files := ⟨0, st.nextSeq, bytes⟩ :: st.files,
      sstables := reader :: st.sstables,
      nextSeq := st.nextSeq + 1,
      mem := NewMemtable DefaultMemtableSize,
      walBytes := [] }

/-- `DB.Put`: append to the WAL, apply to the memtable, flush when
full. -/
def DB.Put (st : DBState) (key value : Bytes) : Option DBState :=
  let st1 := { st with walBytes := st.walBytes ++ encodeWALRecord ⟨1, key, value⟩ }
  let st2 := { st1 with mem := st1.mem.Put key value }
  if st2.mem.IsFull then flush st2 else some st2

/-- `DB.Delete`. -/
def DB.Delete (st : DBState) (key : Bytes) : Option DBState :=
  let st1 := { st with walBytes := st.walBytes ++ encodeWALRecord ⟨2, key, []⟩ }
  let st2 := { st1 with mem := st1.mem.Delete key }
  if st2.mem.IsFull then flush st2 else some st2

/-- The SSTable scan of `DB.Get` (newest first, stopping at the first
hit and translating a tombstone to not-found). -/
def sstLoop (key : Bytes) : List SSTableReader → Option (Option Bytes)
  | [] => some none
  | r :: rest =>
    match r.Get key with
    | none => none
    | some none => sstLoop key rest
    | some (some (v, tb)) => if tb then some none else some (some v)

/-- `DB.Get`: `some (some v)` is a found value, `some none` is
`ErrKeyNotFound`, `none` is a panic escaping `Get`. -/
def DB.Get (st : DBState) (key : Bytes) : Option (Option Bytes) :=
  match st.mem.Get key with
  | (some v, true) => some (some v)
  | (none, true) => some none
  | (_, false) => sstLoop key st.sstables

def applyOp (st : DBState) : DBOp → Option DBState
  | .put k v => DB.Put st k v
  | .del k => DB.Delete st k

/-- Run a sequence of operations on a freshly opened engine over an
empty directory. -/
def runOps (ops : List DBOp) : Option DBState :=
  match Open [] [] with
  | none => none
  | some st0 => ops.foldlM applyOp st0

/-! ### Specification-side model and wellformedness -/

/-- The specification's view of a history: the value of the most recent
`put` on `k`, or `none` when the most recent operation on `k` was a
delete or no operation targeted `k`. -/
def specGet (ops : List DBOp) (k : Bytes) : Option Bytes :=
  ops.foldl (fun acc op =>
    match op with
    | .put k2 v => if k2 = k then some v else acc
    | .del k2 => if k2 = k then none else acc) none

/-- Per-operation bounds from the data model: key and value lengths fit
the `u32` framing fields, and a value leaves room for the one-byte
tombstone in the reader's `u32` buffer arithmetic
(`value length ≤ 2^32 - 2`; at `2^32 - 1` the reader panics, see the
claim-C4 counterexample). -/
def wfOp : DBOp → Prop
  | .put k v => k.length < 4294967296 ∧ v.length < 4294967295
  | .del k => k.length < 4294967296

/-- Budget charged to an operation for the capacity invariants. -/
def opWeight : DBOp → Nat
  | .put k v => k.length + v.length + 32
  | .del k => k.length + 32

def opsWeight (ops : List DBOp) : Nat := (ops.map opWeight).sum

/-- A history within the engine's design capacity: fewer than `2^28`
operations (so every file's entry count and bloom sizing stay inside
`u32`) and less than `2^60` total bytes (so every file offset stays
inside `u64`). -/
def wfOps (ops : List DBOp) : Prop :=
  ops.length < 268435456 ∧ (∀ op ∈ ops, wfOp op) ∧ opsWeight ops < 1152921504606846976

/-- Size budget of one SSTable entry (its data-section footprint). -/
def sstEntryWeight (e : SSTableEntry) : Nat := e.key.length + e.value.length + 9

def sstWeight (entries : List SSTableEntry) : Nat :=
  (entries.map sstEntryWeight).sum

/-- Wellformed entry list for one SSTable file: within the format's
`u32`/`u64` capacity. -/
def sstWF (entries : List SSTableEntry) : Prop :=
  entries.length ≤ 400000000 ∧
  (∀ e ∈ entries, e.key.length < 4294967296 ∧ e.value.length < 4294967295) ∧
  sstWeight entries < 1152921504606846976

/-- Strictly ascending keys (sorted and key-unique). -/
def StrictSorted (l : List SSTableEntry) : Prop :=
  l.Pairwise (fun a b => keyLt a.key b.key = true)

def StrictSortedMem (l : List MemEntry) : Prop :=
  l.Pairwise (fun a b => keyLt a.key b.key = true)

instance instDecStrictSorted (l : List SSTableEntry) : Decidable (StrictSorted l) := by
  unfold StrictSorted
  infer_instance

instance instDecStrictSortedMem (l : List MemEntry) : Decidable (StrictSortedMem l) := by
  unfold StrictSortedMem
  infer_instance

instance instDecSSTWF (entries : List SSTableEntry) : Decidable (sstWF entries) := by
  unfold sstWF
  infer_instance

instance instDecWfOp : (op : DBOp) → Decidable (wfOp op)
  | DBOp.put k v =>
    inferInstanceAs (Decidable (k.length < 4294967296 ∧ v.length < 4294967295))
  | DBOp.del k => inferInstanceAs (Decidable (k.length < 4294967296))

instance instDecWfOps (ops : List DBOp) : Decidable (wfOps ops) := by
  unfold wfOps
  infer_instance

/-- Wellformed WAL record for the engine invariant: a real op byte and
a payload small enough for replay's 64 MiB bound (every record left in
the WAL after a completed operation fits in the 4 MiB memtable bound
plus slack, see the flush trigger). -/
def walWF (e : WALEntry) : Prop :=
  e.op < 256 ∧ 9 + e.key.length + e.value.length ≤ 8 + DefaultMemtableSize

/-- Lookup of `k` in one entry list (the logical content of
`SSTableReader.Get` when the file is intact). -/
def entryFind (entries : List SSTableEntry) (k : Bytes) : Option (Bytes × Bool) :=
  (entries.find? (fun e => e.key == k)).map (fun e => (e.value, e.tombstone))

/-- Lookup across tiers, newest first. -/
def tiersFind (tiers : List (List SSTableEntry)) (k : Bytes) : Option (Bytes × Bool) :=
  tiers.findSome? (fun t => entryFind t k)

/-- The entry of the newest input containing `k`. -/
def findNewest (sets : List (List SSTableEntry)) (k : Bytes) : Option SSTableEntry :=
  sets.findSome? (fun s => s.find? (fun e => e.key == k))

/-- The logical read path: memtable first, then the tiers, with a
tombstone collapsing to not-found. -/
def viewGet (m : Memtable) (tiers : List (List SSTableEntry)) (k : Bytes) :
    Option Bytes :=
  match m.Get k with
  | (some v, true) => some v
  | (none, true) => none
  | (_, false) =>
    match tiersFind tiers k with
    | some (v, tb) => if tb then none else some v
    | none => none

/-- The reader `OpenSSTable` yields for a file the writer produced. -/
def readerOf (entries : List SSTableEntry) : SSTableReader :=
  ⟨WriteSSTable entries, sstIndexFrom 0 entries, buildBloom entries⟩

def memEntryWeight (e : MemEntry) : Nat := e.key.length + valBytesLen e.value + 9

def memWeight (m : Memtable) : Nat := (m.entries.map memEntryWeight).sum

/-- The exact value of the memtable's tracked `size`. -/
def memSizeSpec (l : List MemEntry) : Nat :=
  (l.map (fun e => e.key.length + valBytesLen e.value + 1)).sum

def tiersWeight (tiers : List (List SSTableEntry)) : Nat :=
  (tiers.map sstWeight).sum

/-- Strictly descending sequence numbers. -/
def filesSortedDesc (files : List DBFile) : Prop :=
  files.Pairwise (fun a b => b.seq < a.seq)

/-- Wellformedness of one memtable entry in a reachable state. -/
def memEntryWF (e : MemEntry) : Prop :=
  e.key.length < 4294967296 ∧ valBytesLen e.value < 4294967295 ∧
    (e.tombstone = false → ∃ v, e.value = some v)

/-- The reachable-state invariant tying a state to the history that
produced it: the WAL holds exactly the records since the last flush and
replays to the current memtable; every file on disk is the writer's
encoding of a sorted wellformed entry list; the in-memory readers are
those files' parses, newest first; counts and bytes fit the capacity
budget; and the read path agrees with the specification's view of the
history. -/
def Inv (ops : List DBOp) (st : DBState) : Prop :=
  ∃ (wops : List WALEntry) (tiers : List (List SSTableEntry)),
    st.walBytes = walEncodeAll wops ∧
    (∀ w ∈ wops, walWF w) ∧
    st.mem = wops.foldl applyWALToMem (NewMemtable DefaultMemtableSize) ∧
    StrictSortedMem st.mem.entries ∧
    st.mem.size = memSizeSpec st.mem.entries ∧
    st.mem.threshold = DefaultMemtableSize ∧
    (∀ e ∈ st.mem.entries, memEntryWF e) ∧
    filesSortedDesc st.files ∧
    st.nextSeq = nextSeqAfterLoad st.files 1 ∧
    st.files.length = tiers.length ∧
    (∀ p ∈ st.files.zip tiers,
      p.1.content = WriteSSTable p.2 ∧ sstWF p.2 ∧ StrictSorted p.2) ∧
    st.sstables = tiers.map readerOf ∧
    st.mem.entries.length + sumLen tiers ≤ ops.length ∧
    memWeight st.mem + tiersWeight tiers ≤ opsWeight ops ∧
    (∀ k, viewGet st.mem tiers k = specGet ops k)

/-! ## Theorems -/

theorem byteAt_append_add (a b : Bytes) (i : Nat) :
    byteAt (a ++ b) (a.length + i) = byteAt b i := by
  simp [byteAt, List.getElem?_append_right (by omega : a.length ≤ a.length + i)]

theorem byteAt_append_lt (a b : Bytes) (i : Nat) (h : i < a.length) :
    byteAt (a ++ b) i = byteAt a i := by
  simp [byteAt, List.getElem?_append_left h]

theorem readU32_append_add (a b : Bytes) (k : Nat) :
    readU32 (a ++ b) (a.length + k) = readU32 b k := by
  unfold readU32
  rw [show a.length + k + 1 = a.length + (k + 1) by omega,
    show a.length + k + 2 = a.length + (k + 2) by omega,
    show a.length + k + 3 = a.length + (k + 3) by omega,
    byteAt_append_add, byteAt_append_add, byteAt_append_add, byteAt_append_add]

theorem readU64_append_add (a b : Bytes) (k : Nat) :
    readU64 (a ++ b) (a.length + k) = readU64 b k := by
  unfold readU64
  rw [show a.length + k + 1 = a.length + (k + 1) by omega,
    show a.length + k + 2 = a.length + (k + 2) by omega,
    show a.length + k + 3 = a.length + (k + 3) by omega,
    show a.length + k + 4 = a.length + (k + 4) by omega,
    show a.length + k + 5 = a.length + (k + 5) by omega,
    show a.length + k + 6 = a.length + (k + 6) by omega,
    show a.length + k + 7 = a.length + (k + 7) by omega,
    byteAt_append_add, byteAt_append_add, byteAt_append_add, byteAt_append_add,
    byteAt_append_add, byteAt_append_add, byteAt_append_add, byteAt_append_add]

theorem readU32_le32 (n : Nat) (rest : Bytes) :
    readU32 (le32 n ++ rest) 0 = n % 4294967296 := by
  simp [readU32, le32, byteAt]
  omega

theorem readU64_le64 (n : Nat) (rest : Bytes) :
    readU64 (le64 n ++ rest) 0 = n % 18446744073709551616 := by
  simp [readU64, le64, byteAt]
  try omega

theorem readU32_at (pre : Bytes) (n : Nat) (rest : Bytes) :
    readU32 (pre ++ le32 n ++ rest) pre.length = n % 4294967296 := by
  have h := readU32_append_add pre (le32 n ++ rest) 0
  simpa [readU32_le32] using h

theorem readU64_at (pre : Bytes) (n : Nat) (rest : Bytes) :
    readU64 (pre ++ le64 n ++ rest) pre.length = n % 18446744073709551616 := by
  have h := readU64_append_add pre (le64 n ++ rest) 0
  simpa [readU64_le64] using h

theorem readAt_exact (pre mid post : Bytes) (hn : mid.length = n) :
    readAt (pre ++ mid ++ post) pre.length n = some mid := by
  subst hn
  unfold readAt
  rw [if_pos (by simp)]
  congr 1
  rw [List.append_assoc, List.drop_append_of_le_length (by omega), List.drop_length]
  simp [List.take_append]

theorem goSlice_none (l : Bytes) (lo hi : Nat) (h : ¬(lo ≤ hi ∧ hi ≤ l.length)) :
    goSlice l lo hi = none := by
  simp [goSlice, h]

theorem goSlice_all (l : Bytes) : goSlice l 0 l.length = some l := by
  simp [goSlice]

theorem goSlice_prefix (l : Bytes) (hi : Nat) (h : hi ≤ l.length) :
    goSlice l 0 hi = some (l.take hi) := by
  simp [goSlice, h]

theorem readAt_none (l : Bytes) (off n : Nat) (h : l.length < off + n) :
    readAt l off n = none := by
  simp [readAt]; omega

theorem goSlice_exact (pre mid post : Bytes) (lo hi : Nat)
    (hlo : lo = pre.length) (hhi : hi = pre.length + mid.length) :
    goSlice (pre ++ mid ++ post) lo hi = some mid := by
  subst hlo hhi
  unfold goSlice
  rw [if_pos (by constructor <;> simp)]
  congr 1
  rw [List.append_assoc, List.take_append, List.take_left, List.drop_left]

theorem readAt_exact' (pre mid post : Bytes) (off n : Nat)
    (hoff : off = pre.length) (hn : n = mid.length) :
    readAt (pre ++ mid ++ post) off n = some mid := by
  subst hoff hn
  exact readAt_exact pre mid post rfl


theorem keyLt_cons (x y : Nat) (xs ys : List Nat) :
    keyLt (x :: xs) (y :: ys) =
      if x < y then true else if y < x then false else keyLt xs ys := rfl

theorem keyLt_irrefl (a : List Nat) : keyLt a a = false := by
  induction a with
  | nil => rfl
  | cons x xs ih => simp [keyLt_cons, ih]

theorem keyLt_asymm {a b : List Nat} (h : keyLt a b = true) : keyLt b a = false := by
  induction a generalizing b with
  | nil =>
    cases b with
    | nil => simp [keyLt] at h
    | cons y ys => simp [keyLt]
  | cons x xs ih =>
    cases b with
    | nil => simp [keyLt] at h
    | cons y ys =>
      rcases Nat.lt_trichotomy x y with hlt | heq | hgt
      · rw [keyLt_cons, if_neg (by omega), if_pos hlt]
      · subst heq
        rw [keyLt_cons, if_neg (by omega), if_neg (by omega)]
        rw [keyLt_cons, if_neg (by omega), if_neg (by omega)] at h
        exact ih h
      · rw [keyLt_cons, if_neg (by omega), if_pos hgt] at h
        exact absurd h (by simp)

theorem keyLt_trans {a b c : List Nat} (h1 : keyLt a b = true)
    (h2 : keyLt b c = true) : keyLt a c = true := by
  induction a generalizing b c with
  | nil =>
    cases c with
    | nil =>
      cases b with
      | nil => exact h1
      | cons y ys => simp [keyLt] at h2
    | cons z zs => simp [keyLt]
  | cons x xs ih =>
    cases b with
    | nil => simp [keyLt] at h1
    | cons y ys =>
      cases c with
      | nil => simp [keyLt] at h2
      | cons z zs =>
        rcases Nat.lt_trichotomy x y with hxy | hxy | hxy
        · rcases Nat.lt_trichotomy y z with hyz | hyz | hyz
          · rw [keyLt_cons, if_pos (by omega)]
          · subst hyz
            rw [keyLt_cons, if_pos hxy]
          · rw [keyLt_cons, if_neg (by omega), if_pos hyz] at h2
            exact absurd h2 (by simp)
        · subst hxy
          rw [keyLt_cons, if_neg (by omega), if_neg (by omega)] at h1
          rcases Nat.lt_trichotomy x z with hyz | hyz | hyz
          · rw [keyLt_cons, if_pos hyz]
          · subst hyz
            rw [keyLt_cons, if_neg (by omega), if_neg (by omega)] at h2 ⊢
            exact ih h1 h2
          · rw [keyLt_cons, if_neg (by omega), if_pos hyz] at h2
            exact absurd h2 (by simp)
        · rw [keyLt_cons, if_neg (by omega), if_pos hxy] at h1
          exact absurd h1 (by simp)

theorem keyLt_total {a b : List Nat} (h1 : keyLt a b = false)
    (h2 : keyLt b a = false) : a = b := by
  induction a generalizing b with
  | nil =>
    cases b with
    | nil => rfl
    | cons y ys => simp [keyLt] at h1
  | cons x xs ih =>
    cases b with
    | nil => simp [keyLt] at h2
    | cons y ys =>
      rcases Nat.lt_trichotomy x y with hxy | hxy | hxy
      · rw [keyLt_cons, if_pos hxy] at h1
        exact absurd h1 (by simp)
      · subst hxy
        rw [keyLt_cons, if_neg (by omega), if_neg (by omega)] at h1 h2
        rw [ih h1 h2]
      · rw [keyLt_cons, if_pos hxy] at h2
        exact absurd h2 (by simp)

theorem keyLt_of_ne_of_not_lt {a b : List Nat} (hne : a ≠ b)
    (h : keyLt a b = false) : keyLt b a = true := by
  by_cases hba : keyLt b a = true
  · exact hba
  · exact absurd (keyLt_total h (Bool.eq_false_iff.mpr (by simpa using hba))) hne


theorem sortSearchAux_spec (f : Nat → Bool) (N : Nat)
    (mono : ∀ a b, a ≤ b → b < N → f a = true → f b = true) :
    ∀ d i j, j - i ≤ d → i ≤ j → j ≤ N → (∀ x, x < i → f x = false) →
      (∀ x, j ≤ x → x < N → f x = true) →
      i ≤ sortSearchAux f i j ∧ sortSearchAux f i j ≤ j ∧
        (∀ x, x < sortSearchAux f i j → f x = false) ∧
        (∀ x, sortSearchAux f i j ≤ x → x < N → f x = true) := by
  intro d
  induction d with
  | zero =>
    intro i j hd hij hjN hlow hhigh
    have hje : i = j := by omega
    subst hje
    unfold sortSearchAux
    rw [dif_neg (by omega)]
    exact ⟨le_refl _, le_refl _, hlow, fun x hx1 hx2 => hhigh x hx1 hx2⟩
  | succ d ih =>
    intro i j hd hij hjN hlow hhigh
    unfold sortSearchAux
    by_cases h : i < j
    · rw [dif_pos h]
      simp only
      by_cases hf : f ((i + j) / 2) = true
      · rw [if_pos hf]
        have hm1 : i ≤ (i + j) / 2 := by omega
        have hm2 : (i + j) / 2 < j := by omega
        have := ih i ((i + j) / 2) (by omega) hm1 (by omega)
          hlow (fun x hx1 hx2 => mono _ _ hx1 hx2 hf)
        exact ⟨this.1, by omega, this.2.2.1, this.2.2.2⟩
      · rw [if_neg hf]
        have hm1 : i ≤ (i + j) / 2 := by omega
        have hm2 : (i + j) / 2 < j := by omega
        have hlow2 : ∀ x, x < (i + j) / 2 + 1 → f x = false := by
          intro x hx
          by_cases hxi : x < i
          · exact hlow x hxi
          · by_cases hfx : f x = true
            · exact absurd (mono x ((i + j) / 2) (by omega) (by omega) hfx)
                (by simpa using hf)
            · simpa using hfx
        have := ih ((i + j) / 2 + 1) j (by omega)
          (by omega) hjN hlow2 hhigh
        exact ⟨by omega, this.2.1, this.2.2.1, this.2.2.2⟩
    · rw [dif_neg h]
      have hje : i = j := by omega
      subst hje
      exact ⟨le_refl _, le_refl _, hlow, fun x hx1 hx2 => hhigh x hx1 hx2⟩

theorem sortSearch_spec (n : Nat) (f : Nat → Bool)
    (mono : ∀ a b, a ≤ b → b < n → f a = true → f b = true) :
    sortSearch n f ≤ n ∧ (∀ x, x < sortSearch n f → f x = false) ∧
      (∀ x, sortSearch n f ≤ x → x < n → f x = true) := by
  have := sortSearchAux_spec f n mono n 0 n (by omega) (by omega) (le_refl _)
    (fun x hx => absurd hx (Nat.not_lt_zero x)) (fun x hx1 hx2 => absurd hx2 (by omega))
  exact ⟨this.2.1, this.2.2.1, this.2.2.2⟩


/-! ### WAL: record round-trips and replay -/

theorem length_walPayload (e : WALEntry) :
    (walPayload e).length = 9 + e.key.length + e.value.length := by
  simp [walPayload]
  omega

theorem crc32Round_lt (c : Nat) (h : c < 4294967296) : crc32Round c < 4294967296 := by
  unfold crc32Round
  split
  · exact Nat.xor_lt_two_pow (n := 32) (by omega) (by norm_num)
  · omega

theorem crc32_lt (data : Bytes) : crc32 data < 4294967296 := by
  have hiter : ∀ (k : Nat) (c : Nat), c < 4294967296 → crc32Round^[k] c < 4294967296 := by
    intro k
    induction k with
    | zero => intro c hc; simpa using hc
    | succ k ih =>
      intro c hc
      rw [Function.iterate_succ_apply]
      exact ih _ (crc32Round_lt c hc)
  have hfold : ∀ (l : Bytes) (c : Nat), c < 4294967296 →
      l.foldl crc32Byte c < 4294967296 := by
    intro l
    induction l with
    | nil => intro c hc; simpa using hc
    | cons b t ih =>
      intro c hc
      rw [List.foldl_cons]
      refine ih _ ?_
      unfold crc32Byte
      exact hiter 8 _ (Nat.xor_lt_two_pow (n := 32) hc (by omega))
  unfold crc32
  exact Nat.xor_lt_two_pow (n := 32) (hfold _ _ (by norm_num)) (by norm_num)

theorem decodePayload_roundtrip (e : WALEntry) (hop : e.op < 256)
    (hlen : 9 + e.key.length + e.value.length < 4294967296) :
    decodePayload (walPayload e) = some (some e) := by
  have hk : e.key.length < 4294967296 := by omega
  have hv : e.value.length < 4294967296 := by omega
  have hplen : (walPayload e).length = 9 + e.key.length + e.value.length :=
    length_walPayload e
  have hshape1 : walPayload e =
      [e.op % 256] ++ le32 e.key.length ++
        (e.key ++ le32 e.value.length ++ e.value) := by
    simp [walPayload]
  have hshape2 : walPayload e =
      ([e.op % 256] ++ le32 e.key.length) ++ e.key ++
        (le32 e.value.length ++ e.value) := by
    simp [walPayload]
  have hshape3 : walPayload e =
      ([e.op % 256] ++ le32 e.key.length ++ e.key) ++ le32 e.value.length ++
        e.value := by
    simp [walPayload]
  have hshape4 : walPayload e =
      ([e.op % 256] ++ le32 e.key.length ++ e.key ++ le32 e.value.length) ++
        e.value ++ [] := by
    simp [walPayload]
  have hkl : readU32 (walPayload e) 1 = e.key.length := by
    have h := readU32_at [e.op % 256] e.key.length
      (e.key ++ le32 e.value.length ++ e.value)
    rw [← hshape1] at h
    simpa [Nat.mod_eq_of_lt hk] using h
  have hb0 : byteAt (walPayload e) 0 = e.op := by
    simp [walPayload, byteAt, Nat.mod_eq_of_lt hop]
  have hvl : readU32 (walPayload e) (5 + e.key.length) = e.value.length := by
    have h := readU32_at ([e.op % 256] ++ le32 e.key.length ++ e.key)
      e.value.length e.value
    rw [← hshape3] at h
    have hX : ([e.op % 256] ++ le32 e.key.length ++ e.key).length =
        5 + e.key.length := by simp; omega
    rw [hX] at h
    rw [h, Nat.mod_eq_of_lt hv]
  have hslicekey : goSlice (walPayload e) 5 (5 + e.key.length) = some e.key := by
    rw [hshape2]
    exact goSlice_exact _ _ _ _ _ (by simp) (by simp <;> omega)
  have hslicevl : goSlice (walPayload e) (5 + e.key.length)
      (5 + e.key.length + 4) = some (le32 e.value.length) := by
    rw [hshape3]
    refine goSlice_exact _ _ _ _ _ (by simp <;> omega) (by simp <;> omega)
  have hsliceval : goSlice (walPayload e) (5 + e.key.length + 4)
      (5 + e.key.length + 4 + e.value.length) = some e.value := by
    rw [hshape4]
    refine goSlice_exact _ _ _ _ _ (by simp <;> omega) (by simp <;> omega)
  have hmb : (5 + e.key.length) % 4294967296 = 5 + e.key.length :=
    Nat.mod_eq_of_lt (by omega)
  have hma : (5 + e.key.length + 4) % 4294967296 = 5 + e.key.length + 4 :=
    Nat.mod_eq_of_lt (by omega)
  have hmc : (5 + e.key.length + 4 + e.value.length) % 4294967296 =
      5 + e.key.length + 4 + e.value.length := Nat.mod_eq_of_lt (by omega)
  have hmp : (walPayload e).length % 4294967296 =
      9 + e.key.length + e.value.length := by
    rw [hplen]; exact Nat.mod_eq_of_lt (by omega)
  unfold decodePayload
  rw [if_neg (by omega)]
  simp only [hkl, hb0, hmb, hma, hmc, hmp, hvl, hslicekey, hslicevl, hsliceval]
  rw [if_neg (by omega), if_neg (by omega)]

theorem wReplay_short (bytes : Bytes) (h : bytes.length < 8) :
    wReplay bytes = some [] := by
  unfold wReplay
  rw [dif_pos h]

theorem wReplay_nil : wReplay [] = some [] := wReplay_short [] (by simp)

theorem length_encodeWALRecord (e : WALEntry) :
    (encodeWALRecord e).length = 17 + e.key.length + e.value.length := by
  simp [encodeWALRecord, length_walPayload]
  omega

theorem wReplay_record (e : WALEntry) (rest : Bytes) (hop : e.op < 256)
    (hbound : 9 + e.key.length + e.value.length ≤ 67108864) :
    wReplay (encodeWALRecord e ++ rest) = (wReplay rest).map (e :: ·) := by
  have hplen := length_walPayload e
  have hp32 : (walPayload e).length < 4294967296 := by omega
  have hs1 : encodeWALRecord e ++ rest =
      ([] : Bytes) ++ le32 (walPayload e).length ++
        (le32 (crc32 (walPayload e)) ++ (walPayload e ++ rest)) := by
    simp [encodeWALRecord]
  have hs2 : encodeWALRecord e ++ rest =
      le32 (walPayload e).length ++ le32 (crc32 (walPayload e)) ++
        (walPayload e ++ rest) := by
    simp [encodeWALRecord]
  have hread0 : readU32 (encodeWALRecord e ++ rest) 0 = (walPayload e).length := by
    rw [hs1]
    have h := readU32_at ([] : Bytes) (walPayload e).length
      (le32 (crc32 (walPayload e)) ++ (walPayload e ++ rest))
    simpa [Nat.mod_eq_of_lt hp32] using h
  have hread4 : readU32 (encodeWALRecord e ++ rest) 4 = crc32 (walPayload e) := by
    rw [hs2]
    have h := readU32_at (le32 (walPayload e).length) (crc32 (walPayload e))
      (walPayload e ++ rest)
    simpa [Nat.mod_eq_of_lt (crc32_lt (walPayload e))] using h
  have hdrop8 : (encodeWALRecord e ++ rest).drop 8 = walPayload e ++ rest := by
    rw [hs2, show (8 : Nat) =
      (le32 (walPayload e).length ++ le32 (crc32 (walPayload e))).length by simp]
    exact List.drop_left _ _
  have hpayload : ((encodeWALRecord e ++ rest).drop 8).take (walPayload e).length =
      walPayload e := by
    rw [hdrop8]
    exact List.take_left _ _
  have hdroprec : (encodeWALRecord e ++ rest).drop (8 + (walPayload e).length) =
      rest := by
    rw [show (8 + (walPayload e).length : Nat) = (encodeWALRecord e).length by
      rw [length_encodeWALRecord]; omega]
    exact List.drop_left _ _
  have hlentot : 8 ≤ (encodeWALRecord e ++ rest).length := by
    rw [List.length_append, length_encodeWALRecord]
    omega
  conv_lhs => rw [wReplay]
  rw [dif_neg (by omega)]
  simp only [hread0, hread4, hpayload, hdroprec]
  rw [if_neg (by omega), if_neg (by
    rw [List.length_append, length_encodeWALRecord]
    omega)]
  rw [if_neg (by simp)]
  rw [decodePayload_roundtrip e hop (by omega)]

theorem wReplay_prefix (es : List WALEntry) (g : Bytes)
    (hwf : ∀ e ∈ es, e.op < 256 ∧ 9 + e.key.length + e.value.length ≤ 67108864) :
    wReplay (walEncodeAll es ++ g) = (wReplay g).map (es ++ ·) := by
  induction es with
  | nil =>
    simp [walEncodeAll]
  | cons e t ih =>
    have h1 : walEncodeAll (e :: t) = encodeWALRecord e ++ walEncodeAll t := by
      simp [walEncodeAll]
    rw [h1, List.append_assoc,
      wReplay_record e _ (hwf e (by simp)).1 (hwf e (by simp)).2,
      ih (fun x hx => hwf x (by simp [hx]))]
    cases wReplay g <;> simp

theorem Replay_roundtrip (es : List WALEntry)
    (hwf : ∀ e ∈ es, e.op < 256 ∧ 9 + e.key.length + e.value.length ≤ 67108864) :
    Replay (walEncodeAll es) = some es := by
  have h := wReplay_prefix es [] hwf
  simpa [Replay, wReplay_nil] using h

theorem wReplay_record_panics (payload : Bytes) (rest : Bytes)
    (hp : payload.length ≤ 67108864) (hd : decodePayload payload = none) :
    wReplay (le32 payload.length ++ le32 (crc32 payload) ++ (payload ++ rest)) =
      none := by
  have hp32 : payload.length < 4294967296 := by omega
  have hread0 : readU32 (le32 payload.length ++ le32 (crc32 payload) ++
      (payload ++ rest)) 0 = payload.length := by
    have h := readU32_at ([] : Bytes) payload.length
      (le32 (crc32 payload) ++ (payload ++ rest))
    simpa [Nat.mod_eq_of_lt hp32] using h
  have hread4 : readU32 (le32 payload.length ++ le32 (crc32 payload) ++
      (payload ++ rest)) 4 = crc32 payload := by
    have h := readU32_at (le32 payload.length) (crc32 payload) (payload ++ rest)
    simpa [Nat.mod_eq_of_lt (crc32_lt payload)] using h
  have hdrop8 : (le32 payload.length ++ le32 (crc32 payload) ++
      (payload ++ rest)).drop 8 = payload ++ rest := by
    rw [show (8 : Nat) =
      (le32 payload.length ++ le32 (crc32 payload)).length by simp]
    exact List.drop_left _ _
  have hpayload : ((le32 payload.length ++ le32 (crc32 payload) ++
      (payload ++ rest)).drop 8).take payload.length = payload := by
    rw [hdrop8]
    exact List.take_left _ _
  conv_lhs => rw [wReplay]
  rw [dif_neg (by simp; omega)]
  simp only [hread0, hread4, hpayload]
  rw [if_neg (by omega), if_neg (by simp; omega), if_neg (by simp), hd]

/-- **C5.**  The claim says: for every WAL record whose 8-byte header and
CRC-valid payload are present but whose payload is too short for the key
or value length it declares — for any declared 32-bit lengths — replay
terminates silently at that record, returning exactly the preceding
records, and never fails or crashes.  The code violates this (and its own
doc comment "partial or corrupted entries at the tail are silently
skipped"): when the payload declares key length `2^32 - 9`, the `uint32`
bounds check `uint32(len(payload)) < 5+keyLen+4` wraps to `len < 0` and
passes, and `payload[5 : 5+keyLen]` panics because `5+keyLen` wraps to
`2^32 - 4`.  This theorem evaluates the model at the failing input — a
17-byte WAL file holding one record with a correct CRC, a 9-byte payload
and declared key length `2^32 - 9` (bytes `F7 FF FF FF`) — and shows
`Replay` panics (`none`) instead of returning `some []`. -/
theorem C5_replay_panic_at_failing_input :
    decodePayload [1, 247, 255, 255, 255, 0, 0, 0, 0] = none ∧
    Replay (le32 9 ++ le32 (crc32 [1, 247, 255, 255, 255, 0, 0, 0, 0]) ++
      [1, 247, 255, 255, 255, 0, 0, 0, 0]) = none := by
  constructor
  · decide
  · have h := wReplay_record_panics [1, 247, 255, 255, 255, 0, 0, 0, 0] []
      (by decide) (by decide)
    simpa [Replay] using h

/-- **C6**, counterexample.  The claim quantifies over every appended
garbage byte string; when the garbage is itself a CRC-valid encoded
record, replay keeps going and returns one more record than before, so
the count of records is not preserved: a WAL holding the single record
`(PUT, "g", "d")` replays to 1 record, but after appending the 19 bytes
that happen to encode `(PUT, "c", "e")` it replays to 2. -/
theorem C6_cex_crc_valid_garbage_extends_replay :
    Replay (walEncodeAll [⟨1, [103], [100]⟩]) = some [⟨1, [103], [100]⟩] ∧
    Replay (walEncodeAll [⟨1, [103], [100]⟩] ++ encodeWALRecord ⟨1, [99], [101]⟩) =
      some [⟨1, [103], [100]⟩, ⟨1, [99], [101]⟩] := by
  constructor
  · exact Replay_roundtrip _ (by decide)
  · have h := wReplay_prefix [⟨1, [103], [100]⟩]
      (encodeWALRecord ⟨1, [99], [101]⟩) (by decide)
    have h2 := wReplay_record ⟨1, [99], [101]⟩ [] (by decide) (by decide)
    rw [List.append_nil, wReplay_nil] at h2
    rw [Replay, h, h2]
    rfl

/-- **C6**, amended.  For every WAL file consisting of valid records and
every garbage byte string on which replay alone terminates silently
with no records — so the garbage neither begins with a complete
CRC-valid decodable record nor triggers the decode panic of claim C5 —
replay of the file with the garbage appended returns exactly the
records of the valid prefix; in particular the record count is
unchanged. -/
theorem C6_tail_garbage_ignored (es : List WALEntry) (g : Bytes)
    (hwf : ∀ e ∈ es, e.op < 256 ∧ 9 + e.key.length + e.value.length ≤ 67108864)
    (hg : Replay g = some []) :
    Replay (walEncodeAll es ++ g) = some es := by
  have h := wReplay_prefix es g hwf
  rw [Replay] at hg ⊢
  rw [h, hg]
  simp

/-- **C6**, witness: the repository's own test case — one valid `PUT`
record followed by the garbage bytes `FF FF FF`. -/
theorem C6_tail_garbage_ignored_witness :
    (∀ e ∈ [(⟨1, [103, 111, 111, 100], [100, 97, 116, 97]⟩ : WALEntry)],
      e.op < 256 ∧ 9 + e.key.length + e.value.length ≤ 67108864) ∧
    Replay [255, 255, 255] = some [] ∧
    Replay (walEncodeAll [⟨1, [103, 111, 111, 100], [100, 97, 116, 97]⟩] ++
      [255, 255, 255]) = some [⟨1, [103, 111, 111, 100], [100, 97, 116, 97]⟩] :=
  ⟨by decide, wReplay_short _ (by decide),
    C6_tail_garbage_ignored _ _ (by decide) (wReplay_short _ (by decide))⟩

/-! ### Bloom filter: no false negatives, serialization -/

theorem byteAt_replicate_zero (n i : Nat) : byteAt (List.replicate n 0) i = 0 := by
  simp [byteAt, List.getD, List.getElem?_replicate]
  split <;> simp

theorem bitGet_eq_testBit (bits : Bytes) (pos : Nat) :
    bitGet bits pos = (byteAt bits (pos / 8)).testBit (pos % 8) := by
  unfold bitGet
  rw [Nat.one_shiftLeft, Nat.and_two_pow]
  cases h : (byteAt bits (pos / 8)).testBit (pos % 8) <;> simp [h]

theorem length_bitSet (bits : Bytes) (pos : Nat) :
    (bitSet bits pos).length = bits.length := by
  simp [bitSet]

theorem bitGet_bitSet_self (bits : Bytes) (pos : Nat)
    (h : pos / 8 < bits.length) : bitGet (bitSet bits pos) pos = true := by
  rw [bitGet_eq_testBit]
  unfold bitSet
  rw [show byteAt (bits.set (pos / 8) (byteAt bits (pos / 8) ||| 1 <<< (pos % 8)))
      (pos / 8) = byteAt bits (pos / 8) ||| 1 <<< (pos % 8) by
    simp [byteAt, List.getD, List.getElem?_set_self, h]]
  rw [Nat.one_shiftLeft, Nat.testBit_or, Nat.testBit_two_pow_self]
  simp

theorem bitGet_bitSet_mono (bits : Bytes) (p q : Nat)
    (h : bitGet bits q = true) : bitGet (bitSet bits p) q = true := by
  rw [bitGet_eq_testBit] at h ⊢
  unfold bitSet
  by_cases he : p / 8 = q / 8
  · rw [he]
    by_cases hlt : q / 8 < bits.length
    · rw [show byteAt (bits.set (q / 8) (byteAt bits (q / 8) ||| 1 <<< (p % 8)))
          (q / 8) = byteAt bits (q / 8) ||| 1 <<< (p % 8) by
        simp [byteAt, List.getD, List.getElem?_set_self, hlt]]
      rw [Nat.testBit_or, h]
      simp
    · rw [show bits.set (q / 8) (byteAt bits (q / 8) ||| 1 <<< (p % 8)) = bits by
        exact List.set_eq_of_length_le (by omega)]
      exact h
  · rw [show byteAt (bits.set (p / 8) (byteAt bits (p / 8) ||| 1 <<< (p % 8)))
        (q / 8) = byteAt bits (q / 8) by
      simp [byteAt, List.getD, List.getElem?_set_ne he]]
    exact h

theorem bitGet_foldl_bitSet_mono (ps : List Nat) (bits : Bytes) (q : Nat)
    (h : bitGet bits q = true) :
    bitGet (ps.foldl bitSet bits) q = true := by
  induction ps generalizing bits with
  | nil => simpa using h
  | cons p t ih =>
    rw [List.foldl_cons]
    exact ih _ (bitGet_bitSet_mono _ _ _ h)

theorem length_foldl_bitSet (ps : List Nat) (bits : Bytes) :
    (ps.foldl bitSet bits).length = bits.length := by
  induction ps generalizing bits with
  | nil => rfl
  | cons p t ih =>
    rw [List.foldl_cons, ih, length_bitSet]

theorem bitGet_foldl_bitSet_mem (ps : List Nat) (bits : Bytes) (q : Nat)
    (hq : q ∈ ps) (hlen : q / 8 < bits.length) :
    bitGet (ps.foldl bitSet bits) q = true := by
  induction ps generalizing bits with
  | nil => cases hq
  | cons p t ih =>
    rw [List.foldl_cons]
    rcases List.mem_cons.mp hq with he | hmem
    · subst he
      exact bitGet_foldl_bitSet_mono t _ q (bitGet_bitSet_self bits q hlen)
    · exact ih (bitSet bits p) hmem (by rw [length_bitSet]; exact hlen)

theorem bloomAdd_bits (bf : BloomFilter) (key : Bytes) :
    (bf.Add key).bits = ((List.range bf.numHash).map
      (fun i => bitPos (bloomHash key).1 (bloomHash key).2 i bf.numBits)).foldl
        bitSet bf.bits := by
  simp only [BloomFilter.Add]
  rw [List.foldl_map]

theorem bloomAdd_numBits (bf : BloomFilter) (key : Bytes) :
    (bf.Add key).numBits = bf.numBits := rfl

theorem bloomAdd_numHash (bf : BloomFilter) (key : Bytes) :
    (bf.Add key).numHash = bf.numHash := rfl

theorem bloomAdd_length (bf : BloomFilter) (key : Bytes) :
    (bf.Add key).bits.length = bf.bits.length := by
  rw [bloomAdd_bits]
  exact length_foldl_bitSet _ _

theorem bitPos_div_lt (h1 h2 i numBits len : Nat) (hpos : 0 < numBits)
    (hlen : len = (numBits + 7) / 8) : bitPos h1 h2 i numBits / 8 < len := by
  have h := Nat.mod_lt ((h1 + i * h2) % 4294967296) hpos
  unfold bitPos
  omega

theorem mayContain_eq_all (bf : BloomFilter) (key : Bytes) :
    bf.MayContain key = (List.range bf.numHash).all
      (fun i => bitGet bf.bits (bitPos (bloomHash key).1 (bloomHash key).2 i
        bf.numBits)) := rfl

theorem bloom_mayContain_add (bf : BloomFilter) (key : Bytes)
    (hpos : 0 < bf.numBits) (hlen : bf.bits.length = (bf.numBits + 7) / 8) :
    (bf.Add key).MayContain key = true := by
  rw [mayContain_eq_all, List.all_eq_true]
  intro i hi
  rw [bloomAdd_numHash] at hi
  simp only [bloomAdd_bits, bloomAdd_numBits]
  refine bitGet_foldl_bitSet_mem _ _ _ (List.mem_map_of_mem _ hi) ?_
  exact bitPos_div_lt _ _ _ _ _ hpos hlen

theorem bloom_mayContain_mono (bf : BloomFilter) (key other : Bytes)
    (h : bf.MayContain key = true) :
    (bf.Add other).MayContain key = true := by
  rw [mayContain_eq_all, List.all_eq_true] at h ⊢
  intro i hi
  rw [bloomAdd_numHash] at hi
  have h2 := h i hi
  simp only at h2 ⊢
  rw [bloomAdd_bits, bloomAdd_numBits]
  exact bitGet_foldl_bitSet_mono _ _ _ h2

theorem bloom_foldl_numBits (keys : List Bytes) (bf : BloomFilter) :
    (keys.foldl BloomFilter.Add bf).numBits = bf.numBits := by
  induction keys generalizing bf with
  | nil => rfl
  | cons k t ih =>
    rw [List.foldl_cons, ih, bloomAdd_numBits]

theorem bloom_foldl_numHash (keys : List Bytes) (bf : BloomFilter) :
    (keys.foldl BloomFilter.Add bf).numHash = bf.numHash := by
  induction keys generalizing bf with
  | nil => rfl
  | cons k t ih =>
    rw [List.foldl_cons, ih, bloomAdd_numHash]

theorem bloom_foldl_length (keys : List Bytes) (bf : BloomFilter) :
    (keys.foldl BloomFilter.Add bf).bits.length = bf.bits.length := by
  induction keys generalizing bf with
  | nil => rfl
  | cons k t ih =>
    rw [List.foldl_cons, ih, bloomAdd_length]

theorem bloom_foldl_keep (keys : List Bytes) (bf : BloomFilter) (key : Bytes)
    (h : bf.MayContain key = true) :
    (keys.foldl BloomFilter.Add bf).MayContain key = true := by
  induction keys generalizing bf with
  | nil => simpa using h
  | cons k t ih =>
    rw [List.foldl_cons]
    exact ih _ (bloom_mayContain_mono _ _ _ h)

theorem bloom_foldl_mayContain (keys : List Bytes) :
    ∀ (bf : BloomFilter) (key : Bytes), key ∈ keys → 0 < bf.numBits →
      bf.bits.length = (bf.numBits + 7) / 8 →
      (keys.foldl BloomFilter.Add bf).MayContain key = true := by
  induction keys with
  | nil => intro bf key hmem; cases hmem
  | cons k t ih =>
    intro bf key hmem hpos hlen
    rw [List.foldl_cons]
    by_cases hke : key = k
    · subst hke
      exact bloom_foldl_keep t _ key (bloom_mayContain_add bf key hpos hlen)
    · have hkt : key ∈ t := by
        rcases List.mem_cons.mp hmem with he | hm2
        · exact absurd he hke
        · exact hm2
      exact ih (bf.Add k) key hkt (by rw [bloomAdd_numBits]; exact hpos)
        (by rw [bloomAdd_length, bloomAdd_numBits]; exact hlen)

theorem DeserializeBloom_Serialize (bf : BloomFilter)
    (hb : bf.numBits < 4294967296) (hh : bf.numHash < 4294967296) :
    DeserializeBloom bf.Serialize = bf := by
  unfold DeserializeBloom BloomFilter.Serialize
  rw [if_neg (by simp; omega)]
  have h0 : readU32 (le32 bf.numBits ++ le32 bf.numHash ++ bf.bits) 0 = bf.numBits := by
    have h := readU32_at ([] : Bytes) bf.numBits (le32 bf.numHash ++ bf.bits)
    simpa [Nat.mod_eq_of_lt hb] using h
  have h4 : readU32 (le32 bf.numBits ++ le32 bf.numHash ++ bf.bits) 4 = bf.numHash := by
    have h := readU32_at (le32 bf.numBits) bf.numHash bf.bits
    simpa [Nat.mod_eq_of_lt hh] using h
  have hd : (le32 bf.numBits ++ le32 bf.numHash ++ bf.bits).drop 8 = bf.bits := by
    rw [show (8 : Nat) = (le32 bf.numBits ++ le32 bf.numHash).length by simp]
    exact List.drop_left _ _
  rw [h0, h4, hd]

theorem bloomNumBits_ge_8 (n : Nat) : 8 ≤ bloomNumBits n := by
  unfold bloomNumBits
  omega

theorem bloomNumBits_le (n : Nat) : bloomNumBits n ≤ 10 * max n 1 + 9 := by
  unfold bloomNumBits
  omega

/-- **C7.**  For every bloom filter built by `NewBloomFilter` — the code
guarantees `numBits ≥ 8` and `numHash ≥ 1` whatever the expected item
count and false-positive rate arguments were, so the first conjunct
quantifies over every such sizing, covering every rate — and for every
finite list of keys inserted via `Add` in any order, `MayContain`
returns `true` for every inserted key: no false negatives.  The second
conjunct instantiates this for `NewBloomFilter` itself. -/
theorem C7_bloom_no_false_negatives :
    (∀ numBits numHash : Nat, 8 ≤ numBits → 1 ≤ numHash →
      ∀ (keys : List Bytes) (key : Bytes), key ∈ keys →
        (keys.foldl BloomFilter.Add (newBloomFilterSized numBits numHash)).MayContain
          key = true) ∧
    (∀ (n : Nat) (keys : List Bytes) (key : Bytes), key ∈ keys →
      (keys.foldl BloomFilter.Add (NewBloomFilter n)).MayContain key = true) := by
  have hmain : ∀ numBits numHash : Nat, 8 ≤ numBits → 1 ≤ numHash →
      ∀ (keys : List Bytes) (key : Bytes), key ∈ keys →
        (keys.foldl BloomFilter.Add (newBloomFilterSized numBits numHash)).MayContain
          key = true := by
    intro numBits numHash h8 h1 keys key hmem
    refine bloom_foldl_mayContain keys _ key hmem
      (by simp only [newBloomFilterSized]; omega) ?_
    simp [newBloomFilterSized]
  refine ⟨hmain, fun n keys key hmem => ?_⟩
  exact hmain (bloomNumBits n) (bloomNumHash n) (bloomNumBits_ge_8 n)
    (by norm_num [bloomNumHash]) keys key hmem

/-- **C7**, witness: three keys inserted into `NewBloomFilter 3`; the
middle one is reported present. -/
theorem C7_bloom_no_false_negatives_witness :
    ([104, 105] : Bytes) ∈ [([97] : Bytes), [104, 105], [122]] ∧
    (([([97] : Bytes), [104, 105], [122]]).foldl BloomFilter.Add
      (NewBloomFilter 3)).MayContain [104, 105] = true :=
  ⟨by decide, C7_bloom_no_false_negatives.2 3 [[97], [104, 105], [122]]
    [104, 105] (by decide)⟩

/-- **C8**, counterexample.  The claim says deserializing malformed or
too-short input yields a filter for which `may_contain` returns `true`
for every key.  The code instead falls back to `NewBloomFilter(1, 0.01)`,
a FRESH all-zero filter, whose `MayContain` is `false` for every key:
here the one-byte key `a` on the empty input. -/
theorem C8_cex_short_input_mayContain_is_false :
    (DeserializeBloom []).MayContain [97] = false := by
  decide

/-- **C8**, amended.  For every input shorter than 8 bytes, bloom
deserialization yields the minimal fresh filter `NewBloomFilter(1, 0.01)`,
for which `may_contain(key)` returns `false` for every key (rather than
`true` as the claim states: filtering fails unsafely, not safely, on a
corrupt filter). -/
theorem C8_short_input_minimal_filter (data : Bytes) (h : data.length < 8) :
    DeserializeBloom data = NewBloomFilter 1 ∧
    ∀ key : Bytes, (DeserializeBloom data).MayContain key = false := by
  have he : DeserializeBloom data = NewBloomFilter 1 := by
    unfold DeserializeBloom
    rw [if_pos h]
  refine ⟨he, fun key => ?_⟩
  rw [he]
  rw [mayContain_eq_all]
  rw [List.all_eq_false]
  refine ⟨0, by norm_num [NewBloomFilter, newBloomFilterSized, bloomNumHash], ?_⟩
  have hz : ∀ pos : Nat, bitGet (NewBloomFilter 1).bits pos = false := by
    intro pos
    rw [bitGet_eq_testBit]
    have hb : byteAt (NewBloomFilter 1).bits (pos / 8) = 0 := by
      simp only [NewBloomFilter, newBloomFilterSized]
      exact byteAt_replicate_zero _ _
    rw [hb]
    exact Nat.zero_testBit _
  simp [hz]

/-- **C8**, witness: the three-byte input `[1, 2, 3]`. -/
theorem C8_short_input_minimal_filter_witness :
    ([1, 2, 3] : Bytes).length < 8 ∧
    DeserializeBloom [1, 2, 3] = NewBloomFilter 1 ∧
    (DeserializeBloom [1, 2, 3]).MayContain [104] = false :=
  ⟨by decide, (C8_short_input_minimal_filter [1, 2, 3] (by decide)).1,
    (C8_short_input_minimal_filter [1, 2, 3] (by decide)).2 [104]⟩

/-! ### Compaction: characterizing the k-way merge -/

theorem find?_eq_head?_filter (p : SSTableEntry → Bool) (l : List SSTableEntry) :
    l.find? p = (l.filter p).head? := by
  induction l with
  | nil => rfl
  | cons x t ih =>
    by_cases h : p x
    · rw [List.find?_cons_of_pos _ h, List.filter_cons_of_pos h, List.head?_cons]
    · rw [List.find?_cons_of_neg _ h, List.filter_cons_of_neg h, ih]

theorem findSome?_congr {α β : Type} (f g : α → Option β) (l : List α)
    (h : ∀ x ∈ l, f x = g x) : l.findSome? f = l.findSome? g := by
  induction l with
  | nil => rfl
  | cons x t ih =>
    rw [List.findSome?_cons, List.findSome?_cons, h x (by simp)]
    cases g x with
    | none => exact ih (fun y hy => h y (by simp [hy]))
    | some b => rfl

theorem hmStep_nil (acc : Option Bytes) : hmStep acc [] = acc := rfl

theorem hmStep_cons (acc : Option Bytes) (e : SSTableEntry) (t : List SSTableEntry) :
    hmStep acc (e :: t) =
      match acc with
      | none => some e.key
      | some mk => if keyLt e.key mk then some e.key else acc := rfl

theorem hmStep_cons_none (e : SSTableEntry) (t : List SSTableEntry) :
    hmStep none (e :: t) = some e.key := rfl

theorem hmStep_cons_some (a : Bytes) (e : SSTableEntry) (t : List SSTableEntry) :
    hmStep (some a) (e :: t) = if keyLt e.key a then some e.key else some a := rfl

theorem headsMinKey_foldl_spec (ss : List (List SSTableEntry)) :
    ∀ (acc : Option Bytes) (mk : Bytes), ss.foldl hmStep acc = some mk →
      ((acc = some mk ∨ ∃ s ∈ ss, ∃ e t, s = e :: t ∧ e.key = mk) ∧
       (∀ a, acc = some a → keyLt a mk = false) ∧
       (∀ s ∈ ss, ∀ e t, s = e :: t → keyLt e.key mk = false)) := by
  induction ss with
  | nil =>
    intro acc mk h
    rw [List.foldl_nil] at h
    refine ⟨Or.inl h, fun a ha => ?_, by simp⟩
    rw [ha] at h
    injection h with h2
    rw [h2]
    exact keyLt_irrefl mk
  | cons s rest ih =>
    intro acc mk h
    rw [List.foldl_cons] at h
    have h3 := ih (hmStep acc s) mk h
    cases s with
    | nil =>
      rw [hmStep_nil] at h3
      refine ⟨?_, h3.2.1, ?_⟩
      · rcases h3.1 with ha | ⟨s2, hmem, hrest⟩
        · exact Or.inl ha
        · exact Or.inr ⟨s2, List.mem_cons_of_mem _ hmem, hrest⟩
      · intro s2 hmem e t hs2
        rcases List.mem_cons.mp hmem with he | hm2
        · subst he
          cases hs2
        · exact h3.2.2 s2 hm2 e t hs2
    | cons e0 t0 =>
      rw [hmStep_cons] at h3
      cases acc with
      | none =>
        simp only at h3
        have hhead : keyLt e0.key mk = false := h3.2.1 e0.key rfl
        refine ⟨?_, by simp, ?_⟩
        · rcases h3.1 with ha | ⟨s2, hmem, hrest⟩
          · injection ha with ha2
            exact Or.inr ⟨e0 :: t0, List.mem_cons_self _ _, e0, t0, rfl, ha2⟩
          · exact Or.inr ⟨s2, List.mem_cons_of_mem _ hmem, hrest⟩
        · intro s2 hmem e t hs2
          rcases List.mem_cons.mp hmem with he | hm2
          · subst he
            injection hs2 with he1 he2
            rw [← he1]
            exact hhead
          · exact h3.2.2 s2 hm2 e t hs2
      | some a0 =>
        simp only at h3
        by_cases hlt : keyLt e0.key a0
        · rw [if_pos hlt] at h3
          have hhead : keyLt e0.key mk = false := h3.2.1 e0.key rfl
          have hacc : keyLt a0 mk = false := by
            by_cases hc : keyLt a0 mk = true
            · exact absurd (keyLt_trans hlt hc) (by simp [hhead])
            · simpa using hc
          refine ⟨?_, fun a ha => by injection ha with h5; rw [h5] at hacc; exact hacc, ?_⟩
          · rcases h3.1 with ha | ⟨s2, hmem, hrest⟩
            · injection ha with ha2
              exact Or.inr ⟨e0 :: t0, List.mem_cons_self _ _, e0, t0, rfl, ha2⟩
            · exact Or.inr ⟨s2, List.mem_cons_of_mem _ hmem, hrest⟩
          · intro s2 hmem e t hs2
            rcases List.mem_cons.mp hmem with he | hm2
            · subst he
              injection hs2 with he1 he2
              rw [← he1]
              exact hhead
            · exact h3.2.2 s2 hm2 e t hs2
        · rw [if_neg hlt] at h3
          have hacc : keyLt a0 mk = false := h3.2.1 a0 rfl
          have hhead : keyLt e0.key mk = false := by
            by_cases hc : keyLt e0.key mk = true
            · exfalso
              by_cases hd : keyLt a0 e0.key = true
              · exact absurd (keyLt_trans hd hc) (by simp [hacc])
              · have he : a0 = e0.key :=
                  keyLt_total (by simpa using hd) (by simpa using hlt)
                rw [he] at hacc
                exact absurd hc (by simp [hacc])
            · simpa using hc
          refine ⟨?_, fun a ha => by injection ha with h5; rw [h5] at hacc; exact hacc, ?_⟩
          · rcases h3.1 with ha | ⟨s2, hmem, hrest⟩
            · exact Or.inl ha
            · exact Or.inr ⟨s2, List.mem_cons_of_mem _ hmem, hrest⟩
          · intro s2 hmem e t hs2
            rcases List.mem_cons.mp hmem with he | hm2
            · subst he
              injection hs2 with he1 he2
              rw [← he1]
              exact hhead
            · exact h3.2.2 s2 hm2 e t hs2

theorem headsMinKey_spec (sets : List (List SSTableEntry)) (mk : Bytes)
    (h : headsMinKey sets = some mk) :
    (∃ s ∈ sets, ∃ e t, s = e :: t ∧ e.key = mk) ∧
    (∀ s ∈ sets, ∀ e t, s = e :: t → keyLt e.key mk = false) := by
  have h2 := headsMinKey_foldl_spec sets none mk h
  refine ⟨?_, h2.2.2⟩
  rcases h2.1 with ha | hb
  · exact absurd ha (by simp)
  · exact hb

theorem headsMinKey_all_nil (sets : List (List SSTableEntry))
    (h : ∀ s ∈ sets, s = []) : headsMinKey sets = none := by
  unfold headsMinKey
  induction sets with
  | nil => rfl
  | cons s rest ih =>
    rw [List.foldl_cons, h s (by simp), hmStep_nil]
    exact ih (fun s2 hs2 => h s2 (by simp [hs2]))

theorem headsMinKey_none (sets : List (List SSTableEntry))
    (h : headsMinKey sets = none) : ∀ s ∈ sets, s = [] := by
  intro s hmem
  cases hs : s with
  | nil => rfl
  | cons e t =>
    exfalso
    subst hs
    cases hm : headsMinKey sets with
    | some mk => rw [hm] at h; cases h
    | none =>
      have hgen : ∀ (ss : List (List SSTableEntry)) (acc : Option Bytes),
          (e :: t) ∈ ss → ss.foldl hmStep acc = none → False := by
        intro ss
        induction ss with
        | nil => intro acc hmem2 h2; cases hmem2
        | cons s2 rest ih =>
          intro acc hmem2 h2
          rw [List.foldl_cons] at h2
          rcases List.mem_cons.mp hmem2 with he | hm2
          · subst he
            have hsome : ∀ acc2 : Option Bytes, ∃ b, hmStep acc2 (e :: t) = some b := by
              intro acc2
              cases acc2 with
              | none => exact ⟨e.key, rfl⟩
              | some a0 =>
                rw [hmStep_cons_some]
                by_cases hlt : keyLt e.key a0
                · exact ⟨e.key, by rw [if_pos hlt]⟩
                · exact ⟨a0, by rw [if_neg hlt]⟩
            obtain ⟨b, hb⟩ := hsome acc
            rw [hb] at h2
            have hgen2 : ∀ (ss2 : List (List SSTableEntry)) (b2 : Bytes),
                ss2.foldl hmStep (some b2) ≠ none := by
              intro ss2
              induction ss2 with
              | nil => intro b2 h3; cases h3
              | cons s3 rest3 ih3 =>
                intro b2 h3
                rw [List.foldl_cons] at h3
                cases s3 with
                | nil => exact ih3 b2 (by rwa [hmStep_nil] at h3)
                | cons e3 t3 =>
                  rw [hmStep_cons_some] at h3
                  by_cases hlt : keyLt e3.key b2
                  · rw [if_pos hlt] at h3
                    exact ih3 _ h3
                  · rw [if_neg hlt] at h3
                    exact ih3 _ h3
            exact hgen2 rest b h2
          · exact ih (hmStep acc s2) hm2 h2
      exact hgen sets none hmem hm

theorem pickWinner_some (sets : List (List SSTableEntry)) (mk : Bytes)
    (w : SSTableEntry) (h : pickWinner sets mk = some w) :
    w.key = mk ∧ ∃ t, (w :: t) ∈ sets := by
  obtain ⟨s, hsmem, hf⟩ := List.exists_of_findSome?_eq_some h
  cases s with
  | nil => simp at hf
  | cons e t =>
    rw [List.head?_cons, Option.some_bind] at hf
    by_cases he : e.key = mk
    · rw [if_pos he] at hf
      injection hf with hf2
      subst hf2
      exact ⟨he, t, hsmem⟩
    · rw [if_neg he] at hf
      cases hf

theorem pickWinner_isSome (sets : List (List SSTableEntry)) (mk : Bytes)
    (e : SSTableEntry) (t : List SSTableEntry) (hmem : (e :: t) ∈ sets)
    (hk : e.key = mk) : pickWinner sets mk ≠ none := by
  intro hnone
  rw [pickWinner, List.findSome?_eq_none_iff] at hnone
  have h2 := hnone (e :: t) hmem
  rw [List.head?_cons, Option.some_bind, if_pos hk] at h2
  cases h2

theorem advance_mem (sets : List (List SSTableEntry)) (mk : Bytes)
    (s2 : List SSTableEntry) (h : s2 ∈ advance sets mk) :
    ∃ s ∈ sets, ∀ e ∈ s2, e ∈ s := by
  rw [advance, List.mem_map] at h
  obtain ⟨s, hsmem, hf⟩ := h
  refine ⟨s, hsmem, ?_⟩
  cases s with
  | nil =>
    simp only at hf
    subst hf
    intro e he
    cases he
  | cons e0 t0 =>
    simp only at hf
    by_cases he : e0.key = mk
    · rw [if_pos he] at hf
      subst hf
      intro e he2
      exact List.mem_cons_of_mem _ he2
    · rw [if_neg he] at hf
      subst hf
      intro e he2
      exact he2

theorem advance_sorted (sets : List (List SSTableEntry)) (mk : Bytes)
    (hs : ∀ s ∈ sets, StrictSorted s) :
    ∀ s2 ∈ advance sets mk, StrictSorted s2 := by
  intro s2 h
  rw [advance, List.mem_map] at h
  obtain ⟨s, hsmem, hf⟩ := h
  cases s with
  | nil =>
    simp only at hf
    subst hf
    exact List.Pairwise.nil
  | cons e0 t0 =>
    simp only at hf
    have hsort := hs _ hsmem
    by_cases he : e0.key = mk
    · rw [if_pos he] at hf
      subst hf
      exact (List.pairwise_cons.mp hsort).2
    · rw [if_neg he] at hf
      subst hf
      exact hsort

theorem advance_entries_gt (sets : List (List SSTableEntry)) (mk : Bytes)
    (hs : ∀ s ∈ sets, StrictSorted s)
    (hle : ∀ s ∈ sets, ∀ e t, s = e :: t → keyLt e.key mk = false) :
    ∀ s2 ∈ advance sets mk, ∀ e ∈ s2, keyLt mk e.key = true := by
  intro s2 h
  rw [advance, List.mem_map] at h
  obtain ⟨s, hsmem, hf⟩ := h
  cases s with
  | nil =>
    simp only at hf
    subst hf
    intro e he
    cases he
  | cons e0 t0 =>
    simp only at hf
    have hsort := hs _ hsmem
    have hhead := hle _ hsmem e0 t0 rfl
    by_cases he : e0.key = mk
    · rw [if_pos he] at hf
      subst hf
      intro e he2
      have h3 := (List.pairwise_cons.mp hsort).1 e he2
      rw [he] at h3
      exact h3
    · rw [if_neg he] at hf
      subst hf
      have hgt : keyLt mk e0.key = true :=
        keyLt_of_ne_of_not_lt (fun hc => he (hc.symm ▸ rfl)) hhead
      intro e he2
      rcases List.mem_cons.mp he2 with he3 | he3
      · subst he3
        exact hgt
      · exact keyLt_trans hgt ((List.pairwise_cons.mp hsort).1 e he3)

theorem find?_key_of_sorted_gt (s : List SSTableEntry) (k : Bytes)
    (h : ∀ e ∈ s, keyLt k e.key = true) :
    s.find? (fun e => e.key == k) = none := by
  rw [List.find?_eq_none]
  intro e he
  have h2 := h e he
  simp only [beq_iff_eq]
  intro hc
  rw [hc] at h2
  rw [keyLt_irrefl] at h2
  cases h2

theorem findNewest_advance_ne (sets : List (List SSTableEntry)) (mk k : Bytes)
    (hne : k ≠ mk) :
    findNewest (advance sets mk) k = findNewest sets k := by
  rw [findNewest, advance, List.findSome?_map, findNewest]
  refine findSome?_congr _ _ sets (fun s hs => ?_)
  cases s with
  | nil => rfl
  | cons e0 t0 =>
    simp only [Function.comp]
    by_cases he : e0.key = mk
    · rw [if_pos he]
      rw [List.find?_cons_of_neg]
      simp only [beq_iff_eq]
      rw [he]
      exact fun hc => hne hc.symm
    · rw [if_neg he]

theorem findNewest_none_of_gt (sets : List (List SSTableEntry)) (mk : Bytes)
    (h : ∀ s ∈ sets, ∀ e ∈ s, keyLt mk e.key = true) :
    findNewest sets mk = none := by
  rw [findNewest, List.findSome?_eq_none_iff]
  intro s hs
  exact find?_key_of_sorted_gt s mk (h s hs)

theorem findNewest_at_min (sets : List (List SSTableEntry)) (mk : Bytes)
    (hs : ∀ s ∈ sets, StrictSorted s)
    (hle : ∀ s ∈ sets, ∀ e t, s = e :: t → keyLt e.key mk = false) :
    findNewest sets mk = pickWinner sets mk := by
  rw [findNewest, pickWinner]
  refine findSome?_congr _ _ sets (fun s hsmem => ?_)
  cases s with
  | nil => rfl
  | cons e0 t0 =>
    rw [List.head?_cons, Option.some_bind]
    by_cases he : e0.key = mk
    · rw [if_pos he, List.find?_cons_of_pos]
      simp [he]
    · rw [if_neg he, List.find?_cons_of_neg _ (by simp [he])]
      have hsort := hs _ hsmem
      have hhead := hle _ hsmem e0 t0 rfl
      have hgt : keyLt mk e0.key = true :=
        keyLt_of_ne_of_not_lt (fun hc => he (hc.symm ▸ rfl)) hhead
      refine find?_key_of_sorted_gt t0 mk (fun e he2 => ?_)
      exact keyLt_trans hgt ((List.pairwise_cons.mp hsort).1 e he2)

theorem advance_sumLen_lt (sets : List (List SSTableEntry)) (mk : Bytes)
    (e : SSTableEntry) (t : List SSTableEntry) (hmem : (e :: t) ∈ sets)
    (hk : e.key = mk) : sumLen (advance sets mk) < sumLen sets := by
  simp only [advance, sumLen, List.map_map]
  apply List.sum_lt_sum
  · intro s2 _
    cases s2 with
    | nil => simp
    | cons e2 t2 =>
      by_cases he2 : e2.key = mk <;> simp [he2, Function.comp]
  · refine ⟨e :: t, hmem, ?_⟩
    simp [hk, Function.comp]

theorem advance_measure_le (g : SSTableEntry → Nat) (sets : List (List SSTableEntry))
    (mk : Bytes) :
    ((advance sets mk).map (fun s => (s.map g).sum)).sum ≤
      (sets.map (fun s => (s.map g).sum)).sum := by
  simp only [advance, List.map_map]
  apply List.sum_le_sum
  intro s _
  cases s with
  | nil => simp
  | cons e2 t2 =>
    by_cases he2 : e2.key = mk <;> simp [he2, Function.comp]

theorem advance_measure (g : SSTableEntry → Nat) (sets : List (List SSTableEntry))
    (mk : Bytes) (w : SSTableEntry) (t : List SSTableEntry)
    (hmem : (w :: t) ∈ sets) (hk : w.key = mk) :
    ((advance sets mk).map (fun s => (s.map g).sum)).sum + g w ≤
      (sets.map (fun s => (s.map g).sum)).sum := by
  induction sets with
  | nil => cases hmem
  | cons s rest ih =>
    rcases List.mem_cons.mp hmem with he | hm2
    · subst he
      have hweak := advance_measure_le g rest mk
      simp only [advance, List.map_map, List.map_cons, List.sum_cons,
        Function.comp] at hweak ⊢
      rw [hk, if_pos rfl]
      omega
    · have h2 := ih hm2
      have h3 : ((match s with
          | [] => ([] : List SSTableEntry)
          | e2 :: t2 => if e2.key = mk then t2 else e2 :: t2).map g).sum ≤
            (s.map g).sum := by
        cases s with
        | nil => simp
        | cons e2 t2 =>
          by_cases he2 : e2.key = mk <;> simp [he2]
      simp only [advance, List.map_map, List.map_cons, List.sum_cons,
        Function.comp] at h2 h3 ⊢
      omega

theorem kWayMerge_nil_case (sets : List (List SSTableEntry))
    (hm : headsMinKey sets = none) : kWayMerge sets = [] := by
  rw [kWayMerge, hm]

theorem kWayMerge_spec_none (sets : List (List SSTableEntry))
    (hm : headsMinKey sets = none) :
    (∀ e ∈ kWayMerge sets, ∃ s ∈ sets, e ∈ s) ∧
    StrictSorted (kWayMerge sets) ∧
    (∀ k, (kWayMerge sets).filter (fun e => e.key == k) =
      (findNewest sets k).toList) ∧
    (∀ g : SSTableEntry → Nat, ((kWayMerge sets).map g).sum ≤
      (sets.map (fun s => (s.map g).sum)).sum) := by
  have hmerge := kWayMerge_nil_case sets hm
  have hfn : ∀ k : Bytes, findNewest sets k = none := by
    intro k
    rw [findNewest, List.findSome?_eq_none_iff]
    intro s hsm
    rw [headsMinKey_none sets hm s hsm]
    rfl
  rw [hmerge]
  refine ⟨by simp, List.Pairwise.nil, fun k => ?_, by simp⟩
  rw [hfn k]
  rfl

theorem kWayMerge_spec : ∀ (n : Nat) (sets : List (List SSTableEntry)),
    sumLen sets ≤ n → (∀ s ∈ sets, StrictSorted s) →
    (∀ e ∈ kWayMerge sets, ∃ s ∈ sets, e ∈ s) ∧
    StrictSorted (kWayMerge sets) ∧
    (∀ k, (kWayMerge sets).filter (fun e => e.key == k) =
      (findNewest sets k).toList) ∧
    (∀ g : SSTableEntry → Nat, ((kWayMerge sets).map g).sum ≤
      (sets.map (fun s => (s.map g).sum)).sum) := by
  intro n
  induction n with
  | zero =>
    intro sets hn hs
    refine kWayMerge_spec_none sets (headsMinKey_all_nil sets ?_)
    intro s hsm
    have h2 : s.length = 0 := by
      have h3 : s.length ≤ (sets.map List.length).sum :=
        List.le_sum_of_mem (List.mem_map_of_mem _ hsm)
      simp only [sumLen] at hn
      omega
    exact List.length_eq_zero.mp h2
  | succ n ih =>
    intro sets hn hs
    cases hm : headsMinKey sets with
    | none => exact kWayMerge_spec_none sets hm
    | some mk =>
      cases hw : pickWinner sets mk with
      | none =>
        exfalso
        obtain ⟨s, hsm, e, t, hse, hek⟩ := (headsMinKey_spec sets mk hm).1
        exact pickWinner_isSome sets mk e t (hse ▸ hsm) hek hw
      | some w =>
        have hspec := headsMinKey_spec sets mk hm
        have hwk := pickWinner_some sets mk w hw
        obtain ⟨t0, hwmem⟩ := hwk.2
        have hdec := advance_sumLen_lt sets mk w t0 hwmem hwk.1
        have hsorted2 := advance_sorted sets mk hs
        have hgt := advance_entries_gt sets mk hs hspec.2
        have IH := ih (advance sets mk) (by omega) hsorted2
        have heq : kWayMerge sets = w :: kWayMerge (advance sets mk) := by
          rw [kWayMerge]
          split
          · next hm2 =>
            rw [hm] at hm2
            cases hm2
          · next mk2 hm2 =>
            rw [hm] at hm2
            injection hm2 with hmk
            subst hmk
            split
            · next hw2 =>
              rw [hw] at hw2
              cases hw2
            · next w2 hw2 =>
              rw [hw] at hw2
              injection hw2 with hww
              rw [hww]
        refine ⟨?_, ?_, ?_, ?_⟩
        · rw [heq]
          intro e he
          rcases List.mem_cons.mp he with he2 | he2
          · rw [he2]
            exact ⟨w :: t0, hwmem, List.mem_cons_self _ _⟩
          · obtain ⟨s2, hs2mem, hsub⟩ := IH.1 e he2
            obtain ⟨s, hsm, hsub2⟩ := advance_mem sets mk s2 hs2mem
            exact ⟨s, hsm, hsub2 e hsub⟩
        · rw [heq]
          refine List.Pairwise.cons ?_ IH.2.1
          intro e he
          obtain ⟨s2, hs2mem, hsub⟩ := IH.1 e he
          have h3 := hgt s2 hs2mem e hsub
          rw [hwk.1]
          exact h3
        · intro k
          rw [heq, List.filter_cons]
          by_cases hke : k = mk
          · subst hke
            rw [if_pos (by simp [hwk.1])]
            have h4 : findNewest (advance sets k) k = none :=
              findNewest_none_of_gt _ _ hgt
            rw [IH.2.2.1 k, h4]
            have h5 : findNewest sets k = some w := by
              rw [findNewest_at_min sets k hs hspec.2, hw]
            rw [h5]
            rfl
          · rw [if_neg (by simp [hwk.1]; exact fun hc => hke hc.symm)]
            rw [IH.2.2.1 k, findNewest_advance_ne sets mk k hke]
        · intro g
          rw [heq, List.map_cons, List.sum_cons]
          have h6 := IH.2.2.2 g
          have h7 := advance_measure g sets mk w t0 hwmem hwk.1
          omega

theorem kWayMerge_sorted (sets : List (List SSTableEntry))
    (hs : ∀ s ∈ sets, StrictSorted s) : StrictSorted (kWayMerge sets) :=
  (kWayMerge_spec (sumLen sets) sets (le_refl _) hs).2.1

theorem kWayMerge_filter_eq (sets : List (List SSTableEntry))
    (hs : ∀ s ∈ sets, StrictSorted s) (k : Bytes) :
    (kWayMerge sets).filter (fun e => e.key == k) = (findNewest sets k).toList :=
  (kWayMerge_spec (sumLen sets) sets (le_refl _) hs).2.2.1 k

theorem kWayMerge_mem (sets : List (List SSTableEntry))
    (hs : ∀ s ∈ sets, StrictSorted s) :
    ∀ e ∈ kWayMerge sets, ∃ s ∈ sets, e ∈ s :=
  (kWayMerge_spec (sumLen sets) sets (le_refl _) hs).1

theorem kWayMerge_measure (sets : List (List SSTableEntry))
    (hs : ∀ s ∈ sets, StrictSorted s) (g : SSTableEntry → Nat) :
    ((kWayMerge sets).map g).sum ≤ (sets.map (fun s => (s.map g).sum)).sum :=
  (kWayMerge_spec (sumLen sets) sets (le_refl _) hs).2.2.2 g

theorem compactEntries_filter (sets : List (List SSTableEntry))
    (hs : ∀ s ∈ sets, StrictSorted s) (k : Bytes) :
    (compactEntries sets).filter (fun e => e.key == k) =
      ((findNewest sets k).toList).filter (fun e => !e.tombstone) := by
  rw [compactEntries, List.filter_filter]
  rw [List.filter_congr (fun e _ => Bool.and_comm (e.key == k) !e.tombstone)]
  rw [← List.filter_filter, kWayMerge_filter_eq sets hs k]

theorem compactEntries_sorted (sets : List (List SSTableEntry))
    (hs : ∀ s ∈ sets, StrictSorted s) : StrictSorted (compactEntries sets) :=
  (kWayMerge_sorted sets hs).filter _

/-! ### SSTable: byte-level round trips -/

theorem length_encDataEntry (e : SSTableEntry) :
    (encDataEntry e).length = sstEntryWeight e := by
  simp [encDataEntry, sstEntryWeight]
  omega

theorem sstDataBytes_cons (e : SSTableEntry) (rest : List SSTableEntry) :
    sstDataBytes (e :: rest) = encDataEntry e ++ sstDataBytes rest := by
  simp [sstDataBytes]

theorem length_sstDataBytes (entries : List SSTableEntry) :
    (sstDataBytes entries).length = sstWeight entries := by
  induction entries with
  | nil => rfl
  | cons e rest ih =>
    rw [sstDataBytes_cons]
    simp only [List.length_append, ih, length_encDataEntry]
    simp [sstWeight]

theorem readEntry_at (pre post : Bytes) (e : SSTableEntry)
    (hk : e.key.length < 4294967296) (hv : e.value.length < 4294967295) :
    readEntry (pre ++ encDataEntry e ++ post) pre.length =
      some (some (e.value, e.tombstone)) := by
  have hshape1 : pre ++ encDataEntry e ++ post =
      pre ++ le32 e.key.length ++ (e.key ++ le32 e.value.length ++ e.value ++
        [if e.tombstone then 1 else 0] ++ post) := by
    simp [encDataEntry]
  have hshape2 : pre ++ encDataEntry e ++ post =
      (pre ++ le32 e.key.length ++ e.key) ++ le32 e.value.length ++
        (e.value ++ [if e.tombstone then 1 else 0] ++ post) := by
    simp [encDataEntry]
  have hshape3 : pre ++ encDataEntry e ++ post =
      (pre ++ le32 e.key.length ++ e.key ++ le32 e.value.length) ++
        (e.value ++ [if e.tombstone then 1 else 0]) ++ post := by
    simp [encDataEntry]
  have hL2 : (pre ++ le32 e.key.length ++ e.key).length =
      pre.length + 4 + e.key.length := by simp; omega
  have hL3 : (pre ++ le32 e.key.length ++ e.key ++ le32 e.value.length).length =
      pre.length + 4 + e.key.length + 4 := by simp; omega
  have h1 : readAt (pre ++ encDataEntry e ++ post) pre.length 4 =
      some (le32 e.key.length) := by
    rw [hshape1]
    exact readAt_exact' _ _ _ _ _ rfl (by simp)
  have hkl : readU32 (pre ++ encDataEntry e ++ post) pre.length = e.key.length := by
    have h := readU32_at pre e.key.length (e.key ++ le32 e.value.length ++ e.value ++
      [if e.tombstone then 1 else 0] ++ post)
    rw [← hshape1] at h
    rw [h, Nat.mod_eq_of_lt hk]
  have h2 : readAt (pre ++ encDataEntry e ++ post)
      (pre.length + 4 + e.key.length) 4 = some (le32 e.value.length) := by
    rw [hshape2]
    exact readAt_exact' _ _ _ _ _ (by rw [hL2]) (by simp)
  have hvl : readU32 (pre ++ encDataEntry e ++ post)
      (pre.length + 4 + e.key.length) = e.value.length := by
    have h := readU32_at (pre ++ le32 e.key.length ++ e.key) e.value.length
      (e.value ++ [if e.tombstone then 1 else 0] ++ post)
    rw [← hshape2, hL2] at h
    rw [h, Nat.mod_eq_of_lt (by omega)]
  have hmod : (e.value.length + 1) % 4294967296 = e.value.length + 1 :=
    Nat.mod_eq_of_lt (by omega)
  have h3 : readAt (pre ++ encDataEntry e ++ post)
      (pre.length + 4 + e.key.length + 4) (e.value.length + 1) =
      some (e.value ++ [if e.tombstone then 1 else 0]) := by
    rw [hshape3]
    exact readAt_exact' _ _ _ _ _ (by rw [hL3]) (by simp)
  have h4 : goSlice (e.value ++ [if e.tombstone then 1 else 0]) 0
      e.value.length = some e.value := by
    have h := goSlice_exact ([] : Bytes) e.value [if e.tombstone then 1 else 0]
      0 e.value.length (by simp) (by simp)
    simpa using h
  have h5 : byteAt (e.value ++ [if e.tombstone then 1 else 0])
      e.value.length = (if e.tombstone then 1 else 0) := by
    have h := byteAt_append_add e.value [if e.tombstone then 1 else 0] 0
    simpa [byteAt] using h
  unfold readEntry
  simp only [h1, hkl, h2, hvl, hmod, h3, h4, h5]
  cases e.tombstone <;> simp

theorem readAllAux_data (es : List SSTableEntry) :
    ∀ (pre post : Bytes),
    (∀ e ∈ es, e.key.length < 4294967296 ∧ e.value.length < 4294967295) →
    readAllAux (pre ++ sstDataBytes es ++ post) (sstIndexFrom pre.length es) =
      some es := by
  induction es with
  | nil =>
    intro pre post h
    rfl
  | cons e rest ih =>
    intro pre post h
    have hshape : pre ++ sstDataBytes (e :: rest) ++ post =
        pre ++ encDataEntry e ++ (sstDataBytes rest ++ post) := by
      simp [sstDataBytes_cons]
    have hshape2 : pre ++ sstDataBytes (e :: rest) ++ post =
        (pre ++ encDataEntry e) ++ sstDataBytes rest ++ post := by
      simp [sstDataBytes_cons]
    have h1 : readEntry (pre ++ sstDataBytes (e :: rest) ++ post) pre.length =
        some (some (e.value, e.tombstone)) := by
      rw [hshape]
      exact readEntry_at pre _ e (h e (by simp)).1 (h e (by simp)).2
    have h2 : sstIndexFrom (pre.length + (encDataEntry e).length) rest =
        sstIndexFrom (pre ++ encDataEntry e).length rest := by
      simp
    have h3 : readAllAux (pre ++ sstDataBytes (e :: rest) ++ post)
        (sstIndexFrom (pre ++ encDataEntry e).length rest) = some rest := by
      rw [hshape2]
      exact ih (pre ++ encDataEntry e) post (fun x hx => h x (by simp [hx]))
    rw [sstIndexFrom]
    simp only [readAllAux, h1, h2, h3]
    rfl

theorem length_encIndexEntry (p : Bytes × Nat) :
    (encIndexEntry p).length = 12 + p.1.length := by
  simp [encIndexEntry]
  omega

theorem length_sstIndexFrom (off : Nat) (es : List SSTableEntry) :
    (sstIndexFrom off es).length = es.length := by
  induction es generalizing off with
  | nil => rfl
  | cons e rest ih =>
    rw [sstIndexFrom]
    simp [ih]

theorem sstWeight_cons (e : SSTableEntry) (rest : List SSTableEntry) :
    sstWeight (e :: rest) = sstEntryWeight e + sstWeight rest := by
  simp [sstWeight]

theorem sstIndexFrom_mem (es : List SSTableEntry) :
    ∀ (off : Nat), ∀ p ∈ sstIndexFrom off es,
      ∃ e ∈ es, p.1 = e.key ∧ off ≤ p.2 ∧
        p.2 + sstEntryWeight e ≤ off + sstWeight es := by
  induction es with
  | nil =>
    intro off p hp
    simp [sstIndexFrom] at hp
  | cons e rest ih =>
    intro off p hp
    rw [sstIndexFrom] at hp
    rcases List.mem_cons.mp hp with hp2 | hp2
    · subst hp2
      exact ⟨e, by simp, rfl, le_refl _, by rw [sstWeight_cons]; omega⟩
    · obtain ⟨e2, he2, hk2, hlo2, hhi2⟩ := ih _ p hp2
      refine ⟨e2, by simp [he2], hk2, ?_, ?_⟩
      · have := length_encDataEntry e
        omega
      · rw [sstWeight_cons]
        rw [length_encDataEntry e] at hhi2
        omega

theorem sstIndexFrom_fst (es : List SSTableEntry) :
    ∀ (off : Nat), (sstIndexFrom off es).map Prod.fst = es.map SSTableEntry.key := by
  induction es with
  | nil => intro off; rfl
  | cons e rest ih =>
    intro off
    rw [sstIndexFrom]
    simp [ih]

theorem sstIndexBytes_def (entries : List SSTableEntry) :
    sstIndexBytes entries = ((sstIndexFrom 0 entries).map encIndexEntry).flatten := rfl

theorem parseIndex_enc (idx : List (Bytes × Nat)) :
    (∀ p ∈ idx, p.1.length < 4294967296 ∧ p.2 < 18446744073709551616) →
    parseIndex ((idx.map encIndexEntry).flatten) idx.length = some idx := by
  induction idx with
  | nil => intro h; rfl
  | cons p rest ih =>
    intro h
    obtain ⟨k, off⟩ := p
    have hk : k.length < 4294967296 := (h (k, off) (by simp)).1
    have ho : off < 18446744073709551616 := (h (k, off) (by simp)).2
    have hshape1 : ((List.map encIndexEntry ((k, off) :: rest)).flatten : Bytes) =
        [] ++ le32 k.length ++ (k ++ le64 off ++
          (rest.map encIndexEntry).flatten) := by
      simp [encIndexEntry]
    have hshape2 : ((List.map encIndexEntry ((k, off) :: rest)).flatten : Bytes) =
        le32 k.length ++ k ++ (le64 off ++ (rest.map encIndexEntry).flatten) := by
      simp [encIndexEntry]
    have hshape3 : ((List.map encIndexEntry ((k, off) :: rest)).flatten : Bytes) =
        (le32 k.length ++ k) ++ le64 off ++ (rest.map encIndexEntry).flatten := by
      simp [encIndexEntry]
    have hg1 : goSlice ((List.map encIndexEntry ((k, off) :: rest)).flatten) 0 4 =
        some (le32 k.length) := by
      rw [hshape1]
      exact goSlice_exact _ _ _ _ _ (by simp) (by simp)
    have hkl : readU32 ((List.map encIndexEntry ((k, off) :: rest)).flatten) 0 =
        k.length := by
      have hr := readU32_at ([] : Bytes) k.length
        (k ++ le64 off ++ (rest.map encIndexEntry).flatten)
      rw [← hshape1] at hr
      simpa [Nat.mod_eq_of_lt hk] using hr
    have hg2 : goSlice ((List.map encIndexEntry ((k, off) :: rest)).flatten) 4
        (4 + k.length) = some k := by
      rw [hshape2]
      exact goSlice_exact _ _ _ _ _ (by simp) (by simp)
    have hg3 : goSlice ((List.map encIndexEntry ((k, off) :: rest)).flatten)
        (4 + k.length) (4 + k.length + 8) = some (le64 off) := by
      rw [hshape3]
      refine goSlice_exact _ _ _ _ _ (by simp) (by simp)
    have hoff : readU64 ((List.map encIndexEntry ((k, off) :: rest)).flatten)
        (4 + k.length) = off := by
      have hr := readU64_at (le32 k.length ++ k) off (rest.map encIndexEntry).flatten
      rw [← hshape3] at hr
      have hX : (le32 k.length ++ k).length = 4 + k.length := by simp
      rw [hX] at hr
      rw [hr, Nat.mod_eq_of_lt ho]
    have hdrop : ((List.map encIndexEntry ((k, off) :: rest)).flatten).drop
        (12 + k.length) = (rest.map encIndexEntry).flatten := by
      have hshape4 : ((List.map encIndexEntry ((k, off) :: rest)).flatten : Bytes) =
          (le32 k.length ++ k ++ le64 off) ++ (rest.map encIndexEntry).flatten := by
        simp [encIndexEntry]
      rw [hshape4, show 12 + k.length = (le32 k.length ++ k ++ le64 off).length from
        by simp; omega]
      exact List.drop_left _ _
    show parseIndex ((List.map encIndexEntry ((k, off) :: rest)).flatten)
      (rest.length + 1) = some ((k, off) :: rest)
    simp only [parseIndex, hg1, hkl, hg2, hg3, hoff, hdrop,
      ih (fun q hq => h q (by simp [hq]))]
    rfl

theorem buildBloom_eq (entries : List SSTableEntry) :
    buildBloom entries =
      (entries.map SSTableEntry.key).foldl BloomFilter.Add
        (NewBloomFilter entries.length) := by
  rw [buildBloom, List.foldl_map]

theorem buildBloom_numBits (entries : List SSTableEntry) :
    (buildBloom entries).numBits = bloomNumBits entries.length := by
  rw [buildBloom_eq, bloom_foldl_numBits]
  rfl

theorem buildBloom_numHash (entries : List SSTableEntry) :
    (buildBloom entries).numHash = 7 := by
  rw [buildBloom_eq, bloom_foldl_numHash]
  rfl

theorem buildBloom_bits_length (entries : List SSTableEntry) :
    (buildBloom entries).bits.length = (bloomNumBits entries.length + 7) / 8 := by
  rw [buildBloom_eq, bloom_foldl_length]
  simp [NewBloomFilter, newBloomFilterSized]

theorem length_Serialize (bf : BloomFilter) :
    bf.Serialize.length = 8 + bf.bits.length := by
  simp [BloomFilter.Serialize]
  omega

theorem length_sstFooter (a b c d : Nat) : (sstFooter a b c d).length = 28 := by
  simp [sstFooter]

theorem length_sstIndexFlatten (entries : List SSTableEntry) :
    ∀ off : Nat, (((sstIndexFrom off entries).map encIndexEntry).flatten).length =
      12 * entries.length + (entries.map (fun e => e.key.length)).sum := by
  induction entries with
  | nil => intro off; rfl
  | cons e rest ih =>
    intro off
    rw [sstIndexFrom]
    simp only [List.map_cons, List.flatten_cons, List.length_append, ih,
      length_encIndexEntry, List.sum_cons, List.length_cons]
    omega

theorem length_sstIndexBytes (entries : List SSTableEntry) :
    (sstIndexBytes entries).length =
      12 * entries.length + (entries.map (fun e => e.key.length)).sum :=
  length_sstIndexFlatten entries 0

theorem keysum_le_sstWeight (entries : List SSTableEntry) :
    (entries.map (fun e => e.key.length)).sum ≤ sstWeight entries := by
  induction entries with
  | nil => simp [sstWeight]
  | cons e rest ih =>
    rw [sstWeight_cons]
    simp only [List.map_cons, List.sum_cons]
    have h : e.key.length ≤ sstEntryWeight e := by
      unfold sstEntryWeight
      omega
    omega

theorem WriteSSTable_def (entries : List SSTableEntry) :
    WriteSSTable entries =
      sstDataBytes entries ++ sstIndexBytes entries ++
        (buildBloom entries).Serialize ++
        sstFooter (sstDataBytes entries).length entries.length
          ((sstDataBytes entries).length + (sstIndexBytes entries).length)
          ((buildBloom entries).Serialize).length := rfl

theorem bloomNumBits_lt_of_count (n : Nat) (h : n ≤ 400000000) :
    bloomNumBits n < 4294967296 := by
  have h2 := bloomNumBits_le n
  have h3 : max n 1 ≤ 400000000 := by omega
  omega

theorem OpenSSTable_WriteSSTable (entries : List SSTableEntry)
    (hcount : entries.length ≤ 400000000)
    (hkeys : ∀ e ∈ entries, e.key.length < 4294967296)
    (hw : sstWeight entries < 1152921504606846976) :
    OpenSSTable (WriteSSTable entries) = some (readerOf entries) := by
  have hdlen : (sstDataBytes entries).length = sstWeight entries :=
    length_sstDataBytes entries
  have hilen : (sstIndexBytes entries).length =
      12 * entries.length + (entries.map (fun e => e.key.length)).sum :=
    length_sstIndexBytes entries
  have hksum := keysum_le_sstWeight entries
  have hnb : bloomNumBits entries.length < 4294967296 :=
    bloomNumBits_lt_of_count entries.length hcount
  have hnb2 : bloomNumBits entries.length ≤ 4000000009 := by
    have h2 := bloomNumBits_le entries.length
    have h3 : max entries.length 1 ≤ 400000000 := by omega
    omega
  have hblen : ((buildBloom entries).Serialize).length =
      8 + (bloomNumBits entries.length + 7) / 8 := by
    rw [length_Serialize, buildBloom_bits_length]
  have hblen2 : ((buildBloom entries).Serialize).length < 4294967296 := by
    omega
  have hflen : (WriteSSTable entries).length =
      (sstDataBytes entries).length + (sstIndexBytes entries).length +
        ((buildBloom entries).Serialize).length + 28 := by
    rw [WriteSSTable_def]
    simp [length_sstFooter]
    omega
  have hnotshort : ¬ ((WriteSSTable entries).length < footerSize) := by
    rw [hflen]
    unfold footerSize
    omega
  have hfoot : ((WriteSSTable entries).drop
      ((WriteSSTable entries).length - footerSize)).take footerSize =
      sstFooter (sstDataBytes entries).length entries.length
        ((sstDataBytes entries).length + (sstIndexBytes entries).length)
        ((buildBloom entries).Serialize).length := by
    have hshape : WriteSSTable entries =
        (sstDataBytes entries ++ sstIndexBytes entries ++
          (buildBloom entries).Serialize) ++
        sstFooter (sstDataBytes entries).length entries.length
          ((sstDataBytes entries).length + (sstIndexBytes entries).length)
          ((buildBloom entries).Serialize).length := by
      rw [WriteSSTable_def]
    have hpl : (WriteSSTable entries).length - footerSize =
        (sstDataBytes entries ++ sstIndexBytes entries ++
          (buildBloom entries).Serialize).length := by
      rw [hflen]
      unfold footerSize
      simp
      omega
    rw [hpl]
    conv_lhs => rw [hshape]
    rw [List.drop_left]
    rw [show footerSize = (sstFooter (sstDataBytes entries).length entries.length
        ((sstDataBytes entries).length + (sstIndexBytes entries).length)
        ((buildBloom entries).Serialize).length).length from
      (length_sstFooter _ _ _ _).symm]
    exact List.take_length _
  have hsfshape1 : sstFooter (sstDataBytes entries).length entries.length
      ((sstDataBytes entries).length + (sstIndexBytes entries).length)
      ((buildBloom entries).Serialize).length =
      ([] : Bytes) ++ le64 (sstDataBytes entries).length ++
        (le32 entries.length ++
          le64 ((sstDataBytes entries).length + (sstIndexBytes entries).length) ++
          le32 ((buildBloom entries).Serialize).length ++ le32 sstMagic) := by
    simp [sstFooter]
  have hsfshape2 : sstFooter (sstDataBytes entries).length entries.length
      ((sstDataBytes entries).length + (sstIndexBytes entries).length)
      ((buildBloom entries).Serialize).length =
      le64 (sstDataBytes entries).length ++ le32 entries.length ++
        (le64 ((sstDataBytes entries).length + (sstIndexBytes entries).length) ++
          le32 ((buildBloom entries).Serialize).length ++ le32 sstMagic) := by
    simp [sstFooter]
  have hsfshape3 : sstFooter (sstDataBytes entries).length entries.length
      ((sstDataBytes entries).length + (sstIndexBytes entries).length)
      ((buildBloom entries).Serialize).length =
      (le64 (sstDataBytes entries).length ++ le32 entries.length) ++
        le64 ((sstDataBytes entries).length + (sstIndexBytes entries).length) ++
        (le32 ((buildBloom entries).Serialize).length ++ le32 sstMagic) := by
    simp [sstFooter]
  have hsfshape4 : sstFooter (sstDataBytes entries).length entries.length
      ((sstDataBytes entries).length + (sstIndexBytes entries).length)
      ((buildBloom entries).Serialize).length =
      (le64 (sstDataBytes entries).length ++ le32 entries.length ++
        le64 ((sstDataBytes entries).length + (sstIndexBytes entries).length)) ++
        le32 ((buildBloom entries).Serialize).length ++ le32 sstMagic := by
    simp [sstFooter]
  have hsfshape5 : sstFooter (sstDataBytes entries).length entries.length
      ((sstDataBytes entries).length + (sstIndexBytes entries).length)
      ((buildBloom entries).Serialize).length =
      (le64 (sstDataBytes entries).length ++ le32 entries.length ++
        le64 ((sstDataBytes entries).length + (sstIndexBytes entries).length) ++
        le32 ((buildBloom entries).Serialize).length) ++ le32 sstMagic ++
        ([] : Bytes) := by
    simp [sstFooter]
  have hmagic : readU32 (sstFooter (sstDataBytes entries).length entries.length
      ((sstDataBytes entries).length + (sstIndexBytes entries).length)
      ((buildBloom entries).Serialize).length) 24 = sstMagic := by
    have hr := readU32_at (le64 (sstDataBytes entries).length ++
      le32 entries.length ++
      le64 ((sstDataBytes entries).length + (sstIndexBytes entries).length) ++
      le32 ((buildBloom entries).Serialize).length) sstMagic ([] : Bytes)
    rw [← hsfshape5] at hr
    have hX : (le64 (sstDataBytes entries).length ++ le32 entries.length ++
        le64 ((sstDataBytes entries).length + (sstIndexBytes entries).length) ++
        le32 ((buildBloom entries).Serialize).length).length = 24 := by simp
    rw [hX] at hr
    rw [hr]
    unfold sstMagic
    omega
  have hio : readU64 (sstFooter (sstDataBytes entries).length entries.length
      ((sstDataBytes entries).length + (sstIndexBytes entries).length)
      ((buildBloom entries).Serialize).length) 0 =
      (sstDataBytes entries).length := by
    have hr := readU64_at ([] : Bytes) (sstDataBytes entries).length
      (le32 entries.length ++
        le64 ((sstDataBytes entries).length + (sstIndexBytes entries).length) ++
        le32 ((buildBloom entries).Serialize).length ++ le32 sstMagic)
    rw [← hsfshape1] at hr
    have hm : (sstDataBytes entries).length % 18446744073709551616 =
        (sstDataBytes entries).length := Nat.mod_eq_of_lt (by omega)
    simpa [hm] using hr
  have hic : readU32 (sstFooter (sstDataBytes entries).length entries.length
      ((sstDataBytes entries).length + (sstIndexBytes entries).length)
      ((buildBloom entries).Serialize).length) 8 = entries.length := by
    have hr := readU32_at (le64 (sstDataBytes entries).length) entries.length
      (le64 ((sstDataBytes entries).length + (sstIndexBytes entries).length) ++
        le32 ((buildBloom entries).Serialize).length ++ le32 sstMagic)
    rw [← hsfshape2] at hr
    have hX : (le64 (sstDataBytes entries).length).length = 8 := by simp
    rw [hX] at hr
    rw [hr, Nat.mod_eq_of_lt (by omega)]
  have hbo : readU64 (sstFooter (sstDataBytes entries).length entries.length
      ((sstDataBytes entries).length + (sstIndexBytes entries).length)
      ((buildBloom entries).Serialize).length) 12 =
      (sstDataBytes entries).length + (sstIndexBytes entries).length := by
    have hr := readU64_at (le64 (sstDataBytes entries).length ++
      le32 entries.length)
      ((sstDataBytes entries).length + (sstIndexBytes entries).length)
      (le32 ((buildBloom entries).Serialize).length ++ le32 sstMagic)
    rw [← hsfshape3] at hr
    have hX : (le64 (sstDataBytes entries).length ++
        le32 entries.length).length = 12 := by simp
    rw [hX] at hr
    rw [hr, Nat.mod_eq_of_lt (by omega)]
  have hbs : readU32 (sstFooter (sstDataBytes entries).length entries.length
      ((sstDataBytes entries).length + (sstIndexBytes entries).length)
      ((buildBloom entries).Serialize).length) 20 =
      ((buildBloom entries).Serialize).length := by
    have hr := readU32_at (le64 (sstDataBytes entries).length ++
      le32 entries.length ++
      le64 ((sstDataBytes entries).length + (sstIndexBytes entries).length))
      ((buildBloom entries).Serialize).length
      (le32 sstMagic)
    rw [← hsfshape4] at hr
    have hX : (le64 (sstDataBytes entries).length ++ le32 entries.length ++
        le64 ((sstDataBytes entries).length +
          (sstIndexBytes entries).length)).length = 20 := by simp
    rw [hX] at hr
    rw [hr, Nat.mod_eq_of_lt (by omega)]
  have hreadbloom : readAt (WriteSSTable entries)
      ((sstDataBytes entries).length + (sstIndexBytes entries).length)
      ((buildBloom entries).Serialize).length =
      some ((buildBloom entries).Serialize) := by
    have hshape : WriteSSTable entries =
        (sstDataBytes entries ++ sstIndexBytes entries) ++
          (buildBloom entries).Serialize ++
          sstFooter (sstDataBytes entries).length entries.length
            ((sstDataBytes entries).length + (sstIndexBytes entries).length)
            ((buildBloom entries).Serialize).length := by
      rw [WriteSSTable_def]
    rw [hshape]
    exact readAt_exact' _ _ _ _ _ (by simp) rfl
  have hsub : (sstDataBytes entries).length + (sstIndexBytes entries).length -
      (sstDataBytes entries).length = (sstIndexBytes entries).length := by
    omega
  have hreadindex : readAt (WriteSSTable entries)
      (sstDataBytes entries).length (sstIndexBytes entries).length =
      some (sstIndexBytes entries) := by
    have hshape : WriteSSTable entries =
        sstDataBytes entries ++ sstIndexBytes entries ++
          ((buildBloom entries).Serialize ++
          sstFooter (sstDataBytes entries).length entries.length
            ((sstDataBytes entries).length + (sstIndexBytes entries).length)
            ((buildBloom entries).Serialize).length) := by
      rw [WriteSSTable_def]
      simp
    rw [hshape]
    exact readAt_exact' _ _ _ _ _ rfl rfl
  have hparse : parseIndex (sstIndexBytes entries) entries.length =
      some (sstIndexFrom 0 entries) := by
    rw [sstIndexBytes_def,
      show entries.length = (sstIndexFrom 0 entries).length from
        (length_sstIndexFrom 0 entries).symm]
    refine parseIndex_enc (sstIndexFrom 0 entries) ?_
    intro p hp
    obtain ⟨e, he, hk, hlo, hhi⟩ := sstIndexFrom_mem entries 0 p hp
    constructor
    · rw [hk]
      exact hkeys e he
    · have hwpos : sstEntryWeight e ≥ 0 := Nat.zero_le _
      omega
  have hdb : DeserializeBloom ((buildBloom entries).Serialize) =
      buildBloom entries := by
    refine DeserializeBloom_Serialize (buildBloom entries) ?_ ?_
    · rw [buildBloom_numBits]
      exact hnb
    · rw [buildBloom_numHash]
      omega
  unfold OpenSSTable
  rw [if_neg hnotshort]
  simp only [hfoot, hmagic, hio, hic, hbo, hbs, hsub, hreadbloom, hreadindex,
    hparse, hdb]
  rw [if_neg (by simp)]
  rfl

theorem ReadAll_readerOf (entries : List SSTableEntry)
    (hwf : ∀ e ∈ entries, e.key.length < 4294967296 ∧ e.value.length < 4294967295) :
    (readerOf entries).ReadAll = some entries := by
  have h := readAllAux_data entries ([] : Bytes)
    (sstIndexBytes entries ++ (buildBloom entries).Serialize ++
      sstFooter (sstDataBytes entries).length entries.length
        ((sstDataBytes entries).length + (sstIndexBytes entries).length)
        ((buildBloom entries).Serialize).length) hwf
  have hshape : ([] : Bytes) ++ sstDataBytes entries ++
      (sstIndexBytes entries ++ (buildBloom entries).Serialize ++
        sstFooter (sstDataBytes entries).length entries.length
          ((sstDataBytes entries).length + (sstIndexBytes entries).length)
          ((buildBloom entries).Serialize).length) = WriteSSTable entries := by
    rw [WriteSSTable_def]
    simp
  rw [hshape] at h
  simpa [SSTableReader.ReadAll, readerOf] using h

theorem readEntry_huge_value (pre post : Bytes) (e : SSTableEntry)
    (hk : e.key.length < 4294967296) (hv : e.value.length = 4294967295) :
    readEntry (pre ++ encDataEntry e ++ post) pre.length = none := by
  have hshape1 : pre ++ encDataEntry e ++ post =
      pre ++ le32 e.key.length ++ (e.key ++ le32 e.value.length ++ e.value ++
        [if e.tombstone then 1 else 0] ++ post) := by
    simp [encDataEntry]
  have hshape2 : pre ++ encDataEntry e ++ post =
      (pre ++ le32 e.key.length ++ e.key) ++ le32 e.value.length ++
        (e.value ++ [if e.tombstone then 1 else 0] ++ post) := by
    simp [encDataEntry]
  have hL2 : (pre ++ le32 e.key.length ++ e.key).length =
      pre.length + 4 + e.key.length := by simp; omega
  have h1 : readAt (pre ++ encDataEntry e ++ post) pre.length 4 =
      some (le32 e.key.length) := by
    rw [hshape1]
    exact readAt_exact' _ _ _ _ _ rfl (by simp)
  have hkl : readU32 (pre ++ encDataEntry e ++ post) pre.length = e.key.length := by
    have h := readU32_at pre e.key.length (e.key ++ le32 e.value.length ++ e.value ++
      [if e.tombstone then 1 else 0] ++ post)
    rw [← hshape1] at h
    rw [h, Nat.mod_eq_of_lt hk]
  have h2 : readAt (pre ++ encDataEntry e ++ post)
      (pre.length + 4 + e.key.length) 4 = some (le32 e.value.length) := by
    rw [hshape2]
    exact readAt_exact' _ _ _ _ _ (by rw [hL2]) (by simp)
  have hvl : readU32 (pre ++ encDataEntry e ++ post)
      (pre.length + 4 + e.key.length) = e.value.length := by
    have h := readU32_at (pre ++ le32 e.key.length ++ e.key) e.value.length
      (e.value ++ [if e.tombstone then 1 else 0] ++ post)
    rw [← hshape2, hL2] at h
    rw [h, Nat.mod_eq_of_lt (by omega)]
  have hmod : (e.value.length + 1) % 4294967296 = 0 := by
    rw [hv]
  have hflen : (pre ++ encDataEntry e ++ post).length =
      pre.length + (encDataEntry e).length + post.length := by simp; omega
  have h3 : readAt (pre ++ encDataEntry e ++ post)
      (pre.length + 4 + e.key.length + 4) 0 =
      some (((pre ++ encDataEntry e ++ post).drop
        (pre.length + 4 + e.key.length + 4)).take 0) := by
    unfold readAt
    rw [if_pos]
    rw [hflen, length_encDataEntry]
    unfold sstEntryWeight
    omega
  have h4 : goSlice (((pre ++ encDataEntry e ++ post).drop
      (pre.length + 4 + e.key.length + 4)).take 0) 0 e.value.length = none := by
    refine goSlice_none _ _ _ ?_
    rw [List.take_zero]
    simp [hv]
  unfold readEntry
  simp only [h1, hkl, h2, hvl, hmod, h3, List.take_zero]
  rw [List.take_zero] at h4
  simp only [h4]

/-- C4: for every strictly sorted (hence key-unique) entry list within the
file format's capacity — at most 400 million entries, key lengths below
`2^32`, value lengths at most `2^32 - 2` (one less than the claim's
"fits u32": at `2^32 - 1` the reader's `make([]byte, valLen+1)` wraps and
`ReadAll` panics, see the counterexample), and under `2^60` total bytes —
writing with `WriteSSTable`, opening the produced file and calling
`ReadAll` yields exactly the same entries in the same order. -/
theorem C4_sstable_roundtrip (entries : List SSTableEntry)
    (hsorted : StrictSorted entries) (hwf : sstWF entries) :
    ∃ r, OpenSSTable (WriteSSTable entries) = some r ∧
      r.ReadAll = some entries := by
  obtain ⟨hcount, hitems, hweight⟩ := hwf
  exact ⟨readerOf entries, OpenSSTable_WriteSSTable entries hcount
    (fun e he => (hitems e he).1) hweight, ReadAll_readerOf entries hitems⟩

theorem C4_sstable_roundtrip_witness :
    StrictSorted [SSTableEntry.mk [97] [1] false, SSTableEntry.mk [98] [] true] ∧
    sstWF [SSTableEntry.mk [97] [1] false, SSTableEntry.mk [98] [] true] ∧
    ∃ r, OpenSSTable (WriteSSTable
        [SSTableEntry.mk [97] [1] false, SSTableEntry.mk [98] [] true]) = some r ∧
      r.ReadAll = some [SSTableEntry.mk [97] [1] false, SSTableEntry.mk [98] [] true] :=
  ⟨by decide, by decide,
    C4_sstable_roundtrip _ (by decide) (by decide)⟩

theorem sstEntryWeight_def (e : SSTableEntry) :
    sstEntryWeight e = e.key.length + e.value.length + 9 := rfl

theorem hugeE_sorted :
    StrictSorted [SSTableEntry.mk [107] (List.replicate 4294967295 0) false] := by
  unfold StrictSorted
  exact List.pairwise_singleton _ _

theorem hugeE_open : OpenSSTable (WriteSSTable
      [SSTableEntry.mk [107] (List.replicate 4294967295 0) false]) =
    some (readerOf [SSTableEntry.mk [107] (List.replicate 4294967295 0) false]) := by
  have hwt : sstWeight [SSTableEntry.mk [107] (List.replicate 4294967295 0) false] =
      4294967305 := by
    rw [sstWeight_cons, show sstWeight ([] : List SSTableEntry) = 0 from rfl,
      sstEntryWeight_def,
      show (SSTableEntry.mk [107] (List.replicate 4294967295 0) false).key =
        [107] from rfl,
      show (SSTableEntry.mk [107] (List.replicate 4294967295 0) false).value =
        List.replicate 4294967295 0 from rfl,
      List.length_replicate, List.length_singleton]
  refine OpenSSTable_WriteSSTable _ (by rw [List.length_singleton]; omega) ?_ ?_
  · intro e he
    rw [List.mem_singleton] at he
    subst he
    show List.length [107] < 4294967296
    rw [List.length_singleton]
    omega
  · rw [hwt]
    omega

theorem hugeE_readEntry : readEntry (WriteSSTable
      [SSTableEntry.mk [107] (List.replicate 4294967295 0) false]) 0 = none := by
  have hsplit : WriteSSTable
      [SSTableEntry.mk [107] (List.replicate 4294967295 0) false] =
      ([] : Bytes) ++
        encDataEntry (SSTableEntry.mk [107] (List.replicate 4294967295 0) false) ++
        (sstIndexBytes [SSTableEntry.mk [107] (List.replicate 4294967295 0) false] ++
          (buildBloom
            [SSTableEntry.mk [107] (List.replicate 4294967295 0) false]).Serialize ++
          sstFooter
            (sstDataBytes
              [SSTableEntry.mk [107]
                (List.replicate 4294967295 0) false]).length
            (List.length [SSTableEntry.mk [107] (List.replicate 4294967295 0) false])
            ((sstDataBytes
              [SSTableEntry.mk [107] (List.replicate 4294967295 0) false]).length +
             (sstIndexBytes
              [SSTableEntry.mk [107] (List.replicate 4294967295 0) false]).length)
            ((buildBloom
              [SSTableEntry.mk [107]
                (List.replicate 4294967295 0) false]).Serialize).length) := by
    rw [WriteSSTable_def, sstDataBytes_cons,
      show sstDataBytes ([] : List SSTableEntry) = ([] : Bytes) from rfl]
    simp only [List.append_nil, List.nil_append, List.append_assoc]
  rw [hsplit]
  show readEntry _ (List.length ([] : Bytes)) = none
  refine readEntry_huge_value _ _ _ ?_ ?_
  · show List.length [107] < 4294967296
    rw [List.length_singleton]
    omega
  · show (List.replicate 4294967295 (0 : Nat)).length = 4294967295
    rw [List.length_replicate]

theorem hugeE_readAll :
    (readerOf [SSTableEntry.mk [107] (List.replicate 4294967295 0) false]).ReadAll =
      none := by
  show readAllAux (WriteSSTable
      [SSTableEntry.mk [107] (List.replicate 4294967295 0) false])
    (sstIndexFrom 0 [SSTableEntry.mk [107] (List.replicate 4294967295 0) false]) =
    none
  rw [sstIndexFrom, readAllAux, hugeE_readEntry]

theorem C4_cex_value_4GiB_roundtrip_fails :
    StrictSorted [SSTableEntry.mk [107] (List.replicate 4294967295 0) false] ∧
    OpenSSTable (WriteSSTable
        [SSTableEntry.mk [107] (List.replicate 4294967295 0) false]) =
      some (readerOf [SSTableEntry.mk [107] (List.replicate 4294967295 0) false]) ∧
    (readerOf [SSTableEntry.mk [107] (List.replicate 4294967295 0) false]).ReadAll =
      none :=
  ⟨hugeE_sorted, hugeE_open, hugeE_readAll⟩

/-! ### Binary search over a sorted list of keyed items -/

theorem sorted_search_mono {α : Type} (dflt : α) (key : α → Bytes) (l : List α)
    (hs : l.Pairwise (fun a b => keyLt (key a) (key b) = true)) (k : Bytes) :
    ∀ a b, a ≤ b → b < l.length →
      (!keyLt (key (l.getD a dflt)) k) = true →
      (!keyLt (key (l.getD b dflt)) k) = true := by
  intro a b hab hb hfa
  rcases Nat.eq_or_lt_of_le hab with heq | hlt
  · subst heq
    exact hfa
  · have ha : a < l.length := by omega
    rw [List.getD_eq_getElem l dflt ha] at hfa
    rw [List.getD_eq_getElem l dflt hb]
    have hR := List.pairwise_iff_getElem.mp hs a b ha hb hlt
    rw [Bool.not_eq_true'] at *
    cases h2 : keyLt (key l[b]) k
    · rfl
    · have h3 := keyLt_trans hR h2
      rw [h3] at hfa
      cases hfa

theorem sorted_search_not_found {α : Type} (dflt : α) (key : α → Bytes)
    (l : List α) (k : Bytes)
    (hfind : l.find? (fun x => key x == k) = none) :
    ¬(sortSearch l.length (fun i => !keyLt (key (l.getD i dflt)) k) < l.length ∧
      key (l.getD (sortSearch l.length
        (fun i => !keyLt (key (l.getD i dflt)) k)) dflt) = k) := by
  rintro ⟨hlt, hkey⟩
  have hmem : l.getD (sortSearch l.length
      (fun i => !keyLt (key (l.getD i dflt)) k)) dflt ∈ l := by
    rw [List.getD_eq_getElem l dflt hlt]
    exact List.getElem_mem hlt
  have h := List.find?_eq_none.mp hfind _ hmem
  rw [hkey] at h
  simp at h

theorem sorted_search_found {α : Type} (dflt : α) (key : α → Bytes) (l : List α)
    (hs : l.Pairwise (fun a b => keyLt (key a) (key b) = true))
    (k : Bytes) (e : α)
    (hfind : l.find? (fun x => key x == k) = some e) :
    sortSearch l.length (fun i => !keyLt (key (l.getD i dflt)) k) < l.length ∧
    l.getD (sortSearch l.length (fun i => !keyLt (key (l.getD i dflt)) k)) dflt
      = e ∧ key e = k := by
  obtain ⟨hpe, as, bs, hsplit, has⟩ := List.find?_eq_some.mp hfind
  have hek : key e = k := by simpa using hpe
  have hspec := sortSearch_spec l.length
    (fun i => !keyLt (key (l.getD i dflt)) k)
    (sorted_search_mono dflt key l hs k)
  have hlen : l.length = as.length + 1 + bs.length := by
    rw [hsplit]
    simp
    omega
  have hgetas : ∀ j, j < as.length → l.getD j dflt = as.getD j dflt := by
    intro j hj
    rw [hsplit]
    rw [List.getD_eq_getElem?_getD, List.getD_eq_getElem?_getD,
      List.getElem?_append_left hj]
  have hgete : l.getD as.length dflt = e := by
    rw [hsplit, List.getD_eq_getElem?_getD,
      List.getElem?_append_right (le_refl _)]
    simp
  have hsorted2 := hsplit ▸ hs
  have hasb : ∀ a ∈ as, keyLt (key a) (key e) = true := by
    intro a ha
    have h2 := (List.pairwise_append.mp hsorted2).2.2 a ha e (by simp)
    exact h2
  have hfas : ∀ j, j < as.length →
      (!keyLt (key (l.getD j dflt)) k) = false := by
    intro j hj
    rw [hgetas j hj]
    have hmem : as.getD j dflt ∈ as := by
      rw [List.getD_eq_getElem as dflt hj]
      exact List.getElem_mem hj
    have h2 := hasb _ hmem
    rw [hek] at h2
    rw [h2]
    rfl
  have hfe : (!keyLt (key (l.getD as.length dflt)) k) = true := by
    rw [hgete, hek, keyLt_irrefl]
    rfl
  have haslt : as.length < l.length := by omega
  set idx := sortSearch l.length (fun i => !keyLt (key (l.getD i dflt)) k) with hidx
  have hidxeq : idx = as.length := by
    by_contra hne
    rcases Nat.lt_or_ge idx as.length with h1 | h1
    · have h2 : (!keyLt (key (l.getD idx dflt)) k) = true :=
        hspec.2.2 idx (le_refl _) (by omega)
      have h3 := hfas idx h1
      rw [h2] at h3
      cases h3
    · have h4 : as.length < idx := by omega
      have h5 : (!keyLt (key (l.getD as.length dflt)) k) = false :=
        hspec.2.1 as.length h4
      rw [hfe] at h5
      cases h5
  rw [hidxeq]
  exact ⟨haslt, hgete, hek⟩

/-! ### SSTableReader.Get on a written file -/

theorem beq_bytes_iff (a b : Bytes) : (a == b) = true ↔ a = b := by
  simp

theorem index_find_none (entries : List SSTableEntry) (k : Bytes)
    (hfind : entries.find? (fun e => e.key == k) = none) (off : Nat) :
    (sstIndexFrom off entries).find? (fun p => p.1 == k) = none := by
  rw [List.find?_eq_none]
  intro p hp
  obtain ⟨e, he, hk, h1, h2⟩ := sstIndexFrom_mem entries off p hp
  have h3 := List.find?_eq_none.mp hfind e he
  simp only [beq_bytes_iff] at h3 ⊢
  rw [hk]
  simpa using h3

theorem sstIndexFrom_pairwise (entries : List SSTableEntry)
    (hs : StrictSorted entries) :
    ∀ off, (sstIndexFrom off entries).Pairwise
      (fun p q => keyLt p.1 q.1 = true) := by
  induction entries with
  | nil =>
    intro off
    exact List.Pairwise.nil
  | cons e rest ih =>
    intro off
    rw [sstIndexFrom]
    obtain ⟨hhead, htail⟩ := List.pairwise_cons.mp hs
    refine List.Pairwise.cons ?_ (ih htail _)
    intro p hp
    obtain ⟨e2, he2, hk, h1, h2⟩ := sstIndexFrom_mem rest _ p hp
    show keyLt e.key p.1 = true
    rw [hk]
    exact hhead e2 he2

theorem sstIndexFrom_find_readEntry (entries : List SSTableEntry) (k : Bytes)
    (e : SSTableEntry)
    (hwfe : ∀ x ∈ entries, x.key.length < 4294967296 ∧ x.value.length < 4294967295)
    (hfind : entries.find? (fun x => x.key == k) = some e) :
    ∀ (pre post : Bytes), ∃ o,
      (sstIndexFrom pre.length entries).find? (fun p => p.1 == k) =
        some (e.key, o) ∧
      readEntry (pre ++ sstDataBytes entries ++ post) o =
        some (some (e.value, e.tombstone)) := by
  induction entries with
  | nil => cases hfind
  | cons e1 rest ih =>
    intro pre post
    by_cases hk1 : (e1.key == k) = true
    · have he1 : e1 = e := by
        rw [@List.find?_cons_of_pos _ (fun x => x.key == k) e1 rest hk1] at hfind
        exact Option.some.inj hfind
      subst he1
      refine ⟨pre.length, ?_, ?_⟩
      · rw [sstIndexFrom]
        exact @List.find?_cons_of_pos _ (fun p => p.1 == k) (e1.key, pre.length)
          _ hk1
      · have hshape : pre ++ sstDataBytes (e1 :: rest) ++ post =
            pre ++ encDataEntry e1 ++ (sstDataBytes rest ++ post) := by
          simp [sstDataBytes_cons]
        rw [hshape]
        exact readEntry_at pre _ e1 (hwfe e1 (by simp)).1 (hwfe e1 (by simp)).2
    · rw [@List.find?_cons_of_neg _ (fun x => x.key == k) e1 rest hk1] at hfind
      have hshape2 : pre ++ sstDataBytes (e1 :: rest) ++ post =
          (pre ++ encDataEntry e1) ++ sstDataBytes rest ++ post := by
        simp [sstDataBytes_cons]
      obtain ⟨o, ho1, ho2⟩ := ih (fun x hx => hwfe x (by simp [hx])) hfind
        (pre ++ encDataEntry e1) post
      refine ⟨o, ?_, ?_⟩
      · rw [sstIndexFrom,
          @List.find?_cons_of_neg _ (fun p => p.1 == k) (e1.key, pre.length)
            _ hk1]
        have hX : pre.length + (encDataEntry e1).length =
            (pre ++ encDataEntry e1).length := by simp
        rw [hX]
        exact ho1
      · rw [hshape2]
        exact ho2

theorem buildBloom_mayContain (entries : List SSTableEntry) (e : SSTableEntry)
    (he : e ∈ entries) : (buildBloom entries).MayContain e.key = true := by
  rw [buildBloom_eq]
  refine bloom_foldl_mayContain (entries.map SSTableEntry.key)
    (NewBloomFilter entries.length) e.key (List.mem_map_of_mem _ he) ?_ ?_
  · show 0 < (NewBloomFilter entries.length).numBits
    have h := bloomNumBits_ge_8 entries.length
    simp only [NewBloomFilter, newBloomFilterSized]
    omega
  · simp only [NewBloomFilter, newBloomFilterSized, List.length_replicate]

theorem readerOf_file (entries : List SSTableEntry) :
    (readerOf entries).file = WriteSSTable entries := rfl

theorem readerOf_index (entries : List SSTableEntry) :
    (readerOf entries).index = sstIndexFrom 0 entries := rfl

theorem readerOf_bloom (entries : List SSTableEntry) :
    (readerOf entries).bloom = buildBloom entries := rfl

theorem readerOf_Get (entries : List SSTableEntry) (hsorted : StrictSorted entries)
    (hwfe : ∀ x ∈ entries, x.key.length < 4294967296 ∧ x.value.length < 4294967295)
    (k : Bytes) :
    (readerOf entries).Get k = some (entryFind entries k) := by
  cases hfind : entries.find? (fun x => x.key == k) with
  | none =>
    have hef : entryFind entries k = none := by
      rw [entryFind, hfind]
      rfl
    rw [hef]
    simp only [SSTableReader.Get, readerOf_file, readerOf_index, readerOf_bloom]
    by_cases hb : (buildBloom entries).MayContain k = true
    · rw [hb]
      rw [if_neg (by simp)]
      rw [if_neg]
      have hnf := sorted_search_not_found (default : Bytes × Nat) Prod.fst
        (sstIndexFrom 0 entries) k (index_find_none entries k hfind 0)
      exact fun hc => hnf ⟨hc.1, hc.2⟩
    · rw [Bool.not_eq_true] at hb
      rw [hb]
      rw [if_pos (by simp)]
  | some e =>
    have hef : entryFind entries k = some (e.value, e.tombstone) := by
      rw [entryFind, hfind]
      rfl
    have hek : e.key = k := by
      have h := List.find?_some hfind
      simpa using h
    rw [hef]
    obtain ⟨o, ho1, ho2⟩ := sstIndexFrom_find_readEntry entries k e hwfe hfind
      ([] : Bytes) (sstIndexBytes entries ++ (buildBloom entries).Serialize ++
        sstFooter (sstDataBytes entries).length entries.length
          ((sstDataBytes entries).length + (sstIndexBytes entries).length)
          ((buildBloom entries).Serialize).length)
    have hW : ([] : Bytes) ++ sstDataBytes entries ++
        (sstIndexBytes entries ++ (buildBloom entries).Serialize ++
          sstFooter (sstDataBytes entries).length entries.length
            ((sstDataBytes entries).length + (sstIndexBytes entries).length)
            ((buildBloom entries).Serialize).length) = WriteSSTable entries := by
      rw [WriteSSTable_def]
      simp
    rw [hW] at ho2
    have ho1b : (sstIndexFrom 0 entries).find? (fun p => p.1 == k) =
        some (e.key, o) := by
      have hX : (([] : Bytes)).length = 0 := rfl
      rw [hX] at ho1
      exact ho1
    have hsearch := sorted_search_found (default : Bytes × Nat) Prod.fst
      (sstIndexFrom 0 entries) (sstIndexFrom_pairwise entries hsorted 0)
      k (e.key, o) ho1b
    simp only [SSTableReader.Get, readerOf_file, readerOf_index, readerOf_bloom]
    have hb : (buildBloom entries).MayContain k = true := by
      rw [← hek]
      exact buildBloom_mayContain entries e (List.mem_of_find?_eq_some hfind)
    rw [hb, if_neg (by simp)]
    rw [if_pos ⟨hsearch.1, by rw [hsearch.2.1]; exact hek⟩]
    rw [hsearch.2.1]
    exact ho2

/-! ### Memtable operations on sorted entries -/

theorem set_append_length {α : Type} (as bs : List α) (e x : α) :
    (as ++ e :: bs).set as.length x = as ++ x :: bs := by
  induction as with
  | nil => rfl
  | cons a t ih =>
    show (a :: (t ++ e :: bs)).set (t.length + 1) x = a :: (t ++ x :: bs)
    rw [List.set_cons_succ, ih]

theorem insertIdx_append {α : Type} (as bs : List α) (x : α) :
    (as ++ bs).insertIdx as.length x = as ++ x :: bs := by
  induction as with
  | nil => rfl
  | cons a t ih =>
    show (a :: (t ++ bs)).insertIdx (t.length + 1) x = a :: (t ++ x :: bs)
    rw [List.insertIdx_succ_cons, ih]

theorem sorted_split_find {α : Type} (key : α → Bytes) (as bs : List α) (e : α)
    (k : Bytes)
    (hs : (as ++ e :: bs).Pairwise (fun a b => keyLt (key a) (key b) = true))
    (hek : key e = k) :
    (as ++ e :: bs).find? (fun x => key x == k) = some e := by
  induction as with
  | nil =>
    rw [List.nil_append]
    refine @List.find?_cons_of_pos _ (fun x => key x == k) e bs ?_
    show (key e == k) = true
    rw [hek]
    simp
  | cons a t ih =>
    obtain ⟨hhead, htail⟩ := List.pairwise_cons.mp hs
    have hne : (key a == k) = false := by
      have h1 : keyLt (key a) (key e) = true := hhead e (by simp)
      rw [hek] at h1
      by_contra hc
      rw [Bool.not_eq_false, beq_bytes_iff] at hc
      rw [hc] at h1
      rw [keyLt_irrefl] at h1
      cases h1
    show ((a :: t) ++ e :: bs).find? (fun x => key x == k) = some e
    rw [List.cons_append]
    rw [@List.find?_cons_of_neg _ (fun x => key x == k) a (t ++ e :: bs)
      (by show ¬(key a == k) = true; rw [hne]; simp)]
    exact ih htail

theorem sorted_search_split {α : Type} (dflt : α) (key : α → Bytes)
    (as bs : List α) (e : α) (k : Bytes)
    (hs : (as ++ e :: bs).Pairwise (fun a b => keyLt (key a) (key b) = true))
    (hek : key e = k) :
    sortSearch (as ++ e :: bs).length
      (fun i => !keyLt (key ((as ++ e :: bs).getD i dflt)) k) = as.length := by
  set l := as ++ e :: bs with hl
  have hspec := sortSearch_spec l.length
    (fun i => !keyLt (key (l.getD i dflt)) k)
    (sorted_search_mono dflt key l hs k)
  have hlen : l.length = as.length + 1 + bs.length := by
    rw [hl]
    simp
    omega
  have hgetas : ∀ j, j < as.length → l.getD j dflt = as.getD j dflt := by
    intro j hj
    rw [hl, List.getD_eq_getElem?_getD, List.getD_eq_getElem?_getD,
      List.getElem?_append_left hj]
  have hgete : l.getD as.length dflt = e := by
    rw [hl, List.getD_eq_getElem?_getD,
      List.getElem?_append_right (le_refl _)]
    simp
  have hasb : ∀ a ∈ as, keyLt (key a) (key e) = true := by
    intro a ha
    exact (List.pairwise_append.mp hs).2.2 a ha e (by simp)
  have hfas : ∀ j, j < as.length →
      (!keyLt (key (l.getD j dflt)) k) = false := by
    intro j hj
    rw [hgetas j hj]
    have hmem : as.getD j dflt ∈ as := by
      rw [List.getD_eq_getElem as dflt hj]
      exact List.getElem_mem hj
    have h2 := hasb _ hmem
    rw [hek] at h2
    rw [h2]
    rfl
  have hfe : (!keyLt (key (l.getD as.length dflt)) k) = true := by
    rw [hgete, hek, keyLt_irrefl]
    rfl
  by_contra hne
  rcases Nat.lt_or_ge (sortSearch l.length
    (fun i => !keyLt (key (l.getD i dflt)) k)) as.length with h1 | h1
  · have h2 : (!keyLt (key (l.getD (sortSearch l.length
        (fun i => !keyLt (key (l.getD i dflt)) k)) dflt)) k) = true :=
      hspec.2.2 _ (le_refl _) (by omega)
    have h3 := hfas _ h1
    rw [h2] at h3
    cases h3
  · have h4 : as.length < sortSearch l.length
        (fun i => !keyLt (key (l.getD i dflt)) k) := by omega
    have h5 : (!keyLt (key (l.getD as.length dflt)) k) = false :=
      hspec.2.1 as.length h4
    rw [hfe] at h5
    cases h5

theorem sorted_search_absent {α : Type} (dflt : α) (key : α → Bytes)
    (l : List α) (k : Bytes) (habs : ∀ x ∈ l, key x ≠ k) :
    ¬(sortSearch l.length (fun i => !keyLt (key (l.getD i dflt)) k) < l.length ∧
      key (l.getD (sortSearch l.length
        (fun i => !keyLt (key (l.getD i dflt)) k)) dflt) = k) := by
  rintro ⟨hlt, hkey⟩
  have hmem : l.getD (sortSearch l.length
      (fun i => !keyLt (key (l.getD i dflt)) k)) dflt ∈ l := by
    rw [List.getD_eq_getElem l dflt hlt]
    exact List.getElem_mem hlt
  exact habs _ hmem hkey

theorem getD_append_length {α : Type} [Inhabited α] (as bs : List α) (e : α) :
    (as ++ e :: bs).getD as.length default = e := by
  rw [List.getD_eq_getElem?_getD, List.getElem?_append_right (le_refl _)]
  simp

theorem memtable_put_def (m : Memtable) (key value : Bytes) :
    m.Put key value =
      if m.search key < m.entries.length ∧
          (m.entries.getD (m.search key) default).key = key then
        { m with
          entries := m.entries.set (m.search key) ⟨key, some value, false⟩,
          size := m.size -
            valBytesLen (m.entries.getD (m.search key) default).value
            + value.length }
      else
        { m with
          entries := m.entries.insertIdx (m.search key) ⟨key, some value, false⟩,
          size := m.size + key.length + value.length + 1 } := rfl

theorem memtable_delete_def (m : Memtable) (key : Bytes) :
    m.Delete key =
      if m.search key < m.entries.length ∧
          (m.entries.getD (m.search key) default).key = key then
        { m with
          entries := m.entries.set (m.search key) ⟨key, none, true⟩,
          size := m.size -
            valBytesLen (m.entries.getD (m.search key) default).value }
      else
        { m with
          entries := m.entries.insertIdx (m.search key) ⟨key, none, true⟩,
          size := m.size + key.length + 1 } := rfl

theorem memtable_get_def (m : Memtable) (key : Bytes) :
    m.Get key =
      if m.search key < m.entries.length ∧
          (m.entries.getD (m.search key) default).key = key then
        if (m.entries.getD (m.search key) default).tombstone then (none, true)
        else ((m.entries.getD (m.search key) default).value, true)
      else (none, false) := rfl

theorem memtable_search_split (m : Memtable) (as bs : List MemEntry)
    (e : MemEntry) (k : Bytes) (hs : StrictSortedMem m.entries)
    (hsplit : m.entries = as ++ e :: bs) (hek : e.key = k) :
    m.search k = as.length := by
  show sortSearch m.entries.length
    (fun i => !keyLt ((m.entries.getD i default)).key k) = as.length
  rw [hsplit] at hs ⊢
  exact sorted_search_split default MemEntry.key as bs e k hs hek

theorem memtable_search_absent (m : Memtable) (k : Bytes)
    (habs : ∀ x ∈ m.entries, x.key ≠ k) :
    ¬(m.search k < m.entries.length ∧
      (m.entries.getD (m.search k) default).key = k) :=
  sorted_search_absent default MemEntry.key m.entries k habs

theorem memtable_search_le (m : Memtable) (k : Bytes)
    (hs : StrictSortedMem m.entries) : m.search k ≤ m.entries.length :=
  (sortSearch_spec m.entries.length
    (fun i => !keyLt ((m.entries.getD i default)).key k)
    (sorted_search_mono default MemEntry.key m.entries hs k)).1

theorem memtable_search_take (m : Memtable) (k : Bytes)
    (hs : StrictSortedMem m.entries) :
    ∀ a ∈ m.entries.take (m.search k), keyLt a.key k = true := by
  intro a ha
  obtain ⟨j, hj, hja⟩ := List.mem_iff_getElem.mp ha
  have hjl : j < m.entries.length := by
    have h2 := List.length_take (m.search k) m.entries
    omega
  have hjidx : j < m.search k := by
    have h2 := List.length_take (m.search k) m.entries
    omega
  have hga : m.entries.getD j default = a := by
    rw [List.getD_eq_getElem m.entries default hjl]
    rw [← hja]
    exact (List.getElem_take m.entries).symm
  have hf : (!keyLt ((m.entries.getD j default)).key k) = false :=
    (sortSearch_spec m.entries.length
      (fun i => !keyLt ((m.entries.getD i default)).key k)
      (sorted_search_mono default MemEntry.key m.entries hs k)).2.1 j hjidx
  rw [hga] at hf
  rw [Bool.not_eq_false'] at hf
  exact hf

theorem memtable_search_drop (m : Memtable) (k : Bytes)
    (hs : StrictSortedMem m.entries) :
    ∀ b ∈ m.entries.drop (m.search k), keyLt b.key k = false := by
  intro b hb
  obtain ⟨j, hj, hjb⟩ := List.mem_iff_getElem.mp hb
  have hjl : m.search k + j < m.entries.length := by
    have hef : m.search k = sortSearch m.entries.length
        (fun i => !keyLt ((m.entries.getD i default)).key k) := rfl
    have h2 : (List.drop (m.search k) m.entries).length =
        m.entries.length - m.search k := List.length_drop _ _
    have h3 := memtable_search_le m k hs
    omega
  have hgb : m.entries.getD (m.search k + j) default = b := by
    rw [List.getD_eq_getElem m.entries default hjl]
    rw [← hjb]
    exact (List.getElem_drop m.entries).symm
  have hf : (!keyLt ((m.entries.getD (m.search k + j) default)).key k) = true :=
    (sortSearch_spec m.entries.length
      (fun i => !keyLt ((m.entries.getD i default)).key k)
      (sorted_search_mono default MemEntry.key m.entries hs k)).2.2
      (m.search k + j) (Nat.le_add_right _ _) hjl
  rw [hgb] at hf
  rw [Bool.not_eq_true'] at hf
  exact hf

theorem memtable_put_found (m : Memtable) (k v : Bytes) (as bs : List MemEntry)
    (e : MemEntry) (hs : StrictSortedMem m.entries)
    (hsplit : m.entries = as ++ e :: bs) (hek : e.key = k) :
    m.Put k v = ⟨as ++ ⟨k, some v, false⟩ :: bs,
      m.size - valBytesLen e.value + v.length, m.threshold⟩ := by
  have hidx := memtable_search_split m as bs e k hs hsplit hek
  have hget : m.entries.getD (m.search k) default = e := by
    rw [hidx, hsplit]
    exact getD_append_length as bs e
  rw [memtable_put_def]
  rw [if_pos ⟨by rw [hidx, hsplit]; simp, by rw [hget]; exact hek⟩]
  rw [hget, hidx, hsplit, set_append_length]

theorem memtable_put_absent (m : Memtable) (k v : Bytes)
    (hs : StrictSortedMem m.entries) (habs : ∀ x ∈ m.entries, x.key ≠ k) :
    ∃ as bs, m.entries = as ++ bs ∧
      (∀ a ∈ as, keyLt a.key k = true) ∧
      (∀ b ∈ bs, keyLt k b.key = true) ∧
      m.Put k v = ⟨as ++ ⟨k, some v, false⟩ :: bs,
        m.size + k.length + v.length + 1, m.threshold⟩ := by
  refine ⟨m.entries.take (m.search k), m.entries.drop (m.search k),
    (List.take_append_drop _ _).symm, memtable_search_take m k hs, ?_, ?_⟩
  · intro b hb
    have h1 := memtable_search_drop m k hs b hb
    have h2 : b ∈ m.entries := List.mem_of_mem_drop hb
    exact keyLt_of_ne_of_not_lt (habs b h2) h1
  · rw [memtable_put_def, if_neg (memtable_search_absent m k habs)]
    have hlen : (m.entries.take (m.search k)).length = m.search k := by
      rw [List.length_take]
      have h2 := memtable_search_le m k hs
      omega
    have hins := insertIdx_append (m.entries.take (m.search k))
      (m.entries.drop (m.search k)) (⟨k, some v, false⟩ : MemEntry)
    rw [List.take_append_drop, hlen] at hins
    rw [hins]

theorem memtable_delete_found (m : Memtable) (k : Bytes) (as bs : List MemEntry)
    (e : MemEntry) (hs : StrictSortedMem m.entries)
    (hsplit : m.entries = as ++ e :: bs) (hek : e.key = k) :
    m.Delete k = ⟨as ++ ⟨k, none, true⟩ :: bs,
      m.size - valBytesLen e.value, m.threshold⟩ := by
  have hidx := memtable_search_split m as bs e k hs hsplit hek
  have hget : m.entries.getD (m.search k) default = e := by
    rw [hidx, hsplit]
    exact getD_append_length as bs e
  rw [memtable_delete_def]
  rw [if_pos ⟨by rw [hidx, hsplit]; simp, by rw [hget]; exact hek⟩]
  rw [hget, hidx, hsplit, set_append_length]

theorem memtable_delete_absent (m : Memtable) (k : Bytes)
    (hs : StrictSortedMem m.entries) (habs : ∀ x ∈ m.entries, x.key ≠ k) :
    ∃ as bs, m.entries = as ++ bs ∧
      (∀ a ∈ as, keyLt a.key k = true) ∧
      (∀ b ∈ bs, keyLt k b.key = true) ∧
      m.Delete k = ⟨as ++ ⟨k, none, true⟩ :: bs,
        m.size + k.length + 1, m.threshold⟩ := by
  refine ⟨m.entries.take (m.search k), m.entries.drop (m.search k),
    (List.take_append_drop _ _).symm, memtable_search_take m k hs, ?_, ?_⟩
  · intro b hb
    have h1 := memtable_search_drop m k hs b hb
    have h2 : b ∈ m.entries := List.mem_of_mem_drop hb
    exact keyLt_of_ne_of_not_lt (habs b h2) h1
  · rw [memtable_delete_def, if_neg (memtable_search_absent m k habs)]
    have hlen : (m.entries.take (m.search k)).length = m.search k := by
      rw [List.length_take]
      have h2 := memtable_search_le m k hs
      omega
    have hins := insertIdx_append (m.entries.take (m.search k))
      (m.entries.drop (m.search k)) (⟨k, none, true⟩ : MemEntry)
    rw [List.take_append_drop, hlen] at hins
    rw [hins]

theorem memtable_get_found (m : Memtable) (k : Bytes) (as bs : List MemEntry)
    (e : MemEntry) (hs : StrictSortedMem m.entries)
    (hsplit : m.entries = as ++ e :: bs) (hek : e.key = k) :
    m.Get k = (if e.tombstone then none else e.value, true) := by
  have hidx := memtable_search_split m as bs e k hs hsplit hek
  have hget : m.entries.getD (m.search k) default = e := by
    rw [hidx, hsplit]
    exact getD_append_length as bs e
  rw [memtable_get_def]
  rw [if_pos ⟨by rw [hidx, hsplit]; simp, by rw [hget]; exact hek⟩]
  rw [hget]
  cases e.tombstone <;> simp

theorem memtable_get_absent (m : Memtable) (k : Bytes)
    (habs : ∀ x ∈ m.entries, x.key ≠ k) :
    m.Get k = (none, false) := by
  rw [memtable_get_def, if_neg (memtable_search_absent m k habs)]

/-! ### The engine read path -/

theorem findSome?_map_option {α β γ : Type} (g : α → Option β) (f : β → γ)
    (l : List α) :
    l.findSome? (fun a => (g a).map f) = (l.findSome? g).map f := by
  induction l with
  | nil => rfl
  | cons a t ih =>
    rw [List.findSome?_cons, List.findSome?_cons]
    cases g a
    · simpa using ih
    · simp

theorem tiersFind_eq_findNewest (tiers : List (List SSTableEntry)) (k : Bytes) :
    tiersFind tiers k =
      (findNewest tiers k).map (fun e => (e.value, e.tombstone)) := by
  rw [tiersFind, findNewest, ← findSome?_map_option]
  rfl

theorem sstLoop_tiers (tiers : List (List SSTableEntry))
    (hwf : ∀ t ∈ tiers, StrictSorted t ∧
      (∀ x ∈ t, x.key.length < 4294967296 ∧ x.value.length < 4294967295))
    (k : Bytes) :
    sstLoop k (tiers.map readerOf) =
      some (match tiersFind tiers k with
        | some (v, tb) => if tb then none else some v
        | none => none) := by
  induction tiers with
  | nil => rfl
  | cons t rest ih =>
    rw [List.map_cons, sstLoop]
    rw [readerOf_Get t (hwf t (by simp)).1 (hwf t (by simp)).2 k]
    cases hef : entryFind t k with
    | none =>
      have htf : tiersFind (t :: rest) k = tiersFind rest k := by
        rw [tiersFind, List.findSome?_cons]
        rw [show entryFind t k = none from hef]
        rfl
      rw [htf]
      exact ih (fun t2 h2 => hwf t2 (by simp [h2]))
    | some p =>
      obtain ⟨v, tb⟩ := p
      have htf : tiersFind (t :: rest) k = some (v, tb) := by
        rw [tiersFind, List.findSome?_cons]
        rw [show entryFind t k = some (v, tb) from hef]
      rw [htf]
      show (if tb then some none else some (some v)) =
        some (if tb then none else some v)
      cases tb <;> rfl

theorem dbGet_view (st : DBState) (tiers : List (List SSTableEntry))
    (hsst : st.sstables = tiers.map readerOf)
    (hwf : ∀ t ∈ tiers, StrictSorted t ∧
      (∀ x ∈ t, x.key.length < 4294967296 ∧ x.value.length < 4294967295))
    (k : Bytes) :
    DB.Get st k = some (viewGet st.mem tiers k) := by
  rw [DB.Get, viewGet]
  cases hg : st.mem.Get k with
  | mk val found =>
    cases val with
    | some v =>
      cases found
      · rw [hsst, sstLoop_tiers tiers hwf k]
      · rfl
    | none =>
      cases found
      · rw [hsst, sstLoop_tiers tiers hwf k]
      · rfl

theorem memtable_put_cases (m : Memtable) (k v : Bytes)
    (hs : StrictSortedMem m.entries) :
    (∃ as bs e, m.entries = as ++ e :: bs ∧ e.key = k ∧
      m.Put k v = ⟨as ++ ⟨k, some v, false⟩ :: bs,
        m.size - valBytesLen e.value + v.length, m.threshold⟩) ∨
    (∃ as bs, m.entries = as ++ bs ∧
      (∀ a ∈ as, keyLt a.key k = true) ∧
      (∀ b ∈ bs, keyLt k b.key = true) ∧
      m.Put k v = ⟨as ++ ⟨k, some v, false⟩ :: bs,
        m.size + k.length + v.length + 1, m.threshold⟩) := by
  cases hf : m.entries.find? (fun e => e.key == k) with
  | some e =>
    left
    obtain ⟨hp, as, bs, hsplit, hskip⟩ := List.find?_eq_some.mp hf
    have hek : e.key = k := by simpa using hp
    exact ⟨as, bs, e, hsplit, hek, memtable_put_found m k v as bs e hs hsplit hek⟩
  | none =>
    right
    have habs : ∀ x ∈ m.entries, x.key ≠ k := by
      intro x hx
      have h2 := List.find?_eq_none.mp hf x hx
      simpa using h2
    obtain ⟨as, bs, h1, h2, h3, h4⟩ := memtable_put_absent m k v hs habs
    exact ⟨as, bs, h1, h2, h3, h4⟩

theorem memtable_delete_cases (m : Memtable) (k : Bytes)
    (hs : StrictSortedMem m.entries) :
    (∃ as bs e, m.entries = as ++ e :: bs ∧ e.key = k ∧
      m.Delete k = ⟨as ++ ⟨k, none, true⟩ :: bs,
        m.size - valBytesLen e.value, m.threshold⟩) ∨
    (∃ as bs, m.entries = as ++ bs ∧
      (∀ a ∈ as, keyLt a.key k = true) ∧
      (∀ b ∈ bs, keyLt k b.key = true) ∧
      m.Delete k = ⟨as ++ ⟨k, none, true⟩ :: bs,
        m.size + k.length + 1, m.threshold⟩) := by
  cases hf : m.entries.find? (fun e => e.key == k) with
  | some e =>
    left
    obtain ⟨hp, as, bs, hsplit, hskip⟩ := List.find?_eq_some.mp hf
    have hek : e.key = k := by simpa using hp
    exact ⟨as, bs, e, hsplit, hek, memtable_delete_found m k as bs e hs hsplit hek⟩
  | none =>
    right
    have habs : ∀ x ∈ m.entries, x.key ≠ k := by
      intro x hx
      have h2 := List.find?_eq_none.mp hf x hx
      simpa using h2
    obtain ⟨as, bs, h1, h2, h3, h4⟩ := memtable_delete_absent m k hs habs
    exact ⟨as, bs, h1, h2, h3, h4⟩

theorem sortedMem_replace (as bs : List MemEntry) (e x : MemEntry)
    (hs : StrictSortedMem (as ++ e :: bs)) (hkey : x.key = e.key) :
    StrictSortedMem (as ++ x :: bs) := by
  unfold StrictSortedMem at *
  rw [List.pairwise_append] at hs ⊢
  obtain ⟨h1, h2, h3⟩ := hs
  rw [List.pairwise_cons] at h2 ⊢
  refine ⟨h1, ⟨?_, h2.2⟩, ?_⟩
  · intro b hb
    rw [hkey]
    exact h2.1 b hb
  · intro a ha b hb
    rcases List.mem_cons.mp hb with hb2 | hb2
    · subst hb2
      rw [hkey]
      exact h3 a ha e (by simp)
    · exact h3 a ha b (by simp [hb2])

theorem sortedMem_insert (as bs : List MemEntry) (x : MemEntry)
    (hs : StrictSortedMem (as ++ bs))
    (ha : ∀ a ∈ as, keyLt a.key x.key = true)
    (hb : ∀ b ∈ bs, keyLt x.key b.key = true) :
    StrictSortedMem (as ++ x :: bs) := by
  unfold StrictSortedMem at *
  rw [List.pairwise_append] at hs ⊢
  obtain ⟨h1, h2, h3⟩ := hs
  rw [List.pairwise_cons]
  refine ⟨h1, ⟨hb, h2⟩, ?_⟩
  intro a hamem b hbmem
  rcases List.mem_cons.mp hbmem with hb2 | hb2
  · subst hb2
    exact ha a hamem
  · exact h3 a hamem b hb2

theorem memSizeSpec_append (l1 l2 : List MemEntry) :
    memSizeSpec (l1 ++ l2) = memSizeSpec l1 + memSizeSpec l2 := by
  unfold memSizeSpec
  rw [List.map_append, List.sum_append]

theorem memSizeSpec_cons (e : MemEntry) (l : List MemEntry) :
    memSizeSpec (e :: l) =
      e.key.length + valBytesLen e.value + 1 + memSizeSpec l := by
  unfold memSizeSpec
  rw [List.map_cons, List.sum_cons]

theorem memWeight_entries (l1 l2 : List MemEntry) (s1 s2 t1 t2 : Nat)
    (h : l1 = l2) :
    (Memtable.mk l1 s1 t1).entries = (Memtable.mk l2 s2 t2).entries := by
  simpa using h

theorem term_le_memSizeSpec (e : MemEntry) (l : List MemEntry) (he : e ∈ l) :
    e.key.length + valBytesLen e.value + 1 ≤ memSizeSpec l := by
  induction l with
  | nil => cases he
  | cons x t ih =>
    rw [memSizeSpec_cons]
    rcases List.mem_cons.mp he with h2 | h2
    · subst h2
      omega
    · have h3 := ih h2
      omega

theorem find?_mid_ne {α : Type} (p : α → Bool) (as bs : List α) (x y : α)
    (hx : p x = false) (hy : p y = false) :
    (as ++ x :: bs).find? p = (as ++ y :: bs).find? p := by
  induction as with
  | nil =>
    rw [List.nil_append, List.nil_append,
      List.find?_cons_of_neg _ (by rw [hx]; simp),
      List.find?_cons_of_neg _ (by rw [hy]; simp)]
  | cons a t ih =>
    rw [List.cons_append, List.cons_append]
    cases hpa : p a
    · rw [List.find?_cons_of_neg _ (by rw [hpa]; simp),
        List.find?_cons_of_neg _ (by rw [hpa]; simp), ih]
    · rw [List.find?_cons_of_pos _ hpa, List.find?_cons_of_pos _ hpa]

theorem find?_insert_ne {α : Type} (p : α → Bool) (as bs : List α) (x : α)
    (hx : p x = false) :
    (as ++ x :: bs).find? p = (as ++ bs).find? p := by
  induction as with
  | nil =>
    rw [List.nil_append, List.nil_append,
      List.find?_cons_of_neg _ (by rw [hx]; simp)]
  | cons a t ih =>
    rw [List.cons_append, List.cons_append]
    cases hpa : p a
    · rw [List.find?_cons_of_neg _ (by rw [hpa]; simp),
        List.find?_cons_of_neg _ (by rw [hpa]; simp), ih]
    · rw [List.find?_cons_of_pos _ hpa, List.find?_cons_of_pos _ hpa]

theorem memtable_get_eq_find (m : Memtable) (hs : StrictSortedMem m.entries)
    (k : Bytes) :
    m.Get k = match m.entries.find? (fun e => e.key == k) with
      | some e => (if e.tombstone then none else e.value, true)
      | none => (none, false) := by
  cases hf : m.entries.find? (fun e => e.key == k) with
  | some e =>
    obtain ⟨hp, as, bs, hsplit, hskip⟩ := List.find?_eq_some.mp hf
    have hek : e.key = k := by simpa using hp
    exact memtable_get_found m k as bs e hs hsplit hek
  | none =>
    refine memtable_get_absent m k ?_
    intro x hx
    have h2 := List.find?_eq_none.mp hf x hx
    simpa using h2

theorem beq_of_ne (a b : Bytes) (h : a ≠ b) : (a == b) = false := by
  simp [h]

theorem memtable_put_effect (m : Memtable) (k v : Bytes)
    (hs : StrictSortedMem m.entries) (hsize : m.size = memSizeSpec m.entries)
    (hwfe : ∀ e ∈ m.entries, memEntryWF e)
    (hk : k.length < 4294967296) (hv : v.length < 4294967295) :
    StrictSortedMem (m.Put k v).entries ∧
    (m.Put k v).size = memSizeSpec (m.Put k v).entries ∧
    (m.Put k v).threshold = m.threshold ∧
    (∀ e ∈ (m.Put k v).entries, memEntryWF e) ∧
    (m.Put k v).entries.length ≤ m.entries.length + 1 ∧
    ((m.Put k v).entries.map memEntryWeight).sum ≤
      (m.entries.map memEntryWeight).sum + (k.length + v.length + 9) ∧
    (⟨k, some v, false⟩ : MemEntry) ∈ (m.Put k v).entries ∧
    (m.Put k v).Get k = (some v, true) ∧
    (∀ k2, k2 ≠ k → (m.Put k v).Get k2 = m.Get k2) := by
  rcases memtable_put_cases m k v hs with
    ⟨as, bs, e, hsplit, hek, heq⟩ | ⟨as, bs, hsplit, hlo, hhi, heq⟩
  · have hsorted2 : StrictSortedMem (as ++ (⟨k, some v, false⟩ : MemEntry) :: bs) := by
      refine sortedMem_replace as bs e ⟨k, some v, false⟩ (hsplit ▸ hs) ?_
      rw [hek]
    have hents : (m.Put k v).entries = as ++ ⟨k, some v, false⟩ :: bs := by
      rw [heq]
    have hfindk : (m.Put k v).entries.find? (fun x => x.key == k) =
        some ⟨k, some v, false⟩ := by
      rw [hents]
      exact sorted_split_find MemEntry.key as bs ⟨k, some v, false⟩ k hsorted2 rfl
    refine ⟨hents ▸ hsorted2, ?_, by rw [heq], ?_, ?_, ?_, ?_, ?_, ?_⟩
    · rw [heq]
      rw [hsplit] at hsize
      show m.size - valBytesLen e.value + v.length =
        memSizeSpec (as ++ ⟨k, some v, false⟩ :: bs)
      rw [memSizeSpec_append, memSizeSpec_cons] at hsize ⊢
      have hterm : valBytesLen e.value ≤
          e.key.length + valBytesLen e.value + 1 := by omega
      show m.size - valBytesLen e.value + v.length =
        memSizeSpec as + (k.length + valBytesLen (some v) + 1 + memSizeSpec bs)
      have hvb : valBytesLen (some v) = v.length := rfl
      rw [hek] at hsize
      omega
    · rw [hents]
      intro x hx
      rcases List.mem_append.mp hx with h2 | h2
      · exact hwfe x (by rw [hsplit]; simp [h2])
      · rcases List.mem_cons.mp h2 with h3 | h3
        · subst h3
          exact ⟨hk, by show v.length < 4294967295; exact hv, fun _ => ⟨v, rfl⟩⟩
        · exact hwfe x (by rw [hsplit]; simp [h3])
    · rw [hents, hsplit]
      simp only [List.length_append, List.length_cons]
      omega
    · rw [hents, hsplit]
      rw [List.map_append, List.map_append, List.map_cons, List.map_cons,
        List.sum_append, List.sum_append, List.sum_cons, List.sum_cons]
      have h2 : memEntryWeight ⟨k, some v, false⟩ = k.length + v.length + 9 := rfl
      have h3 : 0 ≤ memEntryWeight e := Nat.zero_le _
      omega
    · rw [hents]
      simp
    · rw [memtable_get_eq_find _ (hents ▸ hsorted2) k, hfindk]
      rfl
    · intro k2 hk2
      rw [memtable_get_eq_find _ (hents ▸ hsorted2) k2,
        memtable_get_eq_find m hs k2]
      rw [hents, hsplit]
      rw [find?_mid_ne (fun x => x.key == k2) as bs _ e
        (by show (k == k2) = false; exact beq_of_ne k k2 (fun h => hk2 h.symm))
        (by show (e.key == k2) = false; rw [hek];
            exact beq_of_ne k k2 (fun h => hk2 h.symm))]
  · have hsorted2 : StrictSortedMem (as ++ (⟨k, some v, false⟩ : MemEntry) :: bs) :=
      sortedMem_insert as bs ⟨k, some v, false⟩ (hsplit ▸ hs) hlo hhi
    have hents : (m.Put k v).entries = as ++ ⟨k, some v, false⟩ :: bs := by
      rw [heq]
    have hfindk : (m.Put k v).entries.find? (fun x => x.key == k) =
        some ⟨k, some v, false⟩ := by
      rw [hents]
      exact sorted_split_find MemEntry.key as bs ⟨k, some v, false⟩ k hsorted2 rfl
    refine ⟨hents ▸ hsorted2, ?_, by rw [heq], ?_, ?_, ?_, ?_, ?_, ?_⟩
    · rw [heq]
      rw [hsplit] at hsize
      show m.size + k.length + v.length + 1 =
        memSizeSpec (as ++ ⟨k, some v, false⟩ :: bs)
      rw [memSizeSpec_append] at hsize ⊢
      rw [memSizeSpec_cons]
      have hpk : (⟨k, some v, false⟩ : MemEntry).key = k := rfl
      have hpv : (⟨k, some v, false⟩ : MemEntry).value = some v := rfl
      rw [hpk, hpv]
      have hvb : valBytesLen (some v) = v.length := rfl
      omega
    · rw [hents]
      intro x hx
      rcases List.mem_append.mp hx with h2 | h2
      · exact hwfe x (by rw [hsplit]; simp [h2])
      · rcases List.mem_cons.mp h2 with h3 | h3
        · subst h3
          exact ⟨hk, by show v.length < 4294967295; exact hv, fun _ => ⟨v, rfl⟩⟩
        · exact hwfe x (by rw [hsplit]; simp [h3])
    · rw [hents, hsplit]
      simp only [List.length_append, List.length_cons]
      omega
    · rw [hents, hsplit]
      rw [List.map_append, List.map_append, List.map_cons,
        List.sum_append, List.sum_append, List.sum_cons]
      have h2 : memEntryWeight ⟨k, some v, false⟩ = k.length + v.length + 9 := rfl
      omega
    · rw [hents]
      simp
    · rw [memtable_get_eq_find _ (hents ▸ hsorted2) k, hfindk]
      rfl
    · intro k2 hk2
      rw [memtable_get_eq_find _ (hents ▸ hsorted2) k2,
        memtable_get_eq_find m hs k2]
      rw [hents, hsplit]
      rw [find?_insert_ne (fun x => x.key == k2) as bs _
        (by show (k == k2) = false; exact beq_of_ne k k2 (fun h => hk2 h.symm))]

theorem memtable_delete_effect (m : Memtable) (k : Bytes)
    (hs : StrictSortedMem m.entries) (hsize : m.size = memSizeSpec m.entries)
    (hwfe : ∀ e ∈ m.entries, memEntryWF e)
    (hk : k.length < 4294967296) :
    StrictSortedMem (m.Delete k).entries ∧
    (m.Delete k).size = memSizeSpec (m.Delete k).entries ∧
    (m.Delete k).threshold = m.threshold ∧
    (∀ e ∈ (m.Delete k).entries, memEntryWF e) ∧
    (m.Delete k).entries.length ≤ m.entries.length + 1 ∧
    ((m.Delete k).entries.map memEntryWeight).sum ≤
      (m.entries.map memEntryWeight).sum + (k.length + 9) ∧
    (⟨k, none, true⟩ : MemEntry) ∈ (m.Delete k).entries ∧
    (m.Delete k).Get k = (none, true) ∧
    (∀ k2, k2 ≠ k → (m.Delete k).Get k2 = m.Get k2) := by
  rcases memtable_delete_cases m k hs with
    ⟨as, bs, e, hsplit, hek, heq⟩ | ⟨as, bs, hsplit, hlo, hhi, heq⟩
  · have hsorted2 : StrictSortedMem (as ++ (⟨k, none, true⟩ : MemEntry) :: bs) := by
      refine sortedMem_replace as bs e ⟨k, none, true⟩ (hsplit ▸ hs) ?_
      rw [hek]
    have hents : (m.Delete k).entries = as ++ ⟨k, none, true⟩ :: bs := by
      rw [heq]
    have hfindk : (m.Delete k).entries.find? (fun x => x.key == k) =
        some ⟨k, none, true⟩ := by
      rw [hents]
      exact sorted_split_find MemEntry.key as bs ⟨k, none, true⟩ k hsorted2 rfl
    refine ⟨hents ▸ hsorted2, ?_, by rw [heq], ?_, ?_, ?_, ?_, ?_, ?_⟩
    · rw [heq]
      rw [hsplit] at hsize
      show m.size - valBytesLen e.value =
        memSizeSpec (as ++ ⟨k, none, true⟩ :: bs)
      rw [memSizeSpec_append, memSizeSpec_cons] at hsize ⊢
      show m.size - valBytesLen e.value =
        memSizeSpec as + (k.length + valBytesLen none + 1 + memSizeSpec bs)
      have hvb : valBytesLen (none : Option Bytes) = 0 := rfl
      rw [hek] at hsize
      omega
    · rw [hents]
      intro x hx
      rcases List.mem_append.mp hx with h2 | h2
      · exact hwfe x (by rw [hsplit]; simp [h2])
      · rcases List.mem_cons.mp h2 with h3 | h3
        · subst h3
          exact ⟨hk, by show valBytesLen none < 4294967295; decide,
            fun hc => absurd hc (by simp)⟩
        · exact hwfe x (by rw [hsplit]; simp [h3])
    · rw [hents, hsplit]
      simp only [List.length_append, List.length_cons]
      omega
    · rw [hents, hsplit]
      rw [List.map_append, List.map_append, List.map_cons, List.map_cons,
        List.sum_append, List.sum_append, List.sum_cons, List.sum_cons]
      have h2 : memEntryWeight ⟨k, none, true⟩ = k.length + 9 := rfl
      have h3 : 0 ≤ memEntryWeight e := Nat.zero_le _
      omega
    · rw [hents]
      simp
    · rw [memtable_get_eq_find _ (hents ▸ hsorted2) k, hfindk]
      rfl
    · intro k2 hk2
      rw [memtable_get_eq_find _ (hents ▸ hsorted2) k2,
        memtable_get_eq_find m hs k2]
      rw [hents, hsplit]
      rw [find?_mid_ne (fun x => x.key == k2) as bs _ e
        (by show (k == k2) = false; exact beq_of_ne k k2 (fun h => hk2 h.symm))
        (by show (e.key == k2) = false; rw [hek];
            exact beq_of_ne k k2 (fun h => hk2 h.symm))]
  · have hsorted2 : StrictSortedMem (as ++ (⟨k, none, true⟩ : MemEntry) :: bs) :=
      sortedMem_insert as bs ⟨k, none, true⟩ (hsplit ▸ hs) hlo hhi
    have hents : (m.Delete k).entries = as ++ ⟨k, none, true⟩ :: bs := by
      rw [heq]
    have hfindk : (m.Delete k).entries.find? (fun x => x.key == k) =
        some ⟨k, none, true⟩ := by
      rw [hents]
      exact sorted_split_find MemEntry.key as bs ⟨k, none, true⟩ k hsorted2 rfl
    refine ⟨hents ▸ hsorted2, ?_, by rw [heq], ?_, ?_, ?_, ?_, ?_, ?_⟩
    · rw [heq]
      rw [hsplit] at hsize
      show m.size + k.length + 1 =
        memSizeSpec (as ++ ⟨k, none, true⟩ :: bs)
      rw [memSizeSpec_append] at hsize ⊢
      rw [memSizeSpec_cons]
      have hpk : (⟨k, none, true⟩ : MemEntry).key = k := rfl
      have hpv : (⟨k, none, true⟩ : MemEntry).value = none := rfl
      rw [hpk, hpv]
      have hvb : valBytesLen (none : Option Bytes) = 0 := rfl
      omega
    · rw [hents]
      intro x hx
      rcases List.mem_append.mp hx with h2 | h2
      · exact hwfe x (by rw [hsplit]; simp [h2])
      · rcases List.mem_cons.mp h2 with h3 | h3
        · subst h3
          exact ⟨hk, by show valBytesLen none < 4294967295; decide,
            fun hc => absurd hc (by simp)⟩
        · exact hwfe x (by rw [hsplit]; simp [h3])
    · rw [hents, hsplit]
      simp only [List.length_append, List.length_cons]
      omega
    · rw [hents, hsplit]
      rw [List.map_append, List.map_append, List.map_cons,
        List.sum_append, List.sum_append, List.sum_cons]
      have h2 : memEntryWeight ⟨k, none, true⟩ = k.length + 9 := rfl
      omega
    · rw [hents]
      simp
    · rw [memtable_get_eq_find _ (hents ▸ hsorted2) k, hfindk]
      rfl
    · intro k2 hk2
      rw [memtable_get_eq_find _ (hents ▸ hsorted2) k2,
        memtable_get_eq_find m hs k2]
      rw [hents, hsplit]
      rw [find?_insert_ne (fun x => x.key == k2) as bs _
        (by show (k == k2) = false; exact beq_of_ne k k2 (fun h => hk2 h.symm))]

/-! ### Flush-side conversions and engine bookkeeping -/

theorem memToSST_sorted (m : Memtable) (hs : StrictSortedMem m.entries) :
    StrictSorted (memToSSTEntries m) := by
  unfold StrictSorted memToSSTEntries
  rw [List.pairwise_map]
  exact hs

theorem memToSST_find (m : Memtable) (k : Bytes) :
    (memToSSTEntries m).find? (fun e => e.key == k) =
      (m.entries.find? (fun e => e.key == k)).map
        (fun e => ⟨e.key, e.value.getD [], e.tombstone⟩) := by
  unfold memToSSTEntries
  rw [List.find?_map]
  rw [show ((fun (e : SSTableEntry) => e.key == k) ∘
    (fun (e : MemEntry) =>
      (⟨e.key, e.value.getD [], e.tombstone⟩ : SSTableEntry))) =
    (fun (e : MemEntry) => e.key == k) from rfl]

theorem memToSST_entryFind (m : Memtable) (k : Bytes) :
    entryFind (memToSSTEntries m) k =
      (m.entries.find? (fun e => e.key == k)).map
        (fun e => (e.value.getD [], e.tombstone)) := by
  unfold entryFind
  rw [memToSST_find]
  cases m.entries.find? (fun e => e.key == k) <;> rfl

theorem memToSST_weight (m : Memtable) :
    sstWeight (memToSSTEntries m) = (m.entries.map memEntryWeight).sum := by
  unfold sstWeight memToSSTEntries
  rw [List.map_map]
  rw [show (sstEntryWeight ∘ (fun (e : MemEntry) =>
    (⟨e.key, e.value.getD [], e.tombstone⟩ : SSTableEntry))) =
    memEntryWeight from rfl]

theorem memToSST_length (m : Memtable) :
    (memToSSTEntries m).length = m.entries.length := by
  unfold memToSSTEntries
  rw [List.length_map]

theorem memToSST_bounds (m : Memtable) (hwfe : ∀ e ∈ m.entries, memEntryWF e) :
    ∀ x ∈ memToSSTEntries m,
      x.key.length < 4294967296 ∧ x.value.length < 4294967295 := by
  intro x hx
  unfold memToSSTEntries at hx
  obtain ⟨e, he, hfe⟩ := List.mem_map.mp hx
  obtain ⟨h1, h2, h3⟩ := hwfe e he
  rw [← hfe]
  exact ⟨h1, h2⟩

theorem nextSeqAfterLoad_ge (files : List DBFile) :
    ∀ s, s ≤ nextSeqAfterLoad files s := by
  induction files with
  | nil => intro s; exact le_refl s
  | cons f fs ih =>
    intro s
    show s ≤ nextSeqAfterLoad fs (if s ≤ f.seq then f.seq + 1 else s)
    have h2 := ih (if s ≤ f.seq then f.seq + 1 else s)
    by_cases hc : s ≤ f.seq
    · rw [if_pos hc] at h2 ⊢
      omega
    · rw [if_neg hc] at h2 ⊢
      omega

theorem nextSeqAfterLoad_gt (files : List DBFile) :
    ∀ s, ∀ f ∈ files, f.seq < nextSeqAfterLoad files s := by
  induction files with
  | nil => intro s f hf; cases hf
  | cons f0 fs ih =>
    intro s f hf
    rcases List.mem_cons.mp hf with h1 | h1
    · subst h1
      show f.seq < nextSeqAfterLoad fs (if s ≤ f.seq then f.seq + 1 else s)
      have h2 := nextSeqAfterLoad_ge fs (if s ≤ f.seq then f.seq + 1 else s)
      by_cases hc : s ≤ f.seq
      · rw [if_pos hc] at h2 ⊢
        omega
      · rw [if_neg hc] at h2 ⊢
        omega
    · exact ih _ f h1

theorem nextSeqAfterLoad_high (files : List DBFile) :
    ∀ s, (∀ f ∈ files, f.seq < s) → nextSeqAfterLoad files s = s := by
  induction files with
  | nil => intro s h; rfl
  | cons f0 fs ih =>
    intro s h
    show nextSeqAfterLoad fs (if s ≤ f0.seq then f0.seq + 1 else s) = s
    rw [if_neg (by have := h f0 (by simp); omega)]
    exact ih s (fun f hf => h f (by simp [hf]))

theorem sortBySeqDesc_id (files : List DBFile) (h : filesSortedDesc files) :
    sortBySeqDesc files = files := by
  unfold filesSortedDesc at h
  induction files with
  | nil => rfl
  | cons f fs ih =>
    obtain ⟨hhead, htail⟩ := List.pairwise_cons.mp h
    show insertDescBySeq f (sortBySeqDesc fs) = f :: fs
    rw [ih htail]
    cases fs with
    | nil => rfl
    | cons g t =>
      show (if g.seq < f.seq then f :: g :: t else g :: insertDescBySeq f t) =
        f :: g :: t
      rw [if_pos (hhead g (by simp))]

theorem mapM_pointwise {α γ : Type} (f : α → Option γ) (g : α → γ)
    (l : List α) (hpt : ∀ x ∈ l, f x = some (g x)) :
    l.mapM f = some (l.map g) := by
  induction l with
  | nil => rfl
  | cons a t ih =>
    rw [List.map_cons, List.mapM_cons, hpt a (by simp),
      ih (fun x hx => hpt x (by simp [hx]))]
    rfl

theorem walEncodeAll_append (ws : List WALEntry) (w : WALEntry) :
    walEncodeAll (ws ++ [w]) = walEncodeAll ws ++ encodeWALRecord w := by
  unfold walEncodeAll
  rw [List.map_append, List.flatten_append]
  simp

theorem specGet_append_put (ops : List DBOp) (k2 : Bytes) (v : Bytes) (k : Bytes) :
    specGet (ops ++ [DBOp.put k2 v]) k =
      if k2 = k then some v else specGet ops k := by
  unfold specGet
  rw [List.foldl_append]
  rfl

theorem specGet_append_del (ops : List DBOp) (k2 : Bytes) (k : Bytes) :
    specGet (ops ++ [DBOp.del k2]) k =
      if k2 = k then none else specGet ops k := by
  unfold specGet
  rw [List.foldl_append]
  rfl

theorem opsWeight_append (ops : List DBOp) (op : DBOp) :
    opsWeight (ops ++ [op]) = opsWeight ops + opWeight op := by
  unfold opsWeight
  rw [List.map_append, List.sum_append]
  rfl

theorem length_le_sumLen (t : List SSTableEntry) (tiers : List (List SSTableEntry))
    (ht : t ∈ tiers) : t.length ≤ sumLen tiers := by
  unfold sumLen
  exact List.le_sum_of_mem (List.mem_map_of_mem _ ht)

theorem sum_map_one (l : List SSTableEntry) :
    (l.map (fun _ => 1)).sum = l.length := by
  induction l with
  | nil => rfl
  | cons a t ih =>
    rw [List.map_cons, List.sum_cons, ih, List.length_cons]
    omega

theorem filter_sum_le (p : SSTableEntry → Bool) (g : SSTableEntry → Nat)
    (l : List SSTableEntry) :
    ((l.filter p).map g).sum ≤ (l.map g).sum := by
  induction l with
  | nil => rfl
  | cons a t ih =>
    rw [List.filter_cons]
    by_cases hp : p a
    · rw [if_pos hp, List.map_cons, List.map_cons, List.sum_cons, List.sum_cons]
      omega
    · rw [if_neg hp, List.map_cons, List.sum_cons]
      omega

theorem mapM_open_zip : ∀ (files : List DBFile) (tiers : List (List SSTableEntry)),
    files.length = tiers.length →
    (∀ p ∈ files.zip tiers, p.1.content = WriteSSTable p.2 ∧ sstWF p.2) →
    files.mapM (fun f => OpenSSTable f.content) = some (tiers.map readerOf) := by
  intro files
  induction files with
  | nil =>
    intro tiers hlen hzip
    cases tiers with
    | nil => rfl
    | cons t ts => cases hlen
  | cons f fs ih =>
    intro tiers hlen hzip
    cases tiers with
    | nil => cases hlen
    | cons t ts =>
      rw [List.mapM_cons]
      have h1 := hzip (f, t) (by rw [List.zip_cons_cons]; simp)
      obtain ⟨hcount, hbounds, hweight⟩ := h1.2
      rw [h1.1, OpenSSTable_WriteSSTable t hcount
        (fun e he => (hbounds e he).1) hweight]
      rw [ih ts (by simpa using hlen)
        (fun p hp => hzip p (by rw [List.zip_cons_cons]; simp [hp]))]
      rfl

theorem mapM_readAll (tiers : List (List SSTableEntry))
    (hwf : ∀ t ∈ tiers,
      ∀ x ∈ t, x.key.length < 4294967296 ∧ x.value.length < 4294967295) :
    ((tiers.map readerOf).mapM SSTableReader.ReadAll) = some tiers := by
  induction tiers with
  | nil => rfl
  | cons t ts ih =>
    rw [List.map_cons, List.mapM_cons, ReadAll_readerOf t (hwf t (by simp)),
      ih (fun t2 h2 => hwf t2 (by simp [h2]))]
    rfl

theorem viewGet_new (T : Nat) (tiers : List (List SSTableEntry)) (k : Bytes) :
    viewGet (NewMemtable T) tiers k =
      (match tiersFind tiers k with
        | some (v, tb) => if tb then none else some v
        | none => none) := by
  rw [viewGet]
  rw [show (NewMemtable T).Get k = (none, false) from
    memtable_get_absent _ k (by intro x hx; cases hx)]

theorem flush_view (m : Memtable) (tiers : List (List SSTableEntry)) (k : Bytes)
    (hsort : StrictSortedMem m.entries)
    (hwfe : ∀ e ∈ m.entries, memEntryWF e) :
    (match tiersFind (memToSSTEntries m :: tiers) k with
      | some (v, tb) => if tb then none else some v
      | none => none) = viewGet m tiers k := by
  rw [viewGet, memtable_get_eq_find m hsort k]
  rw [tiersFind, List.findSome?_cons]
  rw [show entryFind (memToSSTEntries m) k =
    (m.entries.find? (fun e => e.key == k)).map
      (fun e => (e.value.getD [], e.tombstone)) from memToSST_entryFind m k]
  cases hf : m.entries.find? (fun e => e.key == k) with
  | none => rfl
  | some e =>
    have hmem : e ∈ m.entries := List.mem_of_find?_eq_some hf
    obtain ⟨h1, h2, h3⟩ := hwfe e hmem
    show (if e.tombstone then none else some (e.value.getD [])) =
      (match (((if e.tombstone then none else e.value) : Option Bytes), true) with
        | (some v, true) => some v
        | (none, true) => none
        | (_, false) => (match tiersFind tiers k with
            | some (v, tb) => if tb then none else some v
            | none => none))
    cases ht : e.tombstone with
    | true => rfl
    | false =>
      obtain ⟨v, hv⟩ := h3 ht
      rw [hv]
      rfl

theorem compact_view (tiers2 : List (List SSTableEntry)) (k : Bytes)
    (hs : ∀ t ∈ tiers2, StrictSorted t) :
    (match tiersFind [compactEntries tiers2] k with
      | some (v, tb) => if tb then none else some v
      | none => none) =
    (match tiersFind tiers2 k with
      | some (v, tb) => if tb then none else some v
      | none => none) := by
  have h1 : tiersFind [compactEntries tiers2] k = entryFind (compactEntries tiers2) k := by
    rw [tiersFind, List.findSome?_cons]
    cases entryFind (compactEntries tiers2) k <;> rfl
  rw [h1]
  rw [tiersFind_eq_findNewest]
  have h2 : entryFind (compactEntries tiers2) k =
      (((findNewest tiers2 k).toList.filter (fun e => !e.tombstone)).head?).map
        (fun e => (e.value, e.tombstone)) := by
    rw [entryFind, find?_eq_head?_filter, compactEntries_filter tiers2 hs k]
  rw [h2]
  cases hfn : findNewest tiers2 k with
  | none => rfl
  | some e =>
    cases ht : e.tombstone with
    | true =>
      rw [show (some e).toList = [e] from rfl]
      rw [show List.filter (fun e => !e.tombstone) [e] = [] from by
        rw [List.filter_cons, ht]
        rfl]
      show (none : Option Bytes) = if e.tombstone then none else some e.value
      rw [ht]
      rfl
    | false =>
      rw [show (some e).toList = [e] from rfl]
      rw [show List.filter (fun e => !e.tombstone) [e] = [e] from by
        rw [List.filter_cons, ht]
        rfl]
      show (if e.tombstone then none else some e.value) =
        if e.tombstone then none else some e.value
      rfl

theorem mem_zip_right {α β : Type} :
    ∀ (l1 : List α) (l2 : List β), l1.length = l2.length →
      ∀ b ∈ l2, ∃ a, (a, b) ∈ l1.zip l2 := by
  intro l1
  induction l1 with
  | nil =>
    intro l2 hlen b hb
    cases l2 with
    | nil => cases hb
    | cons x xs => cases hlen
  | cons a t ih =>
    intro l2 hlen b hb
    cases l2 with
    | nil => cases hb
    | cons x xs =>
      rcases List.mem_cons.mp hb with h1 | h1
      · subst h1
        exact ⟨a, by rw [List.zip_cons_cons]; simp⟩
      · obtain ⟨a2, ha2⟩ := ih xs (by simpa using hlen) b h1
        exact ⟨a2, by rw [List.zip_cons_cons]; simp [ha2]⟩

theorem flush_inv (st : DBState) (tiers : List (List SSTableEntry))
    (hmemsort : StrictSortedMem st.mem.entries)
    (hmemwf : ∀ e ∈ st.mem.entries, memEntryWF e)
    (hfiles : filesSortedDesc st.files)
    (hseq : st.nextSeq = nextSeqAfterLoad st.files 1)
    (hlen : st.files.length = tiers.length)
    (hzip : ∀ p ∈ st.files.zip tiers,
      p.1.content = WriteSSTable p.2 ∧ sstWF p.2 ∧ StrictSorted p.2)
    (hsst : st.sstables = tiers.map readerOf)
    (hcount : st.mem.entries.length + sumLen tiers ≤ 400000000)
    (hweight : (st.mem.entries.map memEntryWeight).sum + tiersWeight tiers <
      1152921504606846976) :
    ∃ st' tiers', flush st = some st' ∧
      st'.mem = NewMemtable DefaultMemtableSize ∧
      st'.walBytes = [] ∧
      filesSortedDesc st'.files ∧
      st'.nextSeq = nextSeqAfterLoad st'.files 1 ∧
      st'.files.length = tiers'.length ∧
      (∀ p ∈ st'.files.zip tiers',
        p.1.content = WriteSSTable p.2 ∧ sstWF p.2 ∧ StrictSorted p.2) ∧
      st'.sstables = tiers'.map readerOf ∧
      sumLen tiers' ≤ st.mem.entries.length + sumLen tiers ∧
      tiersWeight tiers' ≤
        (st.mem.entries.map memEntryWeight).sum + tiersWeight tiers ∧
      (∀ k, viewGet st'.mem tiers' k = viewGet st.mem tiers k) := by
  have htiersWF : ∀ t ∈ tiers, sstWF t ∧ StrictSorted t := by
    intro t ht
    obtain ⟨f, hf⟩ := mem_zip_right st.files tiers hlen t ht
    exact ⟨(hzip (f, t) hf).2.1, (hzip (f, t) hf).2.2⟩
  have hTlen : (memToSSTEntries st.mem).length = st.mem.entries.length :=
    memToSST_length st.mem
  have hTsorted : StrictSorted (memToSSTEntries st.mem) :=
    memToSST_sorted st.mem hmemsort
  have hTbounds := memToSST_bounds st.mem hmemwf
  have hTweight : sstWeight (memToSSTEntries st.mem) =
      (st.mem.entries.map memEntryWeight).sum := memToSST_weight st.mem
  have hsumnn : 0 ≤ sumLen tiers := Nat.zero_le _
  have hTwf : sstWF (memToSSTEntries st.mem) := by
    refine ⟨by omega, hTbounds, by omega⟩
  have hopen : OpenSSTable (WriteSSTable (memToSSTEntries st.mem)) =
      some (readerOf (memToSSTEntries st.mem)) :=
    OpenSSTable_WriteSSTable _ (by omega)
      (fun e he => (hTbounds e he).1) (by omega)
  have hflush : flush st = maybeCompact { st with
      files := ⟨0, st.nextSeq, WriteSSTable (memToSSTEntries st.mem)⟩ :: st.files,
      sstables := readerOf (memToSSTEntries st.mem) :: st.sstables,
      nextSeq := st.nextSeq + 1,
      mem := NewMemtable DefaultMemtableSize,
      walBytes := [] } := by
    unfold flush
    simp only [hopen]
  have hge1 : 1 ≤ st.nextSeq := by
    rw [hseq]
    exact nextSeqAfterLoad_ge st.files 1
  have hgtall : ∀ f ∈ st.files, f.seq < st.nextSeq := by
    intro f hf
    rw [hseq]
    exact nextSeqAfterLoad_gt st.files 1 f hf
  have hfiles3 : filesSortedDesc
      (⟨0, st.nextSeq, WriteSSTable (memToSSTEntries st.mem)⟩ :: st.files) := by
    unfold filesSortedDesc at *
    exact List.Pairwise.cons (fun g hg => hgtall g hg) hfiles
  have hseq3 : st.nextSeq + 1 = nextSeqAfterLoad
      (⟨0, st.nextSeq, WriteSSTable (memToSSTEntries st.mem)⟩ :: st.files) 1 := by
    show st.nextSeq + 1 =
      nextSeqAfterLoad st.files (if 1 ≤ st.nextSeq then st.nextSeq + 1 else 1)
    rw [if_pos hge1]
    rw [nextSeqAfterLoad_high st.files (st.nextSeq + 1)
      (fun f hf => by have := hgtall f hf; omega)]
  have hz3 : ∀ p ∈ (⟨0, st.nextSeq, WriteSSTable (memToSSTEntries st.mem)⟩ ::
      st.files).zip (memToSSTEntries st.mem :: tiers),
      p.1.content = WriteSSTable p.2 ∧ sstWF p.2 ∧ StrictSorted p.2 := by
    intro p hp
    rw [List.zip_cons_cons] at hp
    rcases List.mem_cons.mp hp with h1 | h1
    · subst h1
      exact ⟨rfl, hTwf, hTsorted⟩
    · exact hzip p h1
  have htiersWF3 : ∀ t ∈ memToSSTEntries st.mem :: tiers,
      sstWF t ∧ StrictSorted t := by
    intro t ht
    rcases List.mem_cons.mp ht with h1 | h1
    · subst h1
      exact ⟨hTwf, hTsorted⟩
    · exact htiersWF t h1
  have hsum3 : sumLen (memToSSTEntries st.mem :: tiers) =
      st.mem.entries.length + sumLen tiers := by
    unfold sumLen
    rw [List.map_cons, List.sum_cons, hTlen]
  have hwt3 : tiersWeight (memToSSTEntries st.mem :: tiers) =
      (st.mem.entries.map memEntryWeight).sum + tiersWeight tiers := by
    unfold tiersWeight
    rw [List.map_cons, List.sum_cons, hTweight]
  rw [hflush]
  by_cases hc : level0Count (⟨0, st.nextSeq,
      WriteSSTable (memToSSTEntries st.mem)⟩ :: st.files) < CompactionThreshold
  · refine ⟨{ st with
      files := ⟨0, st.nextSeq, WriteSSTable (memToSSTEntries st.mem)⟩ :: st.files,
      sstables := readerOf (memToSSTEntries st.mem) :: st.sstables,
      nextSeq := st.nextSeq + 1,
      mem := NewMemtable DefaultMemtableSize,
      walBytes := [] }, memToSSTEntries st.mem :: tiers, ?_, rfl, rfl, hfiles3,
      ?_, ?_, hz3, ?_, by omega, by omega, ?_⟩
    · unfold maybeCompact
      rw [if_pos hc]
    · show st.nextSeq + 1 = nextSeqAfterLoad
        (⟨0, st.nextSeq, WriteSSTable (memToSSTEntries st.mem)⟩ :: st.files) 1
      exact hseq3
    · show st.files.length + 1 = tiers.length + 1
      omega
    · show readerOf (memToSSTEntries st.mem) :: st.sstables =
        (memToSSTEntries st.mem :: tiers).map readerOf
      rw [List.map_cons, hsst]
    · intro k
      show viewGet (NewMemtable DefaultMemtableSize)
        (memToSSTEntries st.mem :: tiers) k = viewGet st.mem tiers k
      rw [viewGet_new]
      exact flush_view st.mem tiers k hmemsort hmemwf
  · have hmapM : (⟨0, st.nextSeq, WriteSSTable (memToSSTEntries st.mem)⟩ ::
        st.files).mapM (fun f => OpenSSTable f.content) =
        some ((memToSSTEntries st.mem :: tiers).map readerOf) := by
      refine mapM_open_zip _ _ ?_ (fun p hp => ⟨(hz3 p hp).1, (hz3 p hp).2.1⟩)
      show st.files.length + 1 = tiers.length + 1
      omega
    have hreadAll : ((memToSSTEntries st.mem :: tiers).map readerOf).mapM
        SSTableReader.ReadAll = some (memToSSTEntries st.mem :: tiers) :=
      mapM_readAll _ (fun t ht => (htiersWF3 t ht).1.2.1)
    have hctlen : (compactEntries (memToSSTEntries st.mem :: tiers)).length ≤
        st.mem.entries.length + sumLen tiers := by
      have h1 : (compactEntries (memToSSTEntries st.mem :: tiers)).length ≤
          (kWayMerge (memToSSTEntries st.mem :: tiers)).length :=
        List.length_filter_le _ _
      have h2 := kWayMerge_measure (memToSSTEntries st.mem :: tiers)
        (fun t ht => (htiersWF3 t ht).2) (fun _ => 1)
      rw [sum_map_one] at h2
      have h3 : ((memToSSTEntries st.mem :: tiers).map
          (fun s => (s.map (fun _ => 1)).sum)).sum =
          sumLen (memToSSTEntries st.mem :: tiers) := by
        unfold sumLen
        congr 1
        exact List.map_congr_left (fun s _ => sum_map_one s)
      rw [h3, hsum3] at h2
      omega
    have hctwt : sstWeight (compactEntries (memToSSTEntries st.mem :: tiers)) ≤
        (st.mem.entries.map memEntryWeight).sum + tiersWeight tiers := by
      have h1 : sstWeight (compactEntries (memToSSTEntries st.mem :: tiers)) ≤
          sstWeight (kWayMerge (memToSSTEntries st.mem :: tiers)) :=
        filter_sum_le _ _ _
      have h2 := kWayMerge_measure (memToSSTEntries st.mem :: tiers)
        (fun t ht => (htiersWF3 t ht).2) sstEntryWeight
      have h3 : ((memToSSTEntries st.mem :: tiers).map
          (fun s => (s.map sstEntryWeight).sum)).sum =
          tiersWeight (memToSSTEntries st.mem :: tiers) := rfl
      rw [h3, hwt3] at h2
      exact le_trans h1 (le_trans h2 (le_refl _))
    have hctbounds : ∀ e ∈ compactEntries (memToSSTEntries st.mem :: tiers),
        e.key.length < 4294967296 ∧ e.value.length < 4294967295 := by
      intro e he
      have h1 : e ∈ kWayMerge (memToSSTEntries st.mem :: tiers) :=
        List.mem_of_mem_filter he
      obtain ⟨t, ht, het⟩ := kWayMerge_mem _
        (fun t ht => (htiersWF3 t ht).2) e h1
      exact (htiersWF3 t ht).1.2.1 e het
    have hctsorted : StrictSorted (compactEntries (memToSSTEntries st.mem :: tiers)) :=
      compactEntries_sorted _ (fun t ht => (htiersWF3 t ht).2)
    have hctwf : sstWF (compactEntries (memToSSTEntries st.mem :: tiers)) :=
      ⟨by omega, hctbounds, by omega⟩
    have hopen2 : OpenSSTable (WriteSSTable
        (compactEntries (memToSSTEntries st.mem :: tiers))) =
        some (readerOf (compactEntries (memToSSTEntries st.mem :: tiers))) :=
      OpenSSTable_WriteSSTable _ (by omega)
        (fun e he => (hctbounds e he).1) (by omega)
    have hopenAll2 : openAll [⟨1, st.nextSeq + 1, WriteSSTable
        (compactEntries (memToSSTEntries st.mem :: tiers))⟩] =
        some [readerOf (compactEntries (memToSSTEntries st.mem :: tiers))] := by
      unfold openAll
      rw [show sortBySeqDesc [(⟨1, st.nextSeq + 1, WriteSSTable
        (compactEntries (memToSSTEntries st.mem :: tiers))⟩ : DBFile)] =
        [⟨1, st.nextSeq + 1, WriteSSTable
          (compactEntries (memToSSTEntries st.mem :: tiers))⟩] from rfl]
      rw [List.mapM_cons]
      simp only [hopen2]
      rfl
    refine ⟨{ st with
      files := [⟨1, st.nextSeq + 1, WriteSSTable
        (compactEntries (memToSSTEntries st.mem :: tiers))⟩],
      sstables := [readerOf (compactEntries (memToSSTEntries st.mem :: tiers))],
      nextSeq := nextSeqAfterLoad [⟨1, st.nextSeq + 1, WriteSSTable
        (compactEntries (memToSSTEntries st.mem :: tiers))⟩] (st.nextSeq + 1 + 1),
      mem := NewMemtable DefaultMemtableSize,
      walBytes := [] }, [compactEntries (memToSSTEntries st.mem :: tiers)],
      ?_, rfl, rfl, ?_, ?_, ?_, ?_, ?_, ?_, ?_, ?_⟩
    · unfold maybeCompact
      rw [if_neg hc]
      rw [sortBySeqDesc_id _ hfiles3]
      simp only [hmapM]
      unfold Compact
      simp only [hreadAll]
      simp only [hopenAll2]
    · show filesSortedDesc [⟨1, st.nextSeq + 1, WriteSSTable
        (compactEntries (memToSSTEntries st.mem :: tiers))⟩]
      unfold filesSortedDesc
      exact List.pairwise_singleton _ _
    · show nextSeqAfterLoad [⟨1, st.nextSeq + 1, WriteSSTable
        (compactEntries (memToSSTEntries st.mem :: tiers))⟩] (st.nextSeq + 1 + 1) =
        nextSeqAfterLoad [⟨1, st.nextSeq + 1, WriteSSTable
          (compactEntries (memToSSTEntries st.mem :: tiers))⟩] 1
      show nextSeqAfterLoad []
        (if st.nextSeq + 1 + 1 ≤ st.nextSeq + 1 then st.nextSeq + 1 + 1 + 0
          else st.nextSeq + 1 + 1) =
        nextSeqAfterLoad [] (if 1 ≤ st.nextSeq + 1 then st.nextSeq + 1 + 1 else 1)
      rw [if_neg (by omega), if_pos (by omega)]
    · rfl
    · intro p hp
      rw [show ([⟨1, st.nextSeq + 1, WriteSSTable
          (compactEntries (memToSSTEntries st.mem :: tiers))⟩] : List DBFile).zip
          [compactEntries (memToSSTEntries st.mem :: tiers)] =
          [(⟨1, st.nextSeq + 1, WriteSSTable
            (compactEntries (memToSSTEntries st.mem :: tiers))⟩,
            compactEntries (memToSSTEntries st.mem :: tiers))] from rfl] at hp
      rcases List.mem_singleton.mp hp with h1
      subst h1
      exact ⟨rfl, hctwf, hctsorted⟩
    · rfl
    · show sumLen [compactEntries (memToSSTEntries st.mem :: tiers)] ≤
        st.mem.entries.length + sumLen tiers
      have h9 : sumLen [compactEntries (memToSSTEntries st.mem :: tiers)] =
          (compactEntries (memToSSTEntries st.mem :: tiers)).length := by
        unfold sumLen
        rw [List.map_cons, List.map_nil, List.sum_cons, List.sum_nil]
        omega
      rw [h9]
      exact hctlen
    · show tiersWeight [compactEntries (memToSSTEntries st.mem :: tiers)] ≤
        (st.mem.entries.map memEntryWeight).sum + tiersWeight tiers
      have h9 : tiersWeight [compactEntries (memToSSTEntries st.mem :: tiers)] =
          sstWeight (compactEntries (memToSSTEntries st.mem :: tiers)) := by
        unfold tiersWeight
        rw [List.map_cons, List.map_nil, List.sum_cons, List.sum_nil]
        omega
      rw [h9]
      exact hctwt
    · intro k
      show viewGet (NewMemtable DefaultMemtableSize)
        [compactEntries (memToSSTEntries st.mem :: tiers)] k =
        viewGet st.mem tiers k
      rw [viewGet_new]
      rw [compact_view _ k (fun t ht => (htiersWF3 t ht).2)]
      exact flush_view st.mem tiers k hmemsort hmemwf

theorem db_put_def (st : DBState) (k v : Bytes) : DB.Put st k v =
    if (st.mem.Put k v).IsFull then
      flush { st with
        walBytes := st.walBytes ++ encodeWALRecord ⟨1, k, v⟩,
        mem := st.mem.Put k v }
    else some { st with
      walBytes := st.walBytes ++ encodeWALRecord ⟨1, k, v⟩,
      mem := st.mem.Put k v } := rfl

theorem db_del_def (st : DBState) (k : Bytes) : DB.Delete st k =
    if (st.mem.Delete k).IsFull then
      flush { st with
        walBytes := st.walBytes ++ encodeWALRecord ⟨2, k, []⟩,
        mem := st.mem.Delete k }
    else some { st with
      walBytes := st.walBytes ++ encodeWALRecord ⟨2, k, []⟩,
      mem := st.mem.Delete k } := rfl

theorem inv_step_generic (ops : List DBOp) (op : DBOp) (st : DBState)
    (wops : List WALEntry) (tiers : List (List SSTableEntry))
    (w : WALEntry) (m2 : Memtable)
    (h1 : st.walBytes = walEncodeAll wops)
    (h2 : ∀ x ∈ wops, walWF x)
    (h8 : filesSortedDesc st.files)
    (h9 : st.nextSeq = nextSeqAfterLoad st.files 1)
    (h10 : st.files.length = tiers.length)
    (h11 : ∀ p ∈ st.files.zip tiers,
      p.1.content = WriteSSTable p.2 ∧ sstWF p.2 ∧ StrictSorted p.2)
    (h12 : st.sstables = tiers.map readerOf)
    (h13 : st.mem.entries.length + sumLen tiers ≤ ops.length)
    (h14 : memWeight st.mem + tiersWeight tiers ≤ opsWeight ops)
    (hwop : w.op < 256)
    (hm2 : m2 = applyWALToMem st.mem w)
    (hm2sorted : StrictSortedMem m2.entries)
    (hm2size : m2.size = memSizeSpec m2.entries)
    (hm2thresh : m2.threshold = DefaultMemtableSize)
    (hm2wf : ∀ e ∈ m2.entries, memEntryWF e)
    (hm2len : m2.entries.length ≤ st.mem.entries.length + 1)
    (hm2wt : (m2.entries.map memEntryWeight).sum ≤
      memWeight st.mem + opWeight op)
    (hm2entry : w.key.length + w.value.length + 1 ≤ memSizeSpec m2.entries)
    (hview2 : ∀ k2, viewGet m2 tiers k2 = specGet (ops ++ [op]) k2)
    (hcount2 : ops.length + 1 ≤ 268435456)
    (hweight2 : opsWeight ops + opWeight op < 1152921504606846976)
    (hmemfold : st.mem =
      wops.foldl applyWALToMem (NewMemtable DefaultMemtableSize)) :
    ∃ st', (if m2.IsFull then
        flush { st with walBytes := st.walBytes ++ encodeWALRecord w, mem := m2 }
      else
        some { st with
          walBytes := st.walBytes ++ encodeWALRecord w, mem := m2 }) = some st' ∧
      Inv (ops ++ [op]) st' := by
  have hlen2 : (ops ++ [op]).length = ops.length + 1 := by simp
  have hwt2 : opsWeight (ops ++ [op]) = opsWeight ops + opWeight op :=
    opsWeight_append ops op
  have hwal2 : st.walBytes ++ encodeWALRecord w = walEncodeAll (wops ++ [w]) := by
    rw [walEncodeAll_append, h1]
  have hfold2 : m2 = (wops ++ [w]).foldl applyWALToMem
      (NewMemtable DefaultMemtableSize) := by
    rw [List.foldl_append, ← hmemfold, hm2]
    rfl
  cases hfull : m2.IsFull with
  | false =>
    rw [if_neg (by simp)]
    have hsmall : m2.size < DefaultMemtableSize := by
      by_contra hcon
      have hfull2 : m2.IsFull = true := by
        unfold Memtable.IsFull
        rw [hm2thresh]
        exact decide_eq_true (by omega)
      rw [hfull2] at hfull
      cases hfull
    have hwWF : walWF w := by
      refine ⟨hwop, ?_⟩
      rw [← hm2size] at hm2entry
      unfold DefaultMemtableSize at hsmall ⊢
      omega
    refine ⟨_, rfl, wops ++ [w], tiers, hwal2, ?_, hfold2, hm2sorted, hm2size,
      hm2thresh, hm2wf, h8, h9, h10, h11, h12, ?_, ?_, ?_⟩
    · intro x hx
      rcases List.mem_append.mp hx with hx2 | hx2
      · exact h2 x hx2
      · rcases List.mem_singleton.mp hx2 with rfl
        exact hwWF
    · show m2.entries.length + sumLen tiers ≤ (ops ++ [op]).length
      rw [hlen2]
      omega
    · show (m2.entries.map memEntryWeight).sum + tiersWeight tiers ≤
        opsWeight (ops ++ [op])
      rw [hwt2]
      omega
    · exact hview2
  | true =>
    rw [if_pos rfl]
    obtain ⟨st', tiers', hfl, hmem', hwal', hfsort', hseq', hflen', hzip', hsst',
      hsum', hwt', hview'⟩ :=
      flush_inv { st with walBytes := st.walBytes ++ encodeWALRecord w, mem := m2 }
        tiers hm2sorted hm2wf h8 h9 h10 h11 h12
        (by
          show m2.entries.length + sumLen tiers ≤ 400000000
          omega)
        (by
          show (m2.entries.map memEntryWeight).sum + tiersWeight tiers <
            1152921504606846976
          omega)
    rw [show ({ st with
      walBytes := st.walBytes ++ encodeWALRecord w,
      mem := m2 } : DBState).mem = m2 from rfl] at hsum' hwt' hview'
    refine ⟨st', hfl, [], tiers', (by rw [hwal']; rfl),
      (by intro x hx; cases hx),
      (by rw [hmem']; rfl), ?_, ?_, ?_, ?_, hfsort', hseq', hflen', hzip', hsst',
      ?_, ?_, ?_⟩
    · rw [hmem']
      exact List.Pairwise.nil
    · rw [hmem']
      rfl
    · rw [hmem']
      rfl
    · rw [hmem']
      intro e he
      cases he
    · rw [hmem']
      show 0 + sumLen tiers' ≤ (ops ++ [op]).length
      rw [hlen2]
      omega
    · rw [hmem']
      show 0 + tiersWeight tiers' ≤ opsWeight (ops ++ [op])
      rw [hwt2]
      omega
    · intro k2
      rw [hview' k2]
      show viewGet m2 tiers k2 = specGet (ops ++ [op]) k2
      exact hview2 k2

theorem opsWeight_cons (op : DBOp) (ops : List DBOp) :
    opsWeight (op :: ops) = opWeight op + opsWeight ops := by
  unfold opsWeight
  rw [List.map_cons, List.sum_cons]

theorem inv_step (ops : List DBOp) (st : DBState) (op : DBOp)
    (hInv : Inv ops st) (hop : wfOp op)
    (hcount : ops.length + 1 ≤ 268435456)
    (hweight : opsWeight ops + opWeight op < 1152921504606846976) :
    ∃ st', applyOp st op = some st' ∧ Inv (ops ++ [op]) st' := by
  obtain ⟨wops, tiers, h1, h2, h3, h4, h5, h6, h7, h8, h9, h10, h11, h12, h13,
    h14, h15⟩ := hInv
  cases op with
  | put k v =>
    obtain ⟨hk, hv⟩ := hop
    obtain ⟨e1, e2, e3, e4, e5, e6, e7, e8, e9⟩ :=
      memtable_put_effect st.mem k v h4 h5 h7 hk hv
    have hview2 : ∀ k2, viewGet (st.mem.Put k v) tiers k2 =
        specGet (ops ++ [DBOp.put k v]) k2 := by
      intro k2
      rw [specGet_append_put]
      by_cases hk2 : k = k2
      · subst hk2
        rw [if_pos rfl]
        rw [viewGet, e8]
      · rw [if_neg hk2]
        rw [← h15 k2]
        rw [viewGet, viewGet, e9 k2 (fun hc => hk2 hc.symm)]
    show ∃ st', DB.Put st k v = some st' ∧ Inv (ops ++ [DBOp.put k v]) st'
    rw [db_put_def]
    refine inv_step_generic ops (DBOp.put k v) st wops tiers ⟨1, k, v⟩
      (st.mem.Put k v) h1 h2 h8 h9 h10 h11 h12 h13 h14
      (by show (1 : Nat) < 256; omega) rfl
      e1 e2 (by rw [e3, h6]) e4 e5 ?_ ?_ hview2 hcount
      (by show opsWeight ops + opWeight (DBOp.put k v) < 1152921504606846976
          exact hweight) h3
    · show ((st.mem.Put k v).entries.map memEntryWeight).sum ≤
        memWeight st.mem + (k.length + v.length + 32)
      have h16 := e6
      unfold memWeight
      omega
    · show k.length + v.length + 1 ≤ memSizeSpec (st.mem.Put k v).entries
      have h17 := term_le_memSizeSpec ⟨k, some v, false⟩ _ e7
      simpa using h17
  | del k =>
    have hk : k.length < 4294967296 := hop
    obtain ⟨e1, e2, e3, e4, e5, e6, e7, e8, e9⟩ :=
      memtable_delete_effect st.mem k h4 h5 h7 hk
    have hview2 : ∀ k2, viewGet (st.mem.Delete k) tiers k2 =
        specGet (ops ++ [DBOp.del k]) k2 := by
      intro k2
      rw [specGet_append_del]
      by_cases hk2 : k = k2
      · subst hk2
        rw [if_pos rfl]
        rw [viewGet, e8]
      · rw [if_neg hk2]
        rw [← h15 k2]
        rw [viewGet, viewGet, e9 k2 (fun hc => hk2 hc.symm)]
    show ∃ st', DB.Delete st k = some st' ∧ Inv (ops ++ [DBOp.del k]) st'
    rw [db_del_def]
    refine inv_step_generic ops (DBOp.del k) st wops tiers ⟨2, k, []⟩
      (st.mem.Delete k) h1 h2 h8 h9 h10 h11 h12 h13 h14
      (by show (2 : Nat) < 256; omega) rfl
      e1 e2 (by rw [e3, h6]) e4 e5 ?_ ?_ hview2 hcount
      (by show opsWeight ops + opWeight (DBOp.del k) < 1152921504606846976
          exact hweight) h3
    · show ((st.mem.Delete k).entries.map memEntryWeight).sum ≤
        memWeight st.mem + (k.length + 32)
      have h16 := e6
      unfold memWeight
      omega
    · show k.length + ([] : Bytes).length + 1 ≤
        memSizeSpec (st.mem.Delete k).entries
      have h17 := term_le_memSizeSpec ⟨k, none, true⟩ _ e7
      simpa using h17

theorem open_empty : Open [] [] =
    some ⟨NewMemtable DefaultMemtableSize, [], [], [], 1⟩ := by
  unfold Open
  rw [show openAll ([] : List DBFile) = some [] from rfl]
  rw [show Replay ([] : Bytes) = some [] from wReplay_nil]
  rfl

theorem inv_empty : Inv [] ⟨NewMemtable DefaultMemtableSize, [], [], [], 1⟩ := by
  refine ⟨[], [], rfl, (by intro x hx; cases hx), rfl, List.Pairwise.nil, rfl,
    rfl, (by intro e he; cases he), List.Pairwise.nil, rfl, rfl,
    (by intro p hp; cases hp), rfl, (by show 0 + 0 ≤ 0; omega),
    (by show 0 + 0 ≤ 0; omega), ?_⟩
  intro k
  rw [viewGet_new]
  rfl

theorem runOps_inv_aux : ∀ (ops1 : List DBOp) (ops0 : List DBOp) (st : DBState),
    Inv ops0 st →
    (∀ op ∈ ops1, wfOp op) →
    ops0.length + ops1.length ≤ 268435456 →
    opsWeight ops0 + opsWeight ops1 < 1152921504606846976 →
    ∃ st', ops1.foldlM applyOp st = some st' ∧ Inv (ops0 ++ ops1) st' := by
  intro ops1
  induction ops1 with
  | nil =>
    intro ops0 st hInv hwf hc hw
    exact ⟨st, rfl, by rw [List.append_nil]; exact hInv⟩
  | cons op rest ih =>
    intro ops0 st hInv hwf hc hw
    have hwcons := opsWeight_cons op rest
    obtain ⟨st1, hst1, hInv1⟩ := inv_step ops0 st op hInv (hwf op (by simp))
      (by simp at hc; omega)
      (by have hr : 0 ≤ opsWeight rest := Nat.zero_le _; omega)
    obtain ⟨st', hst', hInv'⟩ := ih (ops0 ++ [op]) st1 hInv1
      (fun x hx => hwf x (by simp [hx]))
      (by simp at hc ⊢; omega)
      (by rw [opsWeight_append]; omega)
    refine ⟨st', ?_, by rw [List.append_assoc] at hInv'; simpa using hInv'⟩
    rw [List.foldlM_cons, hst1]
    exact hst'

theorem runOps_inv (ops : List DBOp) (hwf : wfOps ops) :
    ∃ st, runOps ops = some st ∧ Inv ops st := by
  obtain ⟨hc, hops, hw⟩ := hwf
  obtain ⟨st, hst, hInv⟩ := runOps_inv_aux ops []
    ⟨NewMemtable DefaultMemtableSize, [], [], [], 1⟩ inv_empty hops
    (by simp; omega)
    (by show opsWeight [] + opsWeight ops < 1152921504606846976
        have h0 : opsWeight [] = 0 := rfl
        omega)
  refine ⟨st, ?_, by simpa using hInv⟩
  unfold runOps
  rw [open_empty]
  exact hst

theorem tiers_wf_of_zip (files : List DBFile) (tiers : List (List SSTableEntry))
    (hlen : files.length = tiers.length)
    (hzip : ∀ p ∈ files.zip tiers,
      p.1.content = WriteSSTable p.2 ∧ sstWF p.2 ∧ StrictSorted p.2) :
    ∀ t ∈ tiers, StrictSorted t ∧
      (∀ x ∈ t, x.key.length < 4294967296 ∧ x.value.length < 4294967295) := by
  intro t ht
  obtain ⟨f, hf⟩ := mem_zip_right files tiers hlen t ht
  exact ⟨(hzip _ hf).2.2, (hzip _ hf).2.1.2.1⟩

theorem dbGet_of_inv (ops : List DBOp) (st : DBState) (hInv : Inv ops st) :
    ∀ k, DB.Get st k = some (specGet ops k) := by
  obtain ⟨wops, tiers, h1, h2, h3, h4, h5, h6, h7, h8, h9, h10, h11, h12, h13,
    h14, h15⟩ := hInv
  intro k
  rw [dbGet_view st tiers h12 (tiers_wf_of_zip st.files tiers h10 h11) k, h15 k]

theorem open_of_inv (ops : List DBOp) (st : DBState) (hInv : Inv ops st) :
    ∃ st2, Open st.files st.walBytes = some st2 ∧
      ∀ k, DB.Get st2 k = some (specGet ops k) := by
  obtain ⟨wops, tiers, h1, h2, h3, h4, h5, h6, h7, h8, h9, h10, h11, h12, h13,
    h14, h15⟩ := hInv
  have hopenAll : openAll st.files = some (tiers.map readerOf) := by
    unfold openAll
    rw [sortBySeqDesc_id st.files h8]
    exact mapM_open_zip st.files tiers h10
      (fun p hp => ⟨(h11 p hp).1, (h11 p hp).2.1⟩)
  have hreplay : Replay st.walBytes = some wops := by
    rw [h1]
    refine Replay_roundtrip wops ?_
    intro e he
    obtain ⟨hop, hsz⟩ := h2 e he
    refine ⟨hop, ?_⟩
    unfold DefaultMemtableSize at hsz
    omega
  refine ⟨⟨wops.foldl applyWALToMem (NewMemtable DefaultMemtableSize),
    tiers.map readerOf, st.files, st.walBytes, nextSeqAfterLoad st.files 1⟩,
    ?_, ?_⟩
  · unfold Open
    rw [hopenAll, hreplay]
  · intro k
    rw [dbGet_view _ tiers rfl (tiers_wf_of_zip st.files tiers h10 h11) k]
    rw [show (⟨wops.foldl applyWALToMem (NewMemtable DefaultMemtableSize),
      tiers.map readerOf, st.files, st.walBytes,
      nextSeqAfterLoad st.files 1⟩ : DBState).mem =
      wops.foldl applyWALToMem (NewMemtable DefaultMemtableSize) from rfl]
    rw [← h3, h15 k]

/-! ### A value of length `2^32 - 1`: acknowledged write, panicking read -/

theorem hugeMem_put :
    (NewMemtable DefaultMemtableSize).Put [107] (List.replicate 4294967295 0) =
      ⟨[⟨[107], some (List.replicate 4294967295 0), false⟩], 4294967297,
        DefaultMemtableSize⟩ := by
  obtain ⟨as, bs, hsplit, hlo, hhi, heq⟩ :=
    memtable_put_absent (NewMemtable DefaultMemtableSize) [107]
      (List.replicate 4294967295 0) List.Pairwise.nil
      (by intro x hx; cases hx)
  have hsplit2 : ([] : List MemEntry) = as ++ bs := hsplit
  obtain ⟨has, hbs⟩ := List.append_eq_nil.mp hsplit2.symm
  subst has
  subst hbs
  have hsz : (NewMemtable DefaultMemtableSize).size + List.length [107] +
      (List.replicate 4294967295 (0 : Nat)).length + 1 = 4294967297 := by
    rw [List.length_replicate, List.length_singleton]
    show 0 + 1 + 4294967295 + 1 = 4294967297
    omega
  have hrec : ∀ s : Nat, s = 4294967297 →
      (⟨[] ++ (⟨[107], some (List.replicate 4294967295 0), false⟩ : MemEntry) :: [],
        s, (NewMemtable DefaultMemtableSize).threshold⟩ : Memtable) =
      ⟨[⟨[107], some (List.replicate 4294967295 0), false⟩], 4294967297,
        DefaultMemtableSize⟩ := by
    intro s hs
    rw [hs, List.nil_append]
    rfl
  exact heq.trans (hrec _ hsz)

theorem hugeMem_full :
    (⟨[⟨[107], some (List.replicate 4294967295 0), false⟩], 4294967297,
      DefaultMemtableSize⟩ : Memtable).IsFull = true := by
  show decide (DefaultMemtableSize ≤ 4294967297) = true
  rfl

theorem hugeCompact :
    maybeCompact (⟨NewMemtable DefaultMemtableSize,
      [readerOf [SSTableEntry.mk [107] (List.replicate 4294967295 0) false]],
      [⟨0, 1, WriteSSTable [SSTableEntry.mk [107] (List.replicate 4294967295 0) false]⟩],
      [], 2⟩ : DBState) = some (⟨NewMemtable DefaultMemtableSize,
      [readerOf [SSTableEntry.mk [107] (List.replicate 4294967295 0) false]],
      [⟨0, 1, WriteSSTable [SSTableEntry.mk [107] (List.replicate 4294967295 0) false]⟩],
      [], 2⟩ : DBState) := by
  unfold maybeCompact
  rw [if_pos (show level0Count (⟨NewMemtable DefaultMemtableSize,
      [readerOf [SSTableEntry.mk [107] (List.replicate 4294967295 0) false]],
      [⟨0, 1, WriteSSTable [SSTableEntry.mk [107] (List.replicate 4294967295 0) false]⟩],
      [], 2⟩ : DBState).files < CompactionThreshold from by
    show (1 : Nat) < 4
    omega)]

theorem flush_match_def (st : DBState) : flush st =
    match OpenSSTable (WriteSSTable (memToSSTEntries st.mem)) with
    | none => none
    | some reader =>
      maybeCompact { st with
        files := ⟨0, st.nextSeq, WriteSSTable (memToSSTEntries st.mem)⟩ :: st.files,
        sstables := reader :: st.sstables,
        nextSeq := st.nextSeq + 1,
        mem := NewMemtable DefaultMemtableSize,
        walBytes := [] } := rfl

theorem open_match_def (files : List DBFile) (walBytes : Bytes) : Open files walBytes =
    match openAll files with
    | none => none
    | some readers =>
      match Replay walBytes with
      | none => none
      | some entries =>
        some { mem := entries.foldl applyWALToMem (NewMemtable DefaultMemtableSize),
               sstables := readers,
               files := files,
               walBytes := walBytes,
               nextSeq := nextSeqAfterLoad files 1 } := rfl

theorem openAll_def (files : List DBFile) : openAll files =
    (sortBySeqDesc files).mapM (fun f => OpenSSTable f.content) := rfl

theorem dbGet_match_def (st : DBState) (key : Bytes) : DB.Get st key =
    match st.mem.Get key with
    | (some v, true) => some (some v)
    | (none, true) => some none
    | (_, false) => sstLoop key st.sstables := rfl

theorem hugeFlush :
    flush (⟨(⟨[⟨[107], some (List.replicate 4294967295 0), false⟩], 4294967297,
      DefaultMemtableSize⟩ : Memtable), [], [],
      encodeWALRecord ⟨1, [107], List.replicate 4294967295 0⟩, 1⟩ : DBState) =
    some (⟨NewMemtable DefaultMemtableSize,
      [readerOf [SSTableEntry.mk [107] (List.replicate 4294967295 0) false]],
      [⟨0, 1, WriteSSTable [SSTableEntry.mk [107] (List.replicate 4294967295 0) false]⟩],
      [], 2⟩ : DBState) := by
  have hmem : memToSSTEntries (⟨(⟨[⟨[107], some (List.replicate 4294967295 0), false⟩], 4294967297,
      DefaultMemtableSize⟩ : Memtable), [], [],
      encodeWALRecord ⟨1, [107], List.replicate 4294967295 0⟩, 1⟩ : DBState).mem =
      [SSTableEntry.mk [107] (List.replicate 4294967295 0) false] := rfl
  rw [flush_match_def]
  simp only [hmem, hugeE_open]
  exact hugeCompact

theorem hugeRun :
    runOps [DBOp.put [107] (List.replicate 4294967295 0)] = some (⟨NewMemtable DefaultMemtableSize,
      [readerOf [SSTableEntry.mk [107] (List.replicate 4294967295 0) false]],
      [⟨0, 1, WriteSSTable [SSTableEntry.mk [107] (List.replicate 4294967295 0) false]⟩],
      [], 2⟩ : DBState) := by
  have hstep : DB.Put (⟨NewMemtable DefaultMemtableSize, [], [], [], 1⟩ : DBState)
      [107] (List.replicate 4294967295 0) = some (⟨NewMemtable DefaultMemtableSize,
      [readerOf [SSTableEntry.mk [107] (List.replicate 4294967295 0) false]],
      [⟨0, 1, WriteSSTable [SSTableEntry.mk [107] (List.replicate 4294967295 0) false]⟩],
      [], 2⟩ : DBState) := by
    rw [db_put_def]
    rw [show (⟨NewMemtable DefaultMemtableSize, [], [], [], 1⟩ : DBState).mem =
      NewMemtable DefaultMemtableSize from rfl]
    rw [hugeMem_put]
    rw [hugeMem_full]
    rw [if_pos rfl]
    rw [show (⟨NewMemtable DefaultMemtableSize, [], [], [], 1⟩ : DBState).walBytes =
      ([] : Bytes) from rfl]
    rw [List.nil_append]
    exact hugeFlush
  unfold runOps
  rw [open_empty]
  show List.foldlM applyOp (⟨NewMemtable DefaultMemtableSize, [], [], [], 1⟩ : DBState)
    [DBOp.put [107] (List.replicate 4294967295 0)] = some (⟨NewMemtable DefaultMemtableSize,
      [readerOf [SSTableEntry.mk [107] (List.replicate 4294967295 0) false]],
      [⟨0, 1, WriteSSTable [SSTableEntry.mk [107] (List.replicate 4294967295 0) false]⟩],
      [], 2⟩ : DBState)
  rw [List.foldlM_cons]
  rw [show applyOp (⟨NewMemtable DefaultMemtableSize, [], [], [], 1⟩ : DBState)
      (DBOp.put [107] (List.replicate 4294967295 0)) =
    DB.Put (⟨NewMemtable DefaultMemtableSize, [], [], [], 1⟩ : DBState) [107]
      (List.replicate 4294967295 0) from rfl]
  rw [hstep]
  rfl

theorem hugeOpenAll :
    openAll [(⟨0, 1, WriteSSTable [SSTableEntry.mk [107] (List.replicate 4294967295 0) false]⟩ : DBFile)] = some [readerOf [SSTableEntry.mk [107] (List.replicate 4294967295 0) false]] := by
  rw [openAll_def]
  rw [show sortBySeqDesc [(⟨0, 1, WriteSSTable [SSTableEntry.mk [107] (List.replicate 4294967295 0) false]⟩ : DBFile)] =
    [(⟨0, 1, WriteSSTable [SSTableEntry.mk [107] (List.replicate 4294967295 0) false]⟩ : DBFile)] from rfl]
  rw [mapM_pointwise (fun f => OpenSSTable f.content) (fun _ => readerOf [SSTableEntry.mk [107] (List.replicate 4294967295 0) false])
    [(⟨0, 1, WriteSSTable [SSTableEntry.mk [107] (List.replicate 4294967295 0) false]⟩ : DBFile)]
    (by intro x hx; rw [List.mem_singleton] at hx; subst hx; exact hugeE_open)]
  rfl

theorem hugeReopen :
    Open [(⟨0, 1, WriteSSTable [SSTableEntry.mk [107] (List.replicate 4294967295 0) false]⟩ : DBFile)] [] = some (⟨NewMemtable DefaultMemtableSize,
      [readerOf [SSTableEntry.mk [107] (List.replicate 4294967295 0) false]],
      [⟨0, 1, WriteSSTable [SSTableEntry.mk [107] (List.replicate 4294967295 0) false]⟩],
      [], 2⟩ : DBState) := by
  rw [open_match_def]
  simp only [hugeOpenAll, show Replay ([] : Bytes) = some [] from wReplay_nil]
  rfl


theorem sstLoop_cons (key : Bytes) (r : SSTableReader) (rest : List SSTableReader) :
    sstLoop key (r :: rest) =
      (match r.Get key with
       | none => none
       | some none => sstLoop key rest
       | some (some (v, tb)) => if tb then some none else some (some v)) := rfl

theorem hugeReader_get : (readerOf [SSTableEntry.mk [107] (List.replicate 4294967295 0) false]).Get [107] = none := by
  have hbloom : (buildBloom [SSTableEntry.mk [107] (List.replicate 4294967295 0) false]).MayContain ([107] : Bytes) = true :=
    buildBloom_mayContain [SSTableEntry.mk [107] (List.replicate 4294967295 0) false]
      (SSTableEntry.mk [107] (List.replicate 4294967295 0) false)
      (List.mem_singleton.mpr rfl)
  have hidx : sstIndexFrom 0 [SSTableEntry.mk [107] (List.replicate 4294967295 0) false] = [(([107] : Bytes), 0)] := by
    rw [sstIndexFrom, sstIndexFrom]
  have hfind : List.find? (fun x => Prod.fst x == ([107] : Bytes))
      [(([107] : Bytes), 0)] = some (([107] : Bytes), 0) := rfl
  have hsearch := sorted_search_found (default : Bytes × Nat) Prod.fst
    [(([107] : Bytes), 0)] (List.pairwise_singleton _ _) [107]
    (([107] : Bytes), 0) hfind
  simp only [SSTableReader.Get, readerOf_file, readerOf_index, readerOf_bloom]
  rw [hbloom]
  rw [if_neg (by simp)]
  rw [hidx]
  rw [if_pos ⟨hsearch.1, by rw [hsearch.2.1]⟩]
  rw [hsearch.2.1]
  rw [show ((([107] : Bytes), 0)).2 = 0 from rfl]
  exact hugeE_readEntry

theorem hugeSt_get : DB.Get (⟨NewMemtable DefaultMemtableSize,
      [readerOf [SSTableEntry.mk [107] (List.replicate 4294967295 0) false]],
      [⟨0, 1, WriteSSTable [SSTableEntry.mk [107] (List.replicate 4294967295 0) false]⟩],
      [], 2⟩ : DBState) [107] = none := by
  rw [dbGet_match_def]
  rw [show (⟨NewMemtable DefaultMemtableSize,
      [readerOf [SSTableEntry.mk [107] (List.replicate 4294967295 0) false]],
      [⟨0, 1, WriteSSTable [SSTableEntry.mk [107] (List.replicate 4294967295 0) false]⟩],
      [], 2⟩ : DBState).mem = NewMemtable DefaultMemtableSize from rfl]
  rw [memtable_get_absent (NewMemtable DefaultMemtableSize) [107]
    (by intro x hx; cases hx)]
  show sstLoop [107] (⟨NewMemtable DefaultMemtableSize,
      [readerOf [SSTableEntry.mk [107] (List.replicate 4294967295 0) false]],
      [⟨0, 1, WriteSSTable [SSTableEntry.mk [107] (List.replicate 4294967295 0) false]⟩],
      [], 2⟩ : DBState).sstables = none
  rw [show (⟨NewMemtable DefaultMemtableSize,
      [readerOf [SSTableEntry.mk [107] (List.replicate 4294967295 0) false]],
      [⟨0, 1, WriteSSTable [SSTableEntry.mk [107] (List.replicate 4294967295 0) false]⟩],
      [], 2⟩ : DBState).sstables = [readerOf [SSTableEntry.mk [107] (List.replicate 4294967295 0) false]] from rfl]
  rw [sstLoop_cons, hugeReader_get]

/-! ### Claims C1, C2 and C9 -/

theorem specGet_foldl_skip (k : Bytes) : ∀ (ops : List DBOp) (acc : Option Bytes),
    (∀ op ∈ ops, (∀ v, op ≠ DBOp.put k v) ∧ op ≠ DBOp.del k) →
    ops.foldl (fun acc op =>
      match op with
      | .put k2 v => if k2 = k then some v else acc
      | .del k2 => if k2 = k then none else acc) acc = acc := by
  intro ops
  induction ops with
  | nil =>
    intro acc h
    rfl
  | cons op rest ih =>
    intro acc h
    rw [List.foldl_cons]
    cases op with
    | put k2 v =>
      have hne : k2 ≠ k := by
        intro he
        exact ((h (DBOp.put k2 v) (by simp)).1 v) (by rw [he])
      show List.foldl _ (if k2 = k then some v else acc) rest = acc
      rw [if_neg hne]
      exact ih acc (fun x hx => h x (by simp [hx]))
    | del k2 =>
      have hne : k2 ≠ k := by
        intro he
        exact (h (DBOp.del k2) (by simp)).2 (by rw [he])
      show List.foldl _ (if k2 = k then none else acc) rest = acc
      rw [if_neg hne]
      exact ih acc (fun x hx => h x (by simp [hx]))

/-- **C1**, amended to the engine's capacity bounds (key lengths below
`2^32`, value lengths at most `2^32 - 2`, fewer than `2^28` operations,
under `2^60` total bytes): every prefix of such a history runs on a
freshly opened engine without a panic, and after it `Get` returns
exactly the most recent `put` value for each key, or not-found when the
most recent operation on the key was a `delete` or no operation ever
targeted it. -/
theorem C1_sequential_get (ops : List DBOp) (hwf : wfOps ops) (p : List DBOp)
    (hp : p <+: ops) :
    ∃ st, runOps p = some st ∧ ∀ k, DB.Get st k = some (specGet p k) := by
  obtain ⟨t, ht⟩ := hp
  obtain ⟨hc, hops, hw⟩ := hwf
  have hlen : p.length + t.length = ops.length := by
    rw [← ht, List.length_append]
  have hwfp : wfOps p := by
    refine ⟨by omega, ?_, ?_⟩
    · intro op hop
      exact hops op (by rw [← ht]; exact List.mem_append_left t hop)
    · have happ : opsWeight (p ++ t) = opsWeight p + opsWeight t := by
        unfold opsWeight
        rw [List.map_append, List.sum_append]
      rw [← ht, happ] at hw
      omega
  obtain ⟨st, h1, h2⟩ := runOps_inv p hwfp
  exact ⟨st, h1, dbGet_of_inv p st h2⟩

/-- **C1**, witness: the three-operation history
`put "a" "1"; del "a"; put "b" ""` and its one-operation prefix. -/
theorem C1_sequential_get_witness :
    wfOps [DBOp.put [97] [49], DBOp.del [97], DBOp.put [98] []] ∧
    ([DBOp.put [97] [49]] : List DBOp) <+:
      [DBOp.put [97] [49], DBOp.del [97], DBOp.put [98] []] ∧
    ∃ st, runOps [DBOp.put [97] [49]] = some st ∧
      ∀ k, DB.Get st k = some (specGet [DBOp.put [97] [49]] k) :=
  ⟨by decide, ⟨[DBOp.del [97], DBOp.put [98] []], rfl⟩,
    C1_sequential_get [DBOp.put [97] [49], DBOp.del [97], DBOp.put [98] []]
      (by decide) [DBOp.put [97] [49]]
      ⟨[DBOp.del [97], DBOp.put [98] []], rfl⟩⟩

/-- **C1**, counterexample to the unamended claim: the single operation
`put "k" v` with `v` of length `2^32 - 1` is accepted (the run returns a
state: the put is acknowledged, the memtable fills and flushes to an
SSTable), but the very next `get` of that key panics inside `readEntry`
(`make([]byte, valLen+1)` wraps to zero and slicing `data[:valLen]` is
out of range), so it returns neither the value nor not-found. -/
theorem C1_cex_get_panics_after_4GiB_put :
    runOps [DBOp.put [107] (List.replicate 4294967295 0)] = some (⟨NewMemtable DefaultMemtableSize,
      [readerOf [SSTableEntry.mk [107] (List.replicate 4294967295 0) false]],
      [⟨0, 1, WriteSSTable [SSTableEntry.mk [107] (List.replicate 4294967295 0) false]⟩],
      [], 2⟩ : DBState) ∧
    DB.Get (⟨NewMemtable DefaultMemtableSize,
      [readerOf [SSTableEntry.mk [107] (List.replicate 4294967295 0) false]],
      [⟨0, 1, WriteSSTable [SSTableEntry.mk [107] (List.replicate 4294967295 0) false]⟩],
      [], 2⟩ : DBState) [107] = none :=
  ⟨hugeRun, hugeSt_get⟩

/-- **C2**, amended to the same capacity bounds as claim C1: for every
acknowledged history, a crash after the last acknowledgement loses only
the in-memory state; reopening the engine from the directory's SSTable
files and WAL bytes succeeds and yields a state whose `Get` returns the
acknowledged value for every key (or not-found when the last
acknowledged operation on it was a `delete`). -/
theorem C2_reopen_preserves_acks (ops : List DBOp) (hwf : wfOps ops) :
    ∃ st st2, runOps ops = some st ∧ Open st.files st.walBytes = some st2 ∧
      ∀ k, DB.Get st2 k = some (specGet ops k) := by
  obtain ⟨st, h1, hInv⟩ := runOps_inv ops hwf
  obtain ⟨st2, h2, h3⟩ := open_of_inv ops st hInv
  exact ⟨st, st2, h1, h2, h3⟩

/-- **C2**, witness: `put "a" "1"; del "a"` survives a crash-reopen. -/
theorem C2_reopen_preserves_acks_witness :
    ∃ st st2, runOps [DBOp.put [97] [49], DBOp.del [97]] = some st ∧
      Open st.files st.walBytes = some st2 ∧
      ∀ k, DB.Get st2 k = some (specGet [DBOp.put [97] [49], DBOp.del [97]] k) :=
  C2_reopen_preserves_acks [DBOp.put [97] [49], DBOp.del [97]] (by decide)

/-- **C2**, counterexample to the unamended claim: the acknowledged
`put "k" v` with `v` of length `2^32 - 1` survives the crash in the
sense that reopen succeeds, but `get` of the acknowledged key panics in
the reopened engine too (the value sits in an SSTable whose `readEntry`
overflows), so it does not return the acknowledged value. -/
theorem C2_cex_reopened_get_panics :
    runOps [DBOp.put [107] (List.replicate 4294967295 0)] = some (⟨NewMemtable DefaultMemtableSize,
      [readerOf [SSTableEntry.mk [107] (List.replicate 4294967295 0) false]],
      [⟨0, 1, WriteSSTable [SSTableEntry.mk [107] (List.replicate 4294967295 0) false]⟩],
      [], 2⟩ : DBState) ∧
    Open ((⟨NewMemtable DefaultMemtableSize,
      [readerOf [SSTableEntry.mk [107] (List.replicate 4294967295 0) false]],
      [⟨0, 1, WriteSSTable [SSTableEntry.mk [107] (List.replicate 4294967295 0) false]⟩],
      [], 2⟩ : DBState)).files ((⟨NewMemtable DefaultMemtableSize,
      [readerOf [SSTableEntry.mk [107] (List.replicate 4294967295 0) false]],
      [⟨0, 1, WriteSSTable [SSTableEntry.mk [107] (List.replicate 4294967295 0) false]⟩],
      [], 2⟩ : DBState)).walBytes = some (⟨NewMemtable DefaultMemtableSize,
      [readerOf [SSTableEntry.mk [107] (List.replicate 4294967295 0) false]],
      [⟨0, 1, WriteSSTable [SSTableEntry.mk [107] (List.replicate 4294967295 0) false]⟩],
      [], 2⟩ : DBState) ∧
    DB.Get (⟨NewMemtable DefaultMemtableSize,
      [readerOf [SSTableEntry.mk [107] (List.replicate 4294967295 0) false]],
      [⟨0, 1, WriteSSTable [SSTableEntry.mk [107] (List.replicate 4294967295 0) false]⟩],
      [], 2⟩ : DBState) [107] = none :=
  ⟨hugeRun, hugeReopen, hugeSt_get⟩

/-- **C9**: the empty value is a live value distinct from a tombstone.
After `put k ""` and any later in-capacity operations not targeting `k`,
`Get k` returns the empty value, not not-found; and the memtable
distinguishes present (`(some v, true)` after a put, including the empty
value), deleted (`(none, true)` after a delete) and absent
(`(none, false)` on a fresh memtable). -/
theorem C9_empty_value_live (ops1 ops2 : List DBOp) (k : Bytes)
    (hwf : wfOps (ops1 ++ DBOp.put k [] :: ops2))
    (hnot : ∀ op ∈ ops2, (∀ v, op ≠ DBOp.put k v) ∧ op ≠ DBOp.del k) :
    (∃ st, runOps (ops1 ++ DBOp.put k [] :: ops2) = some st ∧
      DB.Get st k = some (some [])) ∧
    (∀ m : Memtable, StrictSortedMem m.entries → m.size = memSizeSpec m.entries →
      (∀ e ∈ m.entries, memEntryWF e) → k.length < 4294967296 →
      (m.Put k []).Get k = ((some [] : Option Bytes), true) ∧
      (m.Delete k).Get k = ((none : Option Bytes), true)) ∧
    (NewMemtable DefaultMemtableSize).Get k = (none, false) := by
  refine ⟨?_, ?_, memtable_get_absent _ _ (by intro x hx; cases hx)⟩
  · obtain ⟨st, h1, hInv⟩ := runOps_inv _ hwf
    have hg := dbGet_of_inv _ st hInv k
    have hsplit : ops1 ++ DBOp.put k [] :: ops2 =
        (ops1 ++ [DBOp.put k []]) ++ ops2 := by
      simp
    have h2 : specGet ((ops1 ++ [DBOp.put k []]) ++ ops2) k =
        specGet (ops1 ++ [DBOp.put k []]) k := by
      unfold specGet
      rw [List.foldl_append]
      exact specGet_foldl_skip k ops2 _ hnot
    rw [hsplit] at hg
    rw [h2, specGet_append_put, if_pos rfl] at hg
    exact ⟨st, h1, hg⟩
  · intro m h1 h2 h3 h4
    exact ⟨(memtable_put_effect m k [] h1 h2 h3 h4
        (by decide)).2.2.2.2.2.2.2.1,
      (memtable_delete_effect m k h1 h2 h3 h4).2.2.2.2.2.2.2.1⟩

/-- **C9**, witness: `put "a" "1"; put "b" ""` leaves the empty value
live under key `"b"`. -/
theorem C9_empty_value_live_witness :
    wfOps ([DBOp.put [97] [49]] ++ DBOp.put [98] [] :: []) ∧
    ((∃ st, runOps ([DBOp.put [97] [49]] ++ DBOp.put [98] [] :: []) = some st ∧
      DB.Get st [98] = some (some [])) ∧
    (∀ m : Memtable, StrictSortedMem m.entries → m.size = memSizeSpec m.entries →
      (∀ e ∈ m.entries, memEntryWF e) → List.length [98] < 4294967296 →
      (m.Put [98] []).Get [98] = ((some [] : Option Bytes), true) ∧
      (m.Delete [98]).Get [98] = ((none : Option Bytes), true)) ∧
    (NewMemtable DefaultMemtableSize).Get [98] = (none, false)) :=
  ⟨by decide, C9_empty_value_live [DBOp.put [97] [49]] [] [98] (by decide)
    (by intro op hop; cases hop)⟩

/-- C3: for inputs ordered newest first, each strictly sorted by key (hence
key-unique), and any key `k` present in at least one input (so the newest
entry for `k`, `findNewest sets k`, exists): if that newest entry is a
tombstone the compaction output has no entry for `k`; otherwise the output
contains exactly that newest entry for `k`. -/
theorem C3_compaction_newest_wins (sets : List (List SSTableEntry))
    (hs : ∀ s ∈ sets, StrictSorted s) (k : Bytes) (e : SSTableEntry)
    (hfind : findNewest sets k = some e) :
    (e.tombstone = true →
      (compactEntries sets).filter (fun x => x.key == k) = []) ∧
    (e.tombstone = false →
      (compactEntries sets).filter (fun x => x.key == k) = [e]) := by
  have h := compactEntries_filter sets hs k
  rw [hfind] at h
  refine ⟨fun ht => ?_, fun ht => ?_⟩
  · rw [h]
    simp [ht, Option.toList]
  · rw [h]
    simp [ht, Option.toList]

theorem C3_compaction_newest_wins_witness :
    ((∀ s ∈ [[SSTableEntry.mk [98] [50] false, SSTableEntry.mk [99] [] true],
        [SSTableEntry.mk [97] [1] false, SSTableEntry.mk [98] [1] false,
         SSTableEntry.mk [99] [1] false]], StrictSorted s) ∧
      findNewest [[SSTableEntry.mk [98] [50] false, SSTableEntry.mk [99] [] true],
        [SSTableEntry.mk [97] [1] false, SSTableEntry.mk [98] [1] false,
         SSTableEntry.mk [99] [1] false]] [98] = some (SSTableEntry.mk [98] [50] false) ∧
      findNewest [[SSTableEntry.mk [98] [50] false, SSTableEntry.mk [99] [] true],
        [SSTableEntry.mk [97] [1] false, SSTableEntry.mk [98] [1] false,
         SSTableEntry.mk [99] [1] false]] [99] = some (SSTableEntry.mk [99] [] true)) ∧
    (compactEntries [[SSTableEntry.mk [98] [50] false, SSTableEntry.mk [99] [] true],
        [SSTableEntry.mk [97] [1] false, SSTableEntry.mk [98] [1] false,
         SSTableEntry.mk [99] [1] false]]).filter (fun x => x.key == [98]) =
      [SSTableEntry.mk [98] [50] false] ∧
    (compactEntries [[SSTableEntry.mk [98] [50] false, SSTableEntry.mk [99] [] true],
        [SSTableEntry.mk [97] [1] false, SSTableEntry.mk [98] [1] false,
         SSTableEntry.mk [99] [1] false]]).filter (fun x => x.key == [99]) = [] :=
  ⟨⟨by decide, by decide, by decide⟩,
   (C3_compaction_newest_wins _ (by decide) [98]
      (SSTableEntry.mk [98] [50] false) (by decide)).2 rfl,
   (C3_compaction_newest_wins _ (by decide) [99]
      (SSTableEntry.mk [99] [] true) (by decide)).1 rfl⟩

/-- C10: for inputs each strictly sorted by key (hence with at most one
entry per key), the k-way merge output is strictly sorted by key, has at
most one entry per key, and the entry list Compact hands to the SSTable
writer (merge with tombstones dropped) is strictly sorted as well. -/
theorem C10_merge_sorted_unique (sets : List (List SSTableEntry))
    (hs : ∀ s ∈ sets, StrictSorted s) :
    StrictSorted (kWayMerge sets) ∧
    (∀ k, ((kWayMerge sets).filter (fun e => e.key == k)).length ≤ 1) ∧
    StrictSorted (compactEntries sets) := by
  refine ⟨kWayMerge_sorted sets hs, fun k => ?_, compactEntries_sorted sets hs⟩
  rw [kWayMerge_filter_eq sets hs k]
  cases findNewest sets k <;> simp [Option.toList]

theorem C10_merge_sorted_unique_witness :
    (∀ s ∈ [[SSTableEntry.mk [1] [10] false, SSTableEntry.mk [3] [30] true],
        [SSTableEntry.mk [2] [20] false, SSTableEntry.mk [3] [31] false]],
      StrictSorted s) ∧
    (StrictSorted (kWayMerge
        [[SSTableEntry.mk [1] [10] false, SSTableEntry.mk [3] [30] true],
         [SSTableEntry.mk [2] [20] false, SSTableEntry.mk [3] [31] false]]) ∧
     (∀ k, ((kWayMerge
        [[SSTableEntry.mk [1] [10] false, SSTableEntry.mk [3] [30] true],
         [SSTableEntry.mk [2] [20] false, SSTableEntry.mk [3] [31] false]]).filter
          (fun e => e.key == k)).length ≤ 1) ∧
     StrictSorted (compactEntries
        [[SSTableEntry.mk [1] [10] false, SSTableEntry.mk [3] [30] true],
         [SSTableEntry.mk [2] [20] false, SSTableEntry.mk [3] [31] false]])) :=
  ⟨by decide, C10_merge_sorted_unique _ (by decide)⟩

end LSM
